import Mathlib

/-!
# Magic-bitboard generator: bit primitives, masks, leapers, occupancies and the magic search

A shallow embedding of `src/main.cpp`.  A bitboard (`U64`, `unsigned long long`) is a natural
number below `2 ^ 64`; every operation that can leave that range is reduced modulo `2 ^ 64`.
`int` values that can be negative (ranks, files, the result of `ls1bIndex`) are integers.
Loops whose trip count is not fixed by a counter take a fuel argument; the theorems show that
the fuel handed over by the callers is never exhausted.  The global `randomState` is an
argument and a result of the functions that use it.
-/

namespace ChessEngine

/-! ## Machine arithmetic on `U64` -/

/-- Unsigned 64-bit subtraction `a - b`, wrapping around. -/
def sub64 (a b : Nat) : Nat := (a + 2 ^ 64 - b) % 2 ^ 64

/-- Unsigned 64-bit negation `-a`, wrapping around. -/
def neg64 (a : Nat) : Nat := (2 ^ 64 - a) % 2 ^ 64

/-- Unsigned 64-bit product `a * b`, wrapping around. -/
def mul64 (a b : Nat) : Nat := (a * b) % 2 ^ 64

/-- Unsigned 64-bit complement `~a`. -/
def not64 (a : Nat) : Nat := 2 ^ 64 - 1 - a

/-- The expression `1ULL << square` for an `int` shift count.  C++ defines it for counts
`0..63` only; outside that range the model reduces the count modulo 64, as x86-64 does. -/
def oneShl (square : Int) : Nat := 1 <<< (square % 64).toNat

/-- The macro `get_bit(bitboard, square)`. -/
def get_bit (bitboard : Nat) (square : Int) : Nat := bitboard &&& oneShl square

/-- The macro `pop_bit(bitboard, square)`: the value of `bitboard` after the macro ran. -/
def pop_bit (bitboard : Nat) (square : Int) : Nat :=
  if get_bit bitboard square ≠ 0 then bitboard ^^^ oneShl square else bitboard

/-! ## Bit primitives -/

/-- The `while (bitboard)` loop of `countBits`; returns the final `(bitboard, count)`.
The loop has left through its guard exactly when the returned bitboard is `0`. -/
def countBitsLoop : Nat → Nat → Nat → Nat × Nat
  | 0, bitboard, count => (bitboard, count)
  | fuel + 1, bitboard, count =>
    if bitboard ≠ 0 then
      countBitsLoop fuel (bitboard &&& sub64 bitboard 1) (count + 1)
    else (bitboard, count)

/-- Source function `countBits`. -/
def countBits (bitboard : Nat) : Nat := (countBitsLoop 64 bitboard 0).2

/-- Source function `ls1bIndex`. -/
def ls1bIndex (bitboard : Nat) : Int :=
  if bitboard ≠ 0 then
    (countBits (sub64 (bitboard &&& neg64 bitboard) 1) : Int)
  else -1

/-! ## Constant tables -/

/-- Source table `bishopRelevantBits`. -/
def bishopRelevantBits : List Nat := [
  6, 5, 5, 5, 5, 5, 5, 6,
  5, 5, 5, 5, 5, 5, 5, 5,
  5, 5, 7, 7, 7, 7, 5, 5,
  5, 5, 7, 9, 9, 7, 5, 5,
  5, 5, 7, 9, 9, 7, 5, 5,
  5, 5, 7, 7, 7, 7, 5, 5,
  5, 5, 5, 5, 5, 5, 5, 5,
  6, 5, 5, 5, 5, 5, 5, 6]

/-- Source table `rookRelevantBits`. -/
def rookRelevantBits : List Nat := [
  12, 11, 11, 11, 11, 11, 11, 12,
  11, 10, 10, 10, 10, 10, 10, 11,
  11, 10, 10, 10, 10, 10, 10, 11,
  11, 10, 10, 10, 10, 10, 10, 11,
  11, 10, 10, 10, 10, 10, 10, 11,
  11, 10, 10, 10, 10, 10, 10, 11,
  11, 10, 10, 10, 10, 10, 10, 11,
  12, 11, 11, 11, 11, 11, 11, 12]

/-- Source table `rookMagicNumbers`. -/
def rookMagicNumbers : List Nat := [
  0x98060280800000, 0x200102080410000, 0x1084003808010000, 0x240040040880000,
  0x400024020140206, 0x400a11002040000, 0x400100140844800, 0x2080003444810200,
  0x3010200800000, 0x4006422210000, 0x944100402080000, 0x8104100012c0a000,
  0x4800800400088000, 0x802200040000, 0x800108024800, 0x40200092004400,
  0xe40840026010000, 0x10020c020100002, 0x2010040014, 0x10240014088036,
  0x818080040b0000, 0x805000a010020000, 0x4250012041800400, 0x4001200800409200,
  0x100010a08040000, 0x20601008003, 0x20000043a0008001, 0x8000030030082001,
  0x2808083444, 0x10e701041201800, 0x4480000c02020000, 0x124010108000,
  0x600108400410001, 0x6000043000200002, 0xa804850c04004002, 0x14008080000,
  0x4000240004004001, 0x2004120008101000, 0x10000c4285003000, 0xc00000020100d000,
  0x1c0040a021220006, 0x8000004020028011, 0x8060c20003, 0x8020008400440001,
  0xa62040000, 0x1418000202060010, 0x2404000401010000, 0x42100820000,
  0xc000004000800080, 0x100002000400106, 0x900002048a401200, 0x201001000082100,
  0x40000042a010a00, 0x130000409508200, 0x800000111000408, 0x80c000891220040,
  0x280048440122066, 0x600004010920104, 0x308001008020500c, 0x820000425001001,
  0x8200002c0201084, 0x802024004209040c, 0x1060000801100204, 0x88102100488402]

/-- Source table `bishopMagicNumbers`. -/
def bishopMagicNumbers : List Nat := [
  0x2020448008100, 0x1820843102002050, 0x8908108112005000, 0x4042088010220,
  0x4124504000060141, 0x2001042240440002, 0x104008884100082, 0x61208020210d0,
  0x1015060a1092212, 0x10b4080228004900, 0x8200040822004025, 0x2022082044800,
  0xa002411140224800, 0x120084802500004, 0x412804606104280, 0xcab0088088080250,
  0x480081010c202, 0x108803602244400, 0x20884a1003820010, 0x44044824001061,
  0x2200400a000a0, 0x6000248020802, 0x181020200900400, 0x8802208200842404,
  0x120226064040400, 0x4021004284808, 0x4001404094050200, 0x480a040008010820,
  0x2194082044002002, 0x2008a20001004200, 0x40908041041004, 0x881002200540404,
  0x4001082002082101, 0x8110408880880, 0x8000404040080200, 0x200020082180080,
  0x1184440400114100, 0xc220008020110412, 0x4088084040090100, 0x8822104100121080,
  0x100111884008200a, 0x2844040288820200, 0x90901088003010, 0x1000a218000400,
  0x1102010420204, 0x8414a3483000200, 0x6410849901420400, 0x201080200901040,
  0x204880808050002, 0x1001008201210000, 0x16a6300a890040a, 0x8049000441108600,
  0x2212002060410044, 0x100086308020020, 0x484241408020421, 0x105084028429c085,
  0x4282480801080c, 0x81c098488088240, 0x1400000090480820, 0x4444000030208810,
  0x1020142010820200, 0x2234802004018200, 0xc2040450820a00, 0x2101021090020]

/-! ## Slider masks and blocked attacks -/

/-- One ray loop of the slider functions,
`for (...; guard rank file; rank += dr, file += df) { attacks |= 1ULL << (rank * 8 + file);
if (stops && ((1ULL << (rank * 8 + file)) & block)) break; }`, started at `(rank, file)`.
Each of the sixteen loops of the four slider functions is this loop with its own guard and
step; the mask functions have no `break` (`stops = false`). -/
def rayLoop (guard : Int → Int → Bool) (dr df : Int) (stops : Bool) (block : Nat) :
    Nat → Int → Int → Nat → Nat
  | 0, _, _, attacks => attacks
  | fuel + 1, rank, file, attacks =>
    if guard rank file then
      let attacks := attacks ||| oneShl (rank * 8 + file)
      if stops && (oneShl (rank * 8 + file) &&& block != 0) then attacks
      else rayLoop guard dr df stops block fuel (rank + dr) (file + df) attacks
    else attacks

/-- Source function `maskBishopAttacks`. -/
def maskBishopAttacks (square : Int) : Nat :=
  let attacks := 0
  let targetRank := Int.tdiv square 8
  let targetFile := Int.tmod square 8
  let attacks := rayLoop (fun rank file => decide (rank ≤ 6) && decide (file ≤ 6)) 1 1
    false 0 8 (targetRank + 1) (targetFile + 1) attacks
  let attacks := rayLoop (fun rank file => decide (rank ≥ 1) && decide (file ≤ 6)) (-1) 1
    false 0 8 (targetRank - 1) (targetFile + 1) attacks
  let attacks := rayLoop (fun rank file => decide (rank ≤ 6) && decide (file ≥ 1)) 1 (-1)
    false 0 8 (targetRank + 1) (targetFile - 1) attacks
  let attacks := rayLoop (fun rank file => decide (rank ≥ 1) && decide (file ≥ 1)) (-1) (-1)
    false 0 8 (targetRank - 1) (targetFile - 1) attacks
  attacks

/-- Source function `maskRookAttacks`. -/
def maskRookAttacks (square : Int) : Nat :=
  let attacks := 0
  let targetRank := Int.tdiv square 8
  let targetFile := Int.tmod square 8
  let attacks := rayLoop (fun rank _ => decide (rank ≤ 6)) 1 0
    false 0 8 (targetRank + 1) targetFile attacks
  let attacks := rayLoop (fun rank _ => decide (rank ≥ 1)) (-1) 0
    false 0 8 (targetRank - 1) targetFile attacks
  let attacks := rayLoop (fun _ file => decide (file ≤ 6)) 0 1
    false 0 8 targetRank (targetFile + 1) attacks
  let attacks := rayLoop (fun _ file => decide (file ≥ 1)) 0 (-1)
    false 0 8 targetRank (targetFile - 1) attacks
  attacks

/-- Source function `generateBishopAttacks`. -/
def generateBishopAttacks (square : Int) (block : Nat) : Nat :=
  let attacks := 0
  let targetRank := Int.tdiv square 8
  let targetFile := Int.tmod square 8
  let attacks := rayLoop (fun rank file => decide (rank ≤ 7) && decide (file ≤ 7)) 1 1
    true block 8 (targetRank + 1) (targetFile + 1) attacks
  let attacks := rayLoop (fun rank file => decide (rank ≥ 0) && decide (file ≤ 7)) (-1) 1
    true block 8 (targetRank - 1) (targetFile + 1) attacks
  let attacks := rayLoop (fun rank file => decide (rank ≤ 7) && decide (file ≥ 0)) 1 (-1)
    true block 8 (targetRank + 1) (targetFile - 1) attacks
  let attacks := rayLoop (fun rank file => decide (rank ≥ 0) && decide (file ≥ 0)) (-1) (-1)
    true block 8 (targetRank - 1) (targetFile - 1) attacks
  attacks

/-- Source function `generateRookAttacks`; its four guards are `rank <= 6`, `rank >= 1`,
`file <= 6` and `file >= 1`, as in the source. -/
def generateRookAttacks (square : Int) (block : Nat) : Nat :=
  let attacks := 0
  let targetRank := Int.tdiv square 8
  let targetFile := Int.tmod square 8
  let attacks := rayLoop (fun rank _ => decide (rank ≤ 6)) 1 0
    true block 8 (targetRank + 1) targetFile attacks
  let attacks := rayLoop (fun rank _ => decide (rank ≥ 1)) (-1) 0
    true block 8 (targetRank - 1) targetFile attacks
  let attacks := rayLoop (fun _ file => decide (file ≤ 6)) 0 1
    true block 8 targetRank (targetFile + 1) attacks
  let attacks := rayLoop (fun _ file => decide (file ≥ 1)) 0 (-1)
    true block 8 targetRank (targetFile - 1) attacks
  attacks

/-! ## Occupancy enumeration -/

/-- The `for (int i = 0; i < bitsInMask; i++)` loop of `setOccupancy`; the first argument
is the number of iterations still to run.  `index` is a non-negative `int`, and `1 << i`
is the `int` shift, defined for `i ≤ 30`. -/
def setOccupancyLoop (index : Nat) : Nat → Nat → Nat → Nat → Nat
  | 0, _, _, occupancy => occupancy
  | n + 1, i, attackMask, occupancy =>
    let square := ls1bIndex attackMask
    let attackMask := pop_bit attackMask square
    let occupancy :=
      if index &&& (1 <<< i) ≠ 0 then occupancy ||| oneShl square else occupancy
    setOccupancyLoop index n (i + 1) attackMask occupancy

/-- Source function `setOccupancy`. -/
def setOccupancy (index bitsInMask attackMask : Nat) : Nat :=
  setOccupancyLoop index bitsInMask 0 attackMask 0

/-! ## The magic search: fixture and verification loop of `findMagicNumber` -/

/-- The slot `(int) (occupancy * magicNumber >> (64 - relevantBits))`. -/
def magicIndex (occupancy magicNumber relevantBits : Nat) : Nat :=
  mul64 occupancy magicNumber >>> (64 - relevantBits)

/-- The initialisation `bishop ? maskBishopAttacks(square) : maskRookAttacks(square)`. -/
def attackMaskOf (square : Int) (bishop : Bool) : Nat :=
  if bishop then maskBishopAttacks square else maskRookAttacks square

/-- The expression
`bishop ? generateBishopAttacks(square, occupancy) : generateRookAttacks(square, occupancy)`. -/
def attacksOf (square : Int) (bishop : Bool) (occupancy : Nat) : Nat :=
  if bishop then generateBishopAttacks square occupancy
  else generateRookAttacks square occupancy

/-- The first `occupancyIndices = 1 << relevantBits` entries of the array `occupancies`
after the fill loop. -/
def initOccupancies (relevantBits attackMask : Nat) : List Nat :=
  (List.range (1 <<< relevantBits)).map (fun i => setOccupancy i relevantBits attackMask)

/-- The first `occupancyIndices` entries of the array `attacks` after the fill loop. -/
def initAttacks (square : Int) (bishop : Bool) (occupancies : List Nat) : List Nat :=
  occupancies.map (fun occupancy => attacksOf square bishop occupancy)

/-- The loop `for (index = 0, fail = 0; !fail && index < occupancyIndices; index++)` of
`findMagicNumber`; the first argument is `occupancyIndices - index`.  Returns `fail` and the
array `usedAttacks` as the loop leaves them. -/
def verifyLoop (occupancies attacks : List Nat) (magicNumber relevantBits : Nat) :
    Nat → Nat → List Nat → Bool × List Nat
  | 0, _, usedAttacks => (false, usedAttacks)
  | n + 1, index, usedAttacks =>
    let slot := magicIndex (occupancies.getD index 0) magicNumber relevantBits
    if usedAttacks.getD slot 0 = 0 then
      verifyLoop occupancies attacks magicNumber relevantBits n (index + 1)
        (usedAttacks.set slot (attacks.getD index 0))
    else if usedAttacks.getD slot 0 ≠ attacks.getD index 0 then (true, usedAttacks)
    else verifyLoop occupancies attacks magicNumber relevantBits n (index + 1) usedAttacks

/-- The body of one search iteration of `findMagicNumber` after the pre-filter, for the
candidate `magicNumber`: the fixture, `memset(usedAttacks, 0, ...)` on the 4096 entries, and
the verification loop.  The candidate is returned exactly when the first component (`fail`)
is `false`. -/
def verifyMagic (square : Int) (relevantBits : Nat) (bishop : Bool) (magicNumber : Nat) :
    Bool × List Nat :=
  let attackMask := attackMaskOf square bishop
  let occupancyIndices := 1 <<< relevantBits
  let occupancies := initOccupancies relevantBits attackMask
  let attacks := initAttacks square bishop occupancies
  verifyLoop occupancies attacks magicNumber relevantBits occupancyIndices 0
    (List.replicate 4096 0)

/-! ## Leaper attacks -/

/-- Source constant `not_a_file`. -/
def not_a_file : Nat := 18374403900871474942

/-- Source constant `not_h_file`. -/
def not_h_file : Nat := 9187201950435737471

/-- Source constant `not_hg_file`. -/
def not_hg_file : Nat := 4557430888798830399

/-- Source constant `not_ab_file`. -/
def not_ab_file : Nat := 18229723555195321596

/-- Unsigned 64-bit left shift `a << k` by a constant count `k < 64`; bits shifted out of the
word are lost. -/
def shl64 (a k : Nat) : Nat := (a <<< k) % 2 ^ 64

/-- The macro `set_bit(bitboard, square)`: the value of `bitboard` after the macro ran. -/
def set_bit (bitboard : Nat) (square : Int) : Nat := bitboard ||| oneShl square

/-- Source function `maskPawnAttacks`; `sideToMove` is `0` for white and `1` for black. -/
def maskPawnAttacks (sideToMove : Int) (square : Int) : Nat :=
  let bitboard := 0
  let attacks := 0
  let bitboard := set_bit bitboard square
  if sideToMove = 0 then
    let attacks :=
      if (bitboard >>> 7) &&& not_a_file ≠ 0 then attacks ||| (bitboard >>> 7) else attacks
    let attacks :=
      if (bitboard >>> 9) &&& not_h_file ≠ 0 then attacks ||| (bitboard >>> 9) else attacks
    attacks
  else
    let attacks :=
      if shl64 bitboard 7 &&& not_h_file ≠ 0 then attacks ||| shl64 bitboard 7 else attacks
    let attacks :=
      if shl64 bitboard 9 &&& not_a_file ≠ 0 then attacks ||| shl64 bitboard 9 else attacks
    attacks

/-- Source function `maskKnightAttacks`. -/
def maskKnightAttacks (square : Int) : Nat :=
  let bitboard := 0
  let attacks := 0
  let bitboard := set_bit bitboard square
  let attacks :=
    if (bitboard >>> 17) &&& not_h_file ≠ 0 then attacks ||| (bitboard >>> 17) else attacks
  let attacks :=
    if (bitboard >>> 15) &&& not_a_file ≠ 0 then attacks ||| (bitboard >>> 15) else attacks
  let attacks :=
    if (bitboard >>> 10) &&& not_hg_file ≠ 0 then attacks ||| (bitboard >>> 10) else attacks
  let attacks :=
    if (bitboard >>> 6) &&& not_ab_file ≠ 0 then attacks ||| (bitboard >>> 6) else attacks
  let attacks :=
    if shl64 bitboard 17 &&& not_a_file ≠ 0 then attacks ||| shl64 bitboard 17 else attacks
  let attacks :=
    if shl64 bitboard 15 &&& not_h_file ≠ 0 then attacks ||| shl64 bitboard 15 else attacks
  let attacks :=
    if shl64 bitboard 10 &&& not_ab_file ≠ 0 then attacks ||| shl64 bitboard 10 else attacks
  let attacks :=
    if shl64 bitboard 6 &&& not_hg_file ≠ 0 then attacks ||| shl64 bitboard 6 else attacks
  attacks

/-- Source function `maskKingAttacks`. -/
def maskKingAttacks (square : Int) : Nat :=
  let bitboard := 0
  let attacks := 0
  let bitboard := set_bit bitboard square
  let attacks := if bitboard >>> 8 ≠ 0 then attacks ||| (bitboard >>> 8) else attacks
  let attacks :=
    if (bitboard >>> 1) &&& not_h_file ≠ 0 then attacks ||| (bitboard >>> 1) else attacks
  let attacks :=
    if (bitboard >>> 7) &&& not_a_file ≠ 0 then attacks ||| (bitboard >>> 7) else attacks
  let attacks :=
    if (bitboard >>> 9) &&& not_h_file ≠ 0 then attacks ||| (bitboard >>> 9) else attacks
  let attacks := if shl64 bitboard 8 ≠ 0 then attacks ||| shl64 bitboard 8 else attacks
  let attacks :=
    if shl64 bitboard 1 &&& not_a_file ≠ 0 then attacks ||| shl64 bitboard 1 else attacks
  let attacks :=
    if shl64 bitboard 7 &&& not_h_file ≠ 0 then attacks ||| shl64 bitboard 7 else attacks
  let attacks :=
    if shl64 bitboard 9 &&& not_a_file ≠ 0 then attacks ||| shl64 bitboard 9 else attacks
  attacks

/-- The global tables `pawnAttacks[2][64]`, `knightAttacks[64]` and `kingAttacks[64]`. -/
structure LeaperTables where
  /-- Table `pawnAttacks`, indexed by side and square. -/
  pawnAttacks : List (List Nat)
  /-- Table `knightAttacks`, indexed by square. -/
  knightAttacks : List Nat
  /-- Table `kingAttacks`, indexed by square. -/
  kingAttacks : List Nat

/-- Source function `init_leaper_attacks`: the tables after the loop over the 64 squares. -/
def init_leaper_attacks : LeaperTables where
  pawnAttacks :=
    [(List.range 64).map (fun square => maskPawnAttacks 0 (square : Nat)),
     (List.range 64).map (fun square => maskPawnAttacks 1 (square : Nat))]
  knightAttacks := (List.range 64).map (fun square => maskKnightAttacks (square : Nat))
  kingAttacks := (List.range 64).map (fun square => maskKingAttacks (square : Nat))

/-! ## The calls `setOccupancy` makes to `ls1bIndex` -/

/-- The loop of `setOccupancy` with a record of its calls: `calls` collects, in order, the
bitboard handed to `ls1bIndex` in each iteration.  Returns the final `occupancy` and the
record. -/
def setOccupancyCalls (index : Nat) : Nat → Nat → Nat → Nat → List Nat → Nat × List Nat
  | 0, _, _, occupancy, calls => (occupancy, calls)
  | n + 1, i, attackMask, occupancy, calls =>
    let calls := calls ++ [attackMask]
    let square := ls1bIndex attackMask
    let attackMask := pop_bit attackMask square
    let occupancy := if index &&& (1 <<< i) ≠ 0 then occupancy ||| oneShl square else occupancy
    setOccupancyCalls index n (i + 1) attackMask occupancy calls

/-- Source function `setOccupancy` with the record of its calls to `ls1bIndex`. -/
def setOccupancyTraced (index bitsInMask attackMask : Nat) : Nat × List Nat :=
  setOccupancyCalls index bitsInMask 0 attackMask 0 []

/-! ## Random candidates and the search loop of `findMagicNumber` -/

/-- The initial value of the global `randomState`. -/
def randomStateInit : Nat := 1804289383

/-- Source function `getRandomU32Number` on a 32-bit `randomState`; returns the number and the
new value of `randomState`. -/
def getRandomU32Number (randomState : Nat) : Nat × Nat :=
  let num := randomState
  let num := num ^^^ ((num <<< 13) % 2 ^ 32)
  let num := num ^^^ (num >>> 17)
  let num := num ^^^ ((num <<< 5) % 2 ^ 32)
  (num, num)

/-- Source function `getRandomU64Numbers`; returns the number and the new `randomState`. -/
def getRandomU64Numbers (randomState : Nat) : Nat × Nat :=
  let r1 := getRandomU32Number randomState
  let n1 := r1.1 &&& 0xFFFF
  let r2 := getRandomU32Number r1.2
  let n2 := r2.1 &&& 0xFFFF
  let r3 := getRandomU32Number r2.2
  let n3 := r3.1 &&& 0xFFFF
  let r4 := getRandomU32Number r3.2
  let n4 := r4.1 &&& 0xFFFF
  (n1 ||| shl64 n2 16 ||| shl64 n3 32 ||| shl64 n4 48, r4.2)

/-- Source function `generateMagicNumberCandidate`; returns the candidate and the new
`randomState`.  The three draws are combined with `&`, so the order in which the compiler
evaluates the three calls does not change the candidate. -/
def generateMagicNumberCandidate (randomState : Nat) : Nat × Nat :=
  let a := getRandomU64Numbers randomState
  let b := getRandomU64Numbers a.2
  let c := getRandomU64Numbers b.2
  (a.1 &&& b.1 &&& c.1, c.2)

/-- The pre-filter condition
`countBits(((attackMask) * magicNumber) & 0xFF00000000000000) < 6` of `findMagicNumber`. -/
def prefilterSkips (attackMask magicNumber : Nat) : Bool :=
  decide (countBits (mul64 attackMask magicNumber &&& 0xFF00000000000000) < 6)

/-- The loop `for (int randomCount = 0; randomCount < 1e8; randomCount++)` of
`findMagicNumber`; the first argument is the number of iterations left.  Returns the value
`findMagicNumber` returns (`0` when the loop runs out) and the new `randomState`. -/
def findMagicNumberLoop (square : Int) (relevantBits : Nat) (bishop : Bool) :
    Nat → Nat → Nat × Nat
  | 0, randomState => (0, randomState)
  | n + 1, randomState =>
    let candidate := generateMagicNumberCandidate randomState
    let magicNumber := candidate.1
    let randomState := candidate.2
    if prefilterSkips (attackMaskOf square bishop) magicNumber then
      findMagicNumberLoop square relevantBits bishop n randomState
    else if (verifyMagic square relevantBits bishop magicNumber).1 = false then
      (magicNumber, randomState)
    else findMagicNumberLoop square relevantBits bishop n randomState

/-- Source function `findMagicNumber`, started with the global `randomState` at the given
value; returns the magic number (or `0`) and the new `randomState`.  The arrays of the source
have 4096 entries, so the model follows it for `relevantBits ≤ 12`. -/
def findMagicNumber (square : Int) (relevantBits : Nat) (bishop : Bool) (randomState : Nat) :
    Nat × Nat :=
  findMagicNumberLoop square relevantBits bishop 100000000 randomState

/-! ## Bits of a bitboard (specification side) -/

/-- Number of positions `0..63` whose bit is set, by scanning every position. -/
def naiveCount (b : Nat) : Nat := ((List.range 64).filter (fun i => b.testBit i)).length

/-- A position is the lowest set bit of `b`. -/
def IsLowest (b k : Nat) : Prop := b.testBit k = true ∧ ∀ j, j < k → b.testBit j = false

/-- The bitboard whose set bits are the squares `0..63` satisfying `P`. -/
def boardOf (P : Nat → Bool) : Nat :=
  (List.range 64).foldl (fun acc q => if P q then acc ||| 2 ^ q else acc) 0

/-! ## Rays as lists of squares (specification side) -/

/-- The squares a ray loop visits when nothing stops it, in walking order. -/
def raySquares (guard : Int → Int → Bool) (dr df : Int) : Nat → Int → Int → List Nat
  | 0, _, _ => []
  | fuel + 1, rank, file =>
    if guard rank file then
      ((rank * 8 + file) % 64).toNat :: raySquares guard dr df fuel (rank + dr) (file + df)
    else []

/-- Walking a list of squares: every square is added, and with `stops` the walk ends right
after a square that is set in `block`. -/
def walkRay (stops : Bool) (block : Nat) : List Nat → Nat → Nat
  | [], attacks => attacks
  | p :: ps, attacks =>
    let attacks := attacks ||| 1 <<< p
    if stops && (1 <<< p &&& block != 0) then attacks
    else walkRay stops block ps attacks

/-- Square `q` is reached along the list: it is on the list and no square before it is set
in `block`. -/
def Reach (block q : Nat) : List Nat → Prop
  | [] => False
  | p :: ps => q = p ∨ (block.testBit p = false ∧ Reach block q ps)

/-- The four diagonal rays `generateBishopAttacks` walks from `square`, to the board edge. -/
def bishopRays (square : Int) : List (List Nat) :=
  let targetRank := Int.tdiv square 8
  let targetFile := Int.tmod square 8
  [raySquares (fun rank file => decide (rank ≤ 7) && decide (file ≤ 7)) 1 1 8
      (targetRank + 1) (targetFile + 1),
   raySquares (fun rank file => decide (rank ≥ 0) && decide (file ≤ 7)) (-1) 1 8
      (targetRank - 1) (targetFile + 1),
   raySquares (fun rank file => decide (rank ≤ 7) && decide (file ≥ 0)) 1 (-1) 8
      (targetRank + 1) (targetFile - 1),
   raySquares (fun rank file => decide (rank ≥ 0) && decide (file ≥ 0)) (-1) (-1) 8
      (targetRank - 1) (targetFile - 1)]

/-- The four rays `generateRookAttacks` walks from `square`, with the guards of the source. -/
def rookRays (square : Int) : List (List Nat) :=
  let targetRank := Int.tdiv square 8
  let targetFile := Int.tmod square 8
  [raySquares (fun rank _ => decide (rank ≤ 6)) 1 0 8 (targetRank + 1) targetFile,
   raySquares (fun rank _ => decide (rank ≥ 1)) (-1) 0 8 (targetRank - 1) targetFile,
   raySquares (fun _ file => decide (file ≤ 6)) 0 1 8 targetRank (targetFile + 1),
   raySquares (fun _ file => decide (file ≥ 1)) 0 (-1) 8 targetRank (targetFile - 1)]

/-- The four rays `maskBishopAttacks` walks from `square`, with the guards of the source. -/
def maskBishopRays (square : Int) : List (List Nat) :=
  let targetRank := Int.tdiv square 8
  let targetFile := Int.tmod square 8
  [raySquares (fun rank file => decide (rank ≤ 6) && decide (file ≤ 6)) 1 1 8
      (targetRank + 1) (targetFile + 1),
   raySquares (fun rank file => decide (rank ≥ 1) && decide (file ≤ 6)) (-1) 1 8
      (targetRank - 1) (targetFile + 1),
   raySquares (fun rank file => decide (rank ≤ 6) && decide (file ≥ 1)) 1 (-1) 8
      (targetRank + 1) (targetFile - 1),
   raySquares (fun rank file => decide (rank ≥ 1) && decide (file ≥ 1)) (-1) (-1) 8
      (targetRank - 1) (targetFile - 1)]

/-- Walking several rays one after the other, starting from the empty attack set. -/
def slide (stops : Bool) (block : Nat) (rays : List (List Nat)) : Nat :=
  rays.foldl (fun attacks ray => walkRay stops block ray attacks) 0

/-- For each square `0..63`, the squares of the four rays of `generateBishopAttacks` in walking
order; `bishopRays_eq_table` shows that these are the squares the source loops visit. -/
def bishopRayTable : List (List (List Nat)) := [
  [[9, 18, 27, 36, 45, 54, 63], [], [], []],
  [[10, 19, 28, 37, 46, 55], [], [8], []],
  [[11, 20, 29, 38, 47], [], [9, 16], []],
  [[12, 21, 30, 39], [], [10, 17, 24], []],
  [[13, 22, 31], [], [11, 18, 25, 32], []],
  [[14, 23], [], [12, 19, 26, 33, 40], []],
  [[15], [], [13, 20, 27, 34, 41, 48], []],
  [[], [], [14, 21, 28, 35, 42, 49, 56], []],
  [[17, 26, 35, 44, 53, 62], [1], [], []],
  [[18, 27, 36, 45, 54, 63], [2], [16], [0]],
  [[19, 28, 37, 46, 55], [3], [17, 24], [1]],
  [[20, 29, 38, 47], [4], [18, 25, 32], [2]],
  [[21, 30, 39], [5], [19, 26, 33, 40], [3]],
  [[22, 31], [6], [20, 27, 34, 41, 48], [4]],
  [[23], [7], [21, 28, 35, 42, 49, 56], [5]],
  [[], [], [22, 29, 36, 43, 50, 57], [6]],
  [[25, 34, 43, 52, 61], [9, 2], [], []],
  [[26, 35, 44, 53, 62], [10, 3], [24], [8]],
  [[27, 36, 45, 54, 63], [11, 4], [25, 32], [9, 0]],
  [[28, 37, 46, 55], [12, 5], [26, 33, 40], [10, 1]],
  [[29, 38, 47], [13, 6], [27, 34, 41, 48], [11, 2]],
  [[30, 39], [14, 7], [28, 35, 42, 49, 56], [12, 3]],
  [[31], [15], [29, 36, 43, 50, 57], [13, 4]],
  [[], [], [30, 37, 44, 51, 58], [14, 5]],
  [[33, 42, 51, 60], [17, 10, 3], [], []],
  [[34, 43, 52, 61], [18, 11, 4], [32], [16]],
  [[35, 44, 53, 62], [19, 12, 5], [33, 40], [17, 8]],
  [[36, 45, 54, 63], [20, 13, 6], [34, 41, 48], [18, 9, 0]],
  [[37, 46, 55], [21, 14, 7], [35, 42, 49, 56], [19, 10, 1]],
  [[38, 47], [22, 15], [36, 43, 50, 57], [20, 11, 2]],
  [[39], [23], [37, 44, 51, 58], [21, 12, 3]],
  [[], [], [38, 45, 52, 59], [22, 13, 4]],
  [[41, 50, 59], [25, 18, 11, 4], [], []],
  [[42, 51, 60], [26, 19, 12, 5], [40], [24]],
  [[43, 52, 61], [27, 20, 13, 6], [41, 48], [25, 16]],
  [[44, 53, 62], [28, 21, 14, 7], [42, 49, 56], [26, 17, 8]],
  [[45, 54, 63], [29, 22, 15], [43, 50, 57], [27, 18, 9, 0]],
  [[46, 55], [30, 23], [44, 51, 58], [28, 19, 10, 1]],
  [[47], [31], [45, 52, 59], [29, 20, 11, 2]],
  [[], [], [46, 53, 60], [30, 21, 12, 3]],
  [[49, 58], [33, 26, 19, 12, 5], [], []],
  [[50, 59], [34, 27, 20, 13, 6], [48], [32]],
  [[51, 60], [35, 28, 21, 14, 7], [49, 56], [33, 24]],
  [[52, 61], [36, 29, 22, 15], [50, 57], [34, 25, 16]],
  [[53, 62], [37, 30, 23], [51, 58], [35, 26, 17, 8]],
  [[54, 63], [38, 31], [52, 59], [36, 27, 18, 9, 0]],
  [[55], [39], [53, 60], [37, 28, 19, 10, 1]],
  [[], [], [54, 61], [38, 29, 20, 11, 2]],
  [[57], [41, 34, 27, 20, 13, 6], [], []],
  [[58], [42, 35, 28, 21, 14, 7], [56], [40]],
  [[59], [43, 36, 29, 22, 15], [57], [41, 32]],
  [[60], [44, 37, 30, 23], [58], [42, 33, 24]],
  [[61], [45, 38, 31], [59], [43, 34, 25, 16]],
  [[62], [46, 39], [60], [44, 35, 26, 17, 8]],
  [[63], [47], [61], [45, 36, 27, 18, 9, 0]],
  [[], [], [62], [46, 37, 28, 19, 10, 1]],
  [[], [49, 42, 35, 28, 21, 14, 7], [], []],
  [[], [50, 43, 36, 29, 22, 15], [], [48]],
  [[], [51, 44, 37, 30, 23], [], [49, 40]],
  [[], [52, 45, 38, 31], [], [50, 41, 32]],
  [[], [53, 46, 39], [], [51, 42, 33, 24]],
  [[], [54, 47], [], [52, 43, 34, 25, 16]],
  [[], [55], [], [53, 44, 35, 26, 17, 8]],
  [[], [], [], [54, 45, 36, 27, 18, 9, 0]]]

/-- For each square `0..63`, the squares of the four rays of `generateRookAttacks` in walking
order; `rookRays_eq_table` shows that these are the squares the source loops visit. -/
def rookRayTable : List (List (List Nat)) := [
  [[8, 16, 24, 32, 40, 48], [], [1, 2, 3, 4, 5, 6], []],
  [[9, 17, 25, 33, 41, 49], [], [2, 3, 4, 5, 6], []],
  [[10, 18, 26, 34, 42, 50], [], [3, 4, 5, 6], [1]],
  [[11, 19, 27, 35, 43, 51], [], [4, 5, 6], [2, 1]],
  [[12, 20, 28, 36, 44, 52], [], [5, 6], [3, 2, 1]],
  [[13, 21, 29, 37, 45, 53], [], [6], [4, 3, 2, 1]],
  [[14, 22, 30, 38, 46, 54], [], [], [5, 4, 3, 2, 1]],
  [[15, 23, 31, 39, 47, 55], [], [], [6, 5, 4, 3, 2, 1]],
  [[16, 24, 32, 40, 48], [], [9, 10, 11, 12, 13, 14], []],
  [[17, 25, 33, 41, 49], [], [10, 11, 12, 13, 14], []],
  [[18, 26, 34, 42, 50], [], [11, 12, 13, 14], [9]],
  [[19, 27, 35, 43, 51], [], [12, 13, 14], [10, 9]],
  [[20, 28, 36, 44, 52], [], [13, 14], [11, 10, 9]],
  [[21, 29, 37, 45, 53], [], [14], [12, 11, 10, 9]],
  [[22, 30, 38, 46, 54], [], [], [13, 12, 11, 10, 9]],
  [[23, 31, 39, 47, 55], [], [], [14, 13, 12, 11, 10, 9]],
  [[24, 32, 40, 48], [8], [17, 18, 19, 20, 21, 22], []],
  [[25, 33, 41, 49], [9], [18, 19, 20, 21, 22], []],
  [[26, 34, 42, 50], [10], [19, 20, 21, 22], [17]],
  [[27, 35, 43, 51], [11], [20, 21, 22], [18, 17]],
  [[28, 36, 44, 52], [12], [21, 22], [19, 18, 17]],
  [[29, 37, 45, 53], [13], [22], [20, 19, 18, 17]],
  [[30, 38, 46, 54], [14], [], [21, 20, 19, 18, 17]],
  [[31, 39, 47, 55], [15], [], [22, 21, 20, 19, 18, 17]],
  [[32, 40, 48], [16, 8], [25, 26, 27, 28, 29, 30], []],
  [[33, 41, 49], [17, 9], [26, 27, 28, 29, 30], []],
  [[34, 42, 50], [18, 10], [27, 28, 29, 30], [25]],
  [[35, 43, 51], [19, 11], [28, 29, 30], [26, 25]],
  [[36, 44, 52], [20, 12], [29, 30], [27, 26, 25]],
  [[37, 45, 53], [21, 13], [30], [28, 27, 26, 25]],
  [[38, 46, 54], [22, 14], [], [29, 28, 27, 26, 25]],
  [[39, 47, 55], [23, 15], [], [30, 29, 28, 27, 26, 25]],
  [[40, 48], [24, 16, 8], [33, 34, 35, 36, 37, 38], []],
  [[41, 49], [25, 17, 9], [34, 35, 36, 37, 38], []],
  [[42, 50], [26, 18, 10], [35, 36, 37, 38], [33]],
  [[43, 51], [27, 19, 11], [36, 37, 38], [34, 33]],
  [[44, 52], [28, 20, 12], [37, 38], [35, 34, 33]],
  [[45, 53], [29, 21, 13], [38], [36, 35, 34, 33]],
  [[46, 54], [30, 22, 14], [], [37, 36, 35, 34, 33]],
  [[47, 55], [31, 23, 15], [], [38, 37, 36, 35, 34, 33]],
  [[48], [32, 24, 16, 8], [41, 42, 43, 44, 45, 46], []],
  [[49], [33, 25, 17, 9], [42, 43, 44, 45, 46], []],
  [[50], [34, 26, 18, 10], [43, 44, 45, 46], [41]],
  [[51], [35, 27, 19, 11], [44, 45, 46], [42, 41]],
  [[52], [36, 28, 20, 12], [45, 46], [43, 42, 41]],
  [[53], [37, 29, 21, 13], [46], [44, 43, 42, 41]],
  [[54], [38, 30, 22, 14], [], [45, 44, 43, 42, 41]],
  [[55], [39, 31, 23, 15], [], [46, 45, 44, 43, 42, 41]],
  [[], [40, 32, 24, 16, 8], [49, 50, 51, 52, 53, 54], []],
  [[], [41, 33, 25, 17, 9], [50, 51, 52, 53, 54], []],
  [[], [42, 34, 26, 18, 10], [51, 52, 53, 54], [49]],
  [[], [43, 35, 27, 19, 11], [52, 53, 54], [50, 49]],
  [[], [44, 36, 28, 20, 12], [53, 54], [51, 50, 49]],
  [[], [45, 37, 29, 21, 13], [54], [52, 51, 50, 49]],
  [[], [46, 38, 30, 22, 14], [], [53, 52, 51, 50, 49]],
  [[], [47, 39, 31, 23, 15], [], [54, 53, 52, 51, 50, 49]],
  [[], [48, 40, 32, 24, 16, 8], [57, 58, 59, 60, 61, 62], []],
  [[], [49, 41, 33, 25, 17, 9], [58, 59, 60, 61, 62], []],
  [[], [50, 42, 34, 26, 18, 10], [59, 60, 61, 62], [57]],
  [[], [51, 43, 35, 27, 19, 11], [60, 61, 62], [58, 57]],
  [[], [52, 44, 36, 28, 20, 12], [61, 62], [59, 58, 57]],
  [[], [53, 45, 37, 29, 21, 13], [62], [60, 59, 58, 57]],
  [[], [54, 46, 38, 30, 22, 14], [], [61, 60, 59, 58, 57]],
  [[], [55, 47, 39, 31, 23, 15], [], [62, 61, 60, 59, 58, 57]]]

/-! ## Board geometry (specification side) -/

/-- Rank index `0..7` of a square. -/
def rankOf (q : Nat) : Int := ((q / 8 : Nat) : Int)

/-- File index `0..7` of a square. -/
def fileOf (q : Nat) : Int := ((q % 8 : Nat) : Int)

/-- Square `q` is on one of the two diagonals through `s`. -/
def OnDiagonal (s q : Nat) : Prop :=
  (rankOf q - rankOf s).natAbs = (fileOf q - fileOf s).natAbs

/-- Square `q` is on the rank or on the file of `s`. -/
def OnLine (s q : Nat) : Prop := rankOf q = rankOf s ∨ fileOf q = fileOf s

/-- Square `p` lies strictly between `s` and `q` on the straight segment joining them:
it is on the line through both, inside their bounding box, and is neither of them. -/
def StrictlyBetween (s q p : Nat) : Prop :=
  p ≠ s ∧ p ≠ q ∧
  (rankOf p - rankOf s) * (fileOf q - fileOf s) = (fileOf p - fileOf s) * (rankOf q - rankOf s) ∧
  min (rankOf s) (rankOf q) ≤ rankOf p ∧ rankOf p ≤ max (rankOf s) (rankOf q) ∧
  min (fileOf s) (fileOf q) ≤ fileOf p ∧ fileOf p ≤ max (fileOf s) (fileOf q)

/-- Square `q` is on the border of the board: rank 0, rank 7, file 0 or file 7. -/
def OnBorder (q : Nat) : Prop := q / 8 = 0 ∨ q / 8 = 7 ∨ q % 8 = 0 ∨ q % 8 = 7

instance (s q : Nat) : Decidable (OnDiagonal s q) := by unfold OnDiagonal; exact inferInstance

instance (s q : Nat) : Decidable (OnLine s q) := by unfold OnLine; exact inferInstance

instance (s q p : Nat) : Decidable (StrictlyBetween s q p) := by
  unfold StrictlyBetween; exact inferInstance

instance (q : Nat) : Decidable (OnBorder q) := by unfold OnBorder; exact inferInstance

/-- The attack set the ray-tracing description gives a rook: `q` is another square of the rank
or file of `s` and no square strictly between `s` and `q` is set in `occ`. -/
def RookRayTraced (s occ q : Nat) : Prop :=
  q < 64 ∧ q ≠ s ∧ OnLine s q ∧ ∀ p, p < 64 → StrictlyBetween s q p → occ.testBit p = false

/-- The attack set the ray-tracing description gives a bishop: `q` is another square of a
diagonal through `s` and no square strictly between `s` and `q` is set in `occ`. -/
def BishopRayTraced (s occ q : Nat) : Prop :=
  q < 64 ∧ q ≠ s ∧ OnDiagonal s q ∧
    ∀ p, p < 64 → StrictlyBetween s q p → occ.testBit p = false

/-- The finite geometric facts about the rays walked from `s`: every square on a ray is a
board square other than `s` satisfying `good`, the squares before it on the ray are exactly
the squares strictly between `s` and it, and every square satisfying `good` is on a ray. -/
def RaysTrace (good : Nat → Nat → Prop) [∀ s q, Decidable (good s q)] (s : Nat)
    (rays : List (List Nat)) : Prop :=
  (∀ ray ∈ rays, ∀ k, k < ray.length →
    ray.getD k 0 < 64 ∧ ray.getD k 0 ≠ s ∧ good s (ray.getD k 0) ∧
    ∀ p, p < 64 → (StrictlyBetween s (ray.getD k 0) p ↔ p ∈ ray.take k)) ∧
  (∀ q, q < 64 → q ≠ s → good s q → ∃ ray ∈ rays, q ∈ ray)

instance (good : Nat → Nat → Prop) [∀ s q, Decidable (good s q)] (s : Nat)
    (rays : List (List Nat)) : Decidable (RaysTrace good s rays) := by
  unfold RaysTrace; exact inferInstance

/-! ## A decision procedure for the geometry of ray tables (proof side) -/

/-- Boolean form of `OnDiagonal`, on natural numbers. -/
def diagB (s q : Nat) : Bool :=
  Nat.beq (Nat.add (Nat.div q 8) (Nat.mod s 8)) (Nat.add (Nat.mod q 8) (Nat.div s 8)) ||
  Nat.beq (Nat.add (Nat.div q 8) (Nat.mod q 8)) (Nat.add (Nat.div s 8) (Nat.mod s 8))

/-- Boolean form of `StrictlyBetween`, on natural numbers. -/
def betweenB (s q p : Nat) : Bool :=
  !Nat.beq p s && !Nat.beq p q &&
  Nat.beq
    (Nat.add (Nat.add (Nat.mul (Nat.div p 8) (Nat.mod q 8)) (Nat.mul (Nat.mod p 8) (Nat.div s 8)))
      (Nat.mul (Nat.mod s 8) (Nat.div q 8)))
    (Nat.add (Nat.add (Nat.mul (Nat.mod p 8) (Nat.div q 8)) (Nat.mul (Nat.div p 8) (Nat.mod s 8)))
      (Nat.mul (Nat.div s 8) (Nat.mod q 8))) &&
  ((Nat.ble (Nat.div s 8) (Nat.div p 8) && Nat.ble (Nat.div p 8) (Nat.div q 8)) ||
    (Nat.ble (Nat.div q 8) (Nat.div p 8) && Nat.ble (Nat.div p 8) (Nat.div s 8))) &&
  ((Nat.ble (Nat.mod s 8) (Nat.mod p 8) && Nat.ble (Nat.mod p 8) (Nat.mod q 8)) ||
    (Nat.ble (Nat.mod q 8) (Nat.mod p 8) && Nat.ble (Nat.mod p 8) (Nat.mod s 8)))

/-- Checks one ray from its first square on; `pre` is the bitboard of the squares already
passed.  Each square must be a board square other than `s` satisfying `goodB`, and the
squares strictly between `s` and it must be exactly the squares already passed. -/
def rayTraceB (goodB : Nat → Nat → Bool) (s : Nat) : Nat → List Nat → Bool
  | _, [] => true
  | pre, q :: rest =>
    Nat.blt q 64 && !Nat.beq q s && goodB s q &&
    Nat.beq (boardOf fun p => betweenB s q p) pre &&
    rayTraceB goodB s (Nat.lor pre (Nat.shiftLeft 1 q)) rest

/-- Boolean form of `RaysTrace`. -/
def traceCheck (goodB : Nat → Nat → Bool) (s : Nat) (rays : List (List Nat)) : Bool :=
  rays.all (fun ray => rayTraceB goodB s 0 ray) &&
  (List.range 64).all fun q =>
    Nat.beq q s || !goodB s q || rays.any fun ray => ray.contains q

/-! ## A decision procedure for magic validity (proof side)

The occupancies of a mask are grouped by where each ray walk stops.  The attack set is constant
on a group, so a magic number is valid as soon as no slot is used by two groups. -/

/-- Evaluates `n` before it is handed to `k`. -/
def forceNat {α : Type} (n : Nat) (k : Nat → α) : α :=
  Nat.rec (k 0) (fun m _ => k (Nat.succ m)) n

/-- Evaluates the list `l` before it is handed to `k`. -/
def forceList {α : Type} : List Nat → (List Nat → α) → α
  | [], k => k []
  | x :: xs, k => forceNat x fun x1 => forceList xs fun xs1 => k (x1 :: xs1)

/-- The ways a walk along `ray` can end: at a blocker on a square before the last one, with the
squares behind it free, or on the last square, which is then free itself.  Each entry is the
bitboard of the blocker (or `0`) and the list of free squares. -/
def rayChoices : List Nat → List (Nat × List Nat)
  | [] => [(0, [])]
  | p :: ps =>
    match ps with
    | [] => [(0, [p])]
    | _ :: _ => (2 ^ p, ps) :: rayChoices ps

/-- All combinations of one choice per ray: the blockers together and the free squares
together. -/
def classes : List (List Nat) → List (Nat × List Nat)
  | [] => [(0, [])]
  | ray :: rays =>
    (rayChoices ray).flatMap fun c => (classes rays).map fun d => (c.1 ||| d.1, c.2 ++ d.2)

/-- An occupancy belongs to a group: it holds the blockers of the group, and its other squares
are free squares of the group inside the mask. -/
def InClass (mask : Nat) (c : Nat × List Nat) (o : Nat) : Prop :=
  (∀ q, c.1.testBit q = true → o.testBit q = true) ∧
  (∀ q, o.testBit q = true → c.1.testBit q = true ∨ (q ∈ c.2 ∧ mask.testBit q = true))

/-- The slot `(occupancy * magic mod w) >> sh`. -/
def slotOf (magic w sh occ : Nat) : Nat :=
  Nat.shiftRight (Nat.mod (Nat.mul occ magic) w) sh

/-- The slots of the occupancies `occ ∪ sub`, `sub` a set of squares of the list, added to the
bitmap `slots`. -/
def subsetSlots (magic w sh : Nat) (free : List Nat) : Nat → Nat → Nat :=
  List.rec
    (fun occ slots => Nat.lor slots (Nat.shiftLeft 1 (slotOf magic w sh occ)))
    (fun p _ ih occ slots =>
      forceNat (ih occ slots) fun slots1 =>
      forceNat (Nat.lor occ (Nat.shiftLeft 1 p)) fun occ1 => ih occ1 slots1)
    free

/-- Goes through the groups; `used` is the bitmap of the slots taken by the groups seen so
far.  Fails when a group uses a slot that is already taken. -/
def checkClasses (mask magic w sh : Nat) : List (Nat × List Nat) → Nat → Bool
  | [], _ => true
  | c :: cs, used =>
    forceList (c.2.filter fun q => mask.testBit q) fun free =>
    forceNat c.1 fun fixed =>
    forceNat (subsetSlots magic w sh free fixed 0) fun slots =>
    bif Nat.beq (Nat.land slots used) 0 then
      forceNat (Nat.lor used slots) fun used1 => checkClasses mask magic w sh cs used1
    else false

/-- The check for one square: the rays are pairwise disjoint lists without repetition, they
cover the mask, and no slot is shared by two groups. -/
def magicCheck (rays : List (List Nat)) (mask magic bits : Nat) : Bool :=
  forceNat mask fun mask1 => forceNat magic fun magic1 => forceNat (2 ^ 64) fun w =>
  forceNat (64 - bits) fun sh =>
    decide (rays.flatten.Nodup) &&
    (List.range 64).all (fun q => !mask1.testBit q || rays.flatten.contains q) &&
    Nat.blt mask1 w &&
    checkClasses mask1 magic1 w sh (classes rays) 0

/-- The check of `rookMagicNumbers` at one square. -/
def rookCheck (s : Nat) : Bool :=
  magicCheck (rookRayTable.getD s []) (maskRookAttacks (s : Nat)) (rookMagicNumbers.getD s 0)
    (rookRelevantBits.getD s 0)

/-- The check of `bishopMagicNumbers` at one square. -/
def bishopCheck (s : Nat) : Bool :=
  magicCheck (bishopRayTable.getD s []) (maskBishopAttacks (s : Nat))
    (bishopMagicNumbers.getD s 0) (bishopRelevantBits.getD s 0)

/-! ## Leaper geometry (specification side) -/

/-- Boolean form of `|a - b| = d`, on natural numbers. -/
def distB (a b d : Nat) : Bool := Nat.beq (a + d) b || Nat.beq (b + d) a

/-- Square `q` is a knight move away from `s`. -/
def knightB (s q : Nat) : Bool :=
  (distB (q / 8) (s / 8) 1 && distB (q % 8) (s % 8) 2) ||
  (distB (q / 8) (s / 8) 2 && distB (q % 8) (s % 8) 1)

/-- Square `q` is a king move away from `s`. -/
def kingB (s q : Nat) : Bool :=
  !Nat.beq q s && Nat.ble (q / 8) (s / 8 + 1) && Nat.ble (s / 8) (q / 8 + 1) &&
    Nat.ble (q % 8) (s % 8 + 1) && Nat.ble (s % 8) (q % 8 + 1)

/-- Square `q` is one rank towards rank index `0` from `s`, on a neighbouring file. -/
def whitePawnB (s q : Nat) : Bool := Nat.beq (q / 8 + 1) (s / 8) && distB (q % 8) (s % 8) 1

/-- Square `q` is one rank towards rank index `7` from `s`, on a neighbouring file. -/
def blackPawnB (s q : Nat) : Bool := Nat.beq (s / 8 + 1) (q / 8) && distB (q % 8) (s % 8) 1

/-- Square `q` is the on-board square `dr` ranks and `df` files away from `s`. -/
def IsStep (s : Nat) (dr df : Int) (q : Nat) : Prop :=
  0 ≤ rankOf s + dr ∧ rankOf s + dr ≤ 7 ∧ 0 ≤ fileOf s + df ∧ fileOf s + df ≤ 7 ∧
    (q : Int) = (rankOf s + dr) * 8 + (fileOf s + df)

/-! ## Rays and masks (specification side) -/

/-- Every square of every ray in `rays`, the last square of each ray apart, is set in `mask`. -/
def coverCheck (mask : Nat) (rays : List (List Nat)) : Bool :=
  forceNat mask fun mask1 => rays.all fun ray => ray.dropLast.all fun q => mask1.testBit q

/-- The guard of a ray that is walked up to the board edge. -/
def onBoard (rank file : Int) : Bool :=
  decide (0 ≤ rank) && decide (rank ≤ 7) && decide (0 ≤ file) && decide (file ≤ 7)

/-- The four rank and file rays from `s` to the board edge, nearest square first, in the order
in which `generateRookAttacks` walks them. -/
def rookEdgeRays (s : Nat) : List (List Nat) :=
  [raySquares onBoard 1 0 8 (rankOf s + 1) (fileOf s),
   raySquares onBoard (-1) 0 8 (rankOf s - 1) (fileOf s),
   raySquares onBoard 0 1 8 (rankOf s) (fileOf s + 1),
   raySquares onBoard 0 (-1) 8 (rankOf s) (fileOf s - 1)]

/-- The four diagonal rays from `s` to the board edge, nearest square first, in the order in
which `generateBishopAttacks` walks them. -/
def bishopEdgeRays (s : Nat) : List (List Nat) :=
  [raySquares onBoard 1 1 8 (rankOf s + 1) (fileOf s + 1),
   raySquares onBoard (-1) 1 8 (rankOf s - 1) (fileOf s + 1),
   raySquares onBoard 1 (-1) 8 (rankOf s + 1) (fileOf s - 1),
   raySquares onBoard (-1) (-1) 8 (rankOf s - 1) (fileOf s - 1)]

/-- Boolean form of `OnLine`, on natural numbers. -/
def lineB (s q : Nat) : Bool :=
  Nat.beq (Nat.div q 8) (Nat.div s 8) || Nat.beq (Nat.mod q 8) (Nat.mod s 8)

/-- Evaluates the rays `l` before they are handed to `k`. -/
def forceRays {α : Type} : List (List Nat) → (List (List Nat) → α) → α
  | [], k => k []
  | ray :: rays, k => forceList ray fun ray1 => forceRays rays fun rays1 => k (ray1 :: rays1)

/-- The rule of the first blocker on one ray: if some square of `ray` is set in `occ`, the ray
splits into free squares `pre`, the first blocker `b` and the squares `post` beyond it; `b` is
in `attacks` and no square of `post` is. -/
def FirstBlockerRule (occ attacks : Nat) (ray : List Nat) : Prop :=
  (∃ q ∈ ray, occ.testBit q = true) →
    ∃ pre b post, ray = pre ++ b :: post ∧ (∀ p ∈ pre, occ.testBit p = false) ∧
      occ.testBit b = true ∧ attacks.testBit b = true ∧ ∀ q ∈ post, attacks.testBit q = false

/-- Each ray of `edges` starts with the ray of `rays` at the same position, and goes on with
squares that are neither in `mask` nor in `flat`. -/
def prefixCheck (mask : Nat) (flat : List Nat) : List (List Nat) → List (List Nat) → Bool
  | edge :: edges, ray :: rays =>
    forceList edge fun edge1 =>
      decide (edge1.take ray.length = ray) &&
      (edge1.drop ray.length).all (fun q => !mask.testBit q && !flat.contains q) &&
      prefixCheck mask flat edges rays
  | [], [] => true
  | _, _ => false

/-- The check that relates the edge rays of a rook on `s` to the rays the code walks. -/
def rookEdgeCheck (s : Nat) : Bool :=
  forceNat (maskRookAttacks (s : Nat)) fun mask =>
    forceList (rookRayTable.getD s []).flatten fun flat =>
      prefixCheck mask flat (rookEdgeRays s) (rookRayTable.getD s [])

/-! ## Calls with a defined result (specification side) -/

/-- The traced run computes what `setOccupancy` computes, makes `bitsInMask` calls to
`ls1bIndex`, and each call receives a nonzero bitboard and returns an index in `0..63`. -/
def CallsDefined (index bitsInMask attackMask : Nat) : Prop :=
  (setOccupancyTraced index bitsInMask attackMask).1 = setOccupancy index bitsInMask attackMask ∧
  (setOccupancyTraced index bitsInMask attackMask).2.length = bitsInMask ∧
  ∀ b ∈ (setOccupancyTraced index bitsInMask attackMask).2,
    b ≠ 0 ∧ 0 ≤ ls1bIndex b ∧ ls1bIndex b ≤ 63

/-! ## Candidates of the search (specification side) -/

/-- The candidate drawn in iteration `k` of a search that starts with `randomState` and has
not returned before. -/
def candidateAt : Nat → Nat → Nat
  | randomState, 0 => (generateMagicNumberCandidate randomState).1
  | randomState, k + 1 => candidateAt (generateMagicNumberCandidate randomState).2 k

/-- A candidate passes verification: the pre-filter lets it through and the verification loop
ends without `fail`. -/
def Accepted (square : Int) (relevantBits : Nat) (bishop : Bool) (magicNumber : Nat) : Prop :=
  prefilterSkips (attackMaskOf square bishop) magicNumber = false ∧
    (verifyMagic square relevantBits bishop magicNumber).1 = false

/-- None of the first `n` candidates passes verification. -/
def NoneAccepted (square : Int) (relevantBits : Nat) (bishop : Bool) (randomState n : Nat) :
    Prop :=
  ∀ k, k < n → ¬ Accepted square relevantBits bishop (candidateAt randomState k)

/-- Candidate `k` is the first one that passes verification. -/
def FirstAccepted (square : Int) (relevantBits : Nat) (bishop : Bool) (randomState k : Nat) :
    Prop :=
  Accepted square relevantBits bishop (candidateAt randomState k) ∧
    NoneAccepted square relevantBits bishop randomState k

/-! ## States of the random generator (specification side) -/

/-- The value of `randomState` after `n` calls of `getRandomU32Number`, starting from the
seed. -/
def randomStateAfter : Nat → Nat
  | 0 => randomStateInit
  | n + 1 => (getRandomU32Number (randomStateAfter n)).2

/-! ## Bit-level facts -/

theorem sub64_one {b : Nat} (hb : b ≠ 0) (hlt : b < 2 ^ 64) : sub64 b 1 = b - 1 := by
  unfold sub64
  have h1 : b + 2 ^ 64 - 1 = (b - 1) + 2 ^ 64 := by omega
  rw [h1, Nat.add_mod_right, Nat.mod_eq_of_lt (by omega)]

theorem neg64_eq {b : Nat} (hb : b ≠ 0) : neg64 b = 2 ^ 64 - b := by
  unfold neg64
  exact Nat.mod_eq_of_lt (by omega)

theorem exists_isLowest {b : Nat} (hb : b ≠ 0) : ∃ k, IsLowest b k := by
  classical
  have h := Nat.ne_zero_implies_bit_true hb
  exact ⟨Nat.find h, Nat.find_spec h, fun j hj => by
    have := Nat.find_min h hj
    simpa using this⟩

theorem isLowest_lt {b k n : Nat} (h : IsLowest b k) (hlt : b < 2 ^ n) : k < n := by
  by_contra hk
  have hk' : n ≤ k := Nat.le_of_not_lt hk
  have : b < 2 ^ k := lt_of_lt_of_le hlt (Nat.pow_le_pow_right (by decide) hk')
  have h2 := Nat.testBit_lt_two_pow this
  rw [h.1] at h2
  exact Bool.noConfusion h2

theorem testBit_pred_of_isLowest : ∀ (k b : Nat), IsLowest b k → ∀ i,
    (b - 1).testBit i = if i < k then true else if i = k then false else b.testBit i := by
  intro k
  induction k with
  | zero =>
    intro b h i
    have h0 : b % 2 = 1 := by simpa [Nat.testBit_zero] using h.1
    cases i with
    | zero => simp [Nat.testBit_zero]; omega
    | succ i =>
      have : (b - 1) / 2 = b / 2 := by omega
      simp [Nat.testBit_succ, this]
  | succ k ih =>
    intro b h i
    have h0 : b % 2 = 0 := by
      have := h.2 0 (Nat.succ_pos k)
      simpa [Nat.testBit_zero] using this
    have hb : b ≠ 0 := by
      intro hb
      have := h.1
      simp [hb] at this
    have hlow : IsLowest (b / 2) k := by
      refine ⟨?_, fun j hj => ?_⟩
      · rw [Nat.testBit_div_two]; exact h.1
      · rw [Nat.testBit_div_two]; exact h.2 (j + 1) (by omega)
    cases i with
    | zero => simp [Nat.testBit_zero]; omega
    | succ i =>
      have : (b - 1) / 2 = b / 2 - 1 := by omega
      rw [Nat.testBit_succ, this, ih (b / 2) hlow i, Nat.testBit_succ]
      simp

theorem testBit_clear_lowest {b k : Nat} (h : IsLowest b k) (i : Nat) :
    (b &&& (b - 1)).testBit i = (b.testBit i && decide (i ≠ k)) := by
  rw [Nat.testBit_and, testBit_pred_of_isLowest k b h i]
  by_cases h1 : i < k
  · have := h.2 i h1
    simp [h1, this]
  · by_cases h2 : i = k
    · simp [h2]
    · simp [h1, h2]

theorem and_neg_of_isLowest {b k : Nat} (h : IsLowest b k) (hlt : b < 2 ^ 64) :
    b &&& (2 ^ 64 - b) = 2 ^ k := by
  have hb : b ≠ 0 := by
    intro hb
    have := h.1
    simp [hb] at this
  have hk : k < 64 := isLowest_lt h hlt
  apply Nat.eq_of_testBit_eq
  intro i
  have e : 2 ^ 64 - b = 2 ^ 64 - ((b - 1) + 1) := by omega
  rw [Nat.testBit_and, e, Nat.testBit_two_pow_sub_succ (by omega), testBit_pred_of_isLowest k b h i,
    Nat.testBit_two_pow]
  by_cases h1 : i < k
  · have := h.2 i h1
    have h3 : k ≠ i := by omega
    simp [h1, this, h3]
  · by_cases h2 : i = k
    · subst h2
      simp [h.1, hk]
    · have h3 : k ≠ i := fun h => h2 h.symm
      cases hbi : b.testBit i <;> simp [h1, h2, h3]

/-! ## Population count -/

theorem naiveCount_eq_card (b : Nat) :
    naiveCount b = ((Finset.range 64).filter (fun i => b.testBit i = true)).card := by
  simp [naiveCount, Finset.card, Finset.filter, Finset.range, Multiset.range]

theorem naiveCount_clear_lowest {b k : Nat} (h : IsLowest b k) (hlt : b < 2 ^ 64) :
    naiveCount (b &&& (b - 1)) + 1 = naiveCount b := by
  have hk : k < 64 := isLowest_lt h hlt
  rw [naiveCount_eq_card, naiveCount_eq_card]
  have e : (Finset.range 64).filter (fun i => (b &&& (b - 1)).testBit i = true)
      = ((Finset.range 64).filter (fun i => b.testBit i = true)).erase k := by
    ext i
    simp only [Finset.mem_filter, Finset.mem_range, Finset.mem_erase, testBit_clear_lowest h,
      Bool.and_eq_true, decide_eq_true_eq]
    tauto
  have hmem : k ∈ (Finset.range 64).filter (fun i => b.testBit i = true) := by
    simp [hk, h.1]
  rw [e, Finset.card_erase_of_mem hmem]
  have : 0 < ((Finset.range 64).filter (fun i => b.testBit i = true)).card :=
    Finset.card_pos.mpr ⟨k, hmem⟩
  omega

theorem naiveCount_zero : naiveCount 0 = 0 := by decide

theorem naiveCount_pos {b : Nat} (hb : b ≠ 0) (hlt : b < 2 ^ 64) : 0 < naiveCount b := by
  obtain ⟨k, hk⟩ := exists_isLowest hb
  have := naiveCount_clear_lowest hk hlt
  omega

theorem clear_lowest_eq {b : Nat} (hb : b ≠ 0) (hlt : b < 2 ^ 64) :
    b &&& sub64 b 1 = b &&& (b - 1) := by rw [sub64_one hb hlt]

theorem countBitsLoop_spec : ∀ (fuel b count : Nat), b < 2 ^ 64 → naiveCount b ≤ fuel →
    countBitsLoop fuel b count = (0, count + naiveCount b) := by
  intro fuel
  induction fuel with
  | zero =>
    intro b count hlt hf
    by_cases hb : b = 0
    · subst hb; simp [countBitsLoop, naiveCount_zero]
    · have := naiveCount_pos hb hlt
      omega
  | succ fuel ih =>
    intro b count hlt hf
    by_cases hb : b = 0
    · subst hb; simp [countBitsLoop, naiveCount_zero]
    · obtain ⟨k, hk⟩ := exists_isLowest hb
      have hc := naiveCount_clear_lowest hk hlt
      have hlt' : b &&& (b - 1) < 2 ^ 64 := lt_of_le_of_lt Nat.and_le_left hlt
      rw [countBitsLoop, if_pos hb, clear_lowest_eq hb hlt, ih _ _ hlt' (by omega)]
      congr 1
      omega

theorem countBitsLoop_running : ∀ (fuel b count : Nat), b < 2 ^ 64 → fuel < naiveCount b →
    (countBitsLoop fuel b count).1 ≠ 0 := by
  intro fuel
  induction fuel with
  | zero =>
    intro b count hlt hf
    have hb : b ≠ 0 := by
      intro hb; subst hb; simp [naiveCount_zero] at hf
    simpa [countBitsLoop] using hb
  | succ fuel ih =>
    intro b count hlt hf
    have hb : b ≠ 0 := by
      intro hb; subst hb; simp [naiveCount_zero] at hf
    obtain ⟨k, hk⟩ := exists_isLowest hb
    have hc := naiveCount_clear_lowest hk hlt
    have hlt' : b &&& (b - 1) < 2 ^ 64 := lt_of_le_of_lt Nat.and_le_left hlt
    rw [countBitsLoop, if_pos hb, clear_lowest_eq hb hlt]
    exact ih _ _ hlt' (by omega)

theorem naiveCount_le (b : Nat) : naiveCount b ≤ 64 := by
  unfold naiveCount
  calc ((List.range 64).filter (fun i => b.testBit i)).length
      ≤ (List.range 64).length := List.length_filter_le _ _
    _ = 64 := List.length_range 64

theorem countBits_eq_naiveCount {b : Nat} (hlt : b < 2 ^ 64) : countBits b = naiveCount b := by
  unfold countBits
  rw [countBitsLoop_spec 64 b 0 hlt (naiveCount_le b)]
  simp

theorem naiveCount_two_pow_sub_one {k : Nat} (hk : k ≤ 64) : naiveCount (2 ^ k - 1) = k := by
  rw [naiveCount_eq_card]
  have : (Finset.range 64).filter (fun i => (2 ^ k - 1).testBit i = true) = Finset.range k := by
    ext i
    simp only [Finset.mem_filter, Finset.mem_range, Nat.testBit_two_pow_sub_one,
      decide_eq_true_eq]
    omega
  rw [this, Finset.card_range]

theorem ls1bIndex_of_isLowest {b k : Nat} (h : IsLowest b k) (hlt : b < 2 ^ 64) :
    ls1bIndex b = (k : Int) := by
  have hb : b ≠ 0 := by
    intro hb
    have := h.1
    simp [hb] at this
  have hk : k < 64 := isLowest_lt h hlt
  have hp : 2 ^ k < 2 ^ 64 := Nat.pow_lt_pow_right (by decide) hk
  have hpos : 0 < 2 ^ k := Nat.two_pow_pos k
  unfold ls1bIndex
  rw [if_pos hb, neg64_eq hb, and_neg_of_isLowest h hlt, sub64_one (by omega) hp,
    countBits_eq_naiveCount (by omega), naiveCount_two_pow_sub_one (by omega)]

/-! ## The bit primitives meet their specification -/

/-- C5: for every 64-bit value `b`, `countBits b` is the number of positions `0..63` whose bit
is set in `b`; `countBits 0 = 0`; and the clear-lowest-bit loop leaves through its guard after
exactly that many iterations: with that much fuel or more it ends on bitboard `0` with the
count, with less fuel it is still running on a non-zero bitboard. -/
theorem countBits_spec (b : Nat) (hb : b < 2 ^ 64) :
    countBits b = ((List.range 64).filter (fun i => b.testBit i)).length ∧
    countBits 0 = 0 ∧
    (∀ fuel, naiveCount b ≤ fuel → countBitsLoop fuel b 0 = (0, naiveCount b)) ∧
    (∀ fuel, fuel < naiveCount b → (countBitsLoop fuel b 0).1 ≠ 0) := by
  refine ⟨countBits_eq_naiveCount hb, by decide, fun fuel hf => ?_, fun fuel hf => ?_⟩
  · simpa using countBitsLoop_spec fuel b 0 hb hf
  · exact countBitsLoop_running fuel b 0 hb hf

/-- Witness for C5 at `b = 240`, which has four set bits. -/
theorem countBits_spec_witness : (240 : Nat) < 2 ^ 64 ∧ countBits 240 = 4 :=
  ⟨by decide, (countBits_spec 240 (by decide)).1.trans (by decide)⟩

/-- C6: for every 64-bit value `b`, `ls1bIndex b = -1` exactly when `b = 0`, and for `b ≠ 0`
the result is the smallest position `0..63` whose bit is set in `b`. -/
theorem ls1bIndex_spec (b : Nat) (hb : b < 2 ^ 64) :
    (ls1bIndex b = -1 ↔ b = 0) ∧
    (b ≠ 0 → ∃ i : Nat, i < 64 ∧ ls1bIndex b = (i : Int) ∧ b.testBit i = true ∧
      ∀ j, j < i → b.testBit j = false) := by
  constructor
  · constructor
    · intro h
      by_contra hne
      obtain ⟨k, hk⟩ := exists_isLowest hne
      rw [ls1bIndex_of_isLowest hk hb] at h
      omega
    · intro h
      subst h
      decide
  · intro hne
    obtain ⟨k, hk⟩ := exists_isLowest hne
    exact ⟨k, isLowest_lt hk hb, ls1bIndex_of_isLowest hk hb, hk.1, hk.2⟩

/-- Witness for C6 at `b = 40`, whose lowest set bit is bit 3. -/
theorem ls1bIndex_spec_witness :
    (40 : Nat) < 2 ^ 64 ∧ (ls1bIndex 40 = -1 ↔ (40 : Nat) = 0) :=
  ⟨by decide, (ls1bIndex_spec 40 (by decide)).1⟩

/-! ## Occupancy enumeration -/

theorem oneShl_natCast {k : Nat} (hk : k < 64) : oneShl (k : Int) = 2 ^ k := by
  unfold oneShl
  have : (((k : Nat) : Int) % 64).toNat = k := by omega
  rw [this, Nat.one_shiftLeft]

theorem and_two_pow_ne_zero (a k : Nat) : a &&& 2 ^ k ≠ 0 ↔ a.testBit k = true := by
  rw [Nat.and_two_pow]
  have : 0 < 2 ^ k := Nat.two_pow_pos k
  cases a.testBit k <;> simp

theorem ne_zero_of_isLowest {b k : Nat} (h : IsLowest b k) : b ≠ 0 := by
  intro hb
  have := h.1
  simp [hb] at this

theorem pop_bit_lowest {mask k : Nat} (h : IsLowest mask k) (hlt : mask < 2 ^ 64) :
    pop_bit mask (ls1bIndex mask) = mask &&& (mask - 1) := by
  have hk : k < 64 := isLowest_lt h hlt
  unfold pop_bit get_bit
  rw [ls1bIndex_of_isLowest h hlt, oneShl_natCast hk, if_pos ((and_two_pow_ne_zero mask k).2 h.1)]
  apply Nat.eq_of_testBit_eq
  intro i
  rw [Nat.testBit_xor, Nat.testBit_two_pow, testBit_clear_lowest h]
  by_cases hik : i = k
  · subst hik
    simp [h.1]
  · have : k ≠ i := fun e => hik e.symm
    simp [hik, this]

theorem setOccupancyLoop_acc : ∀ (n index i mask occ : Nat),
    setOccupancyLoop index n i mask occ
      = occ ||| setOccupancyLoop (index >>> i) n 0 mask 0 := by
  intro n
  induction n with
  | zero => intro index i mask occ; simp [setOccupancyLoop]
  | succ n ih =>
    intro index i mask occ
    have hc : (index &&& 1 <<< i ≠ 0) ↔ (index >>> i &&& 1 <<< 0 ≠ 0) := by
      rw [Nat.one_shiftLeft, Nat.one_shiftLeft, and_two_pow_ne_zero, and_two_pow_ne_zero,
        Nat.testBit_shiftRight]
      simp
    have hs : index >>> i >>> (0 + 1) = index >>> (i + 1) := by
      rw [← Nat.shiftRight_add]
    rw [setOccupancyLoop, setOccupancyLoop]
    rw [ih index (i + 1), ih (index >>> i) (0 + 1), hs]
    by_cases h : index &&& 1 <<< i ≠ 0
    · rw [if_pos h, if_pos (hc.1 h)]
      simp [Nat.lor_assoc]
    · rw [if_neg h, if_neg (fun h2 => h (hc.2 h2))]
      simp

/-- One iteration of the occupancy loop peeled off: the lowest mask bit is taken when the
index is odd, and the loop goes on with the halved index on the mask without that bit. -/
theorem setOccupancy_succ {mask k : Nat} (h : IsLowest mask k) (hlt : mask < 2 ^ 64)
    (index n : Nat) :
    setOccupancy index (n + 1) mask
      = (if index.testBit 0 then 2 ^ k else 0) ||| setOccupancy (index / 2) n (mask &&& (mask - 1))
    := by
  have hk : k < 64 := isLowest_lt h hlt
  unfold setOccupancy
  rw [setOccupancyLoop]
  rw [setOccupancyLoop_acc n index (0 + 1), pop_bit_lowest h hlt, ls1bIndex_of_isLowest h hlt,
    oneShl_natCast hk, Nat.one_shiftLeft]
  have : index >>> (0 + 1) = index / 2 := by simp [Nat.shiftRight_succ]
  rw [this]
  by_cases hb : index.testBit 0 = true
  · rw [if_pos ((and_two_pow_ne_zero index 0).2 hb), if_pos hb]
    simp
  · rw [if_neg (fun h2 => hb ((and_two_pow_ne_zero index 0).1 h2)), if_neg hb]

theorem naiveCount_eq_zero {mask : Nat} (hlt : mask < 2 ^ 64) (h : naiveCount mask = 0) :
    mask = 0 := by
  by_contra hne
  have := naiveCount_pos hne hlt
  omega

theorem clear_lowest_lt {mask : Nat} (hlt : mask < 2 ^ 64) : mask &&& (mask - 1) < 2 ^ 64 :=
  lt_of_le_of_lt Nat.and_le_left hlt

/-- Every bit of an occupancy produced from a mask with at least `n` set bits is a mask bit. -/
theorem setOccupancy_testBit_mask : ∀ (n mask : Nat), mask < 2 ^ 64 → n ≤ naiveCount mask →
    ∀ index q, (setOccupancy index n mask).testBit q = true → mask.testBit q = true := by
  intro n
  induction n with
  | zero => intro mask _ _ index q h; simp [setOccupancy, setOccupancyLoop] at h
  | succ n ih =>
    intro mask hlt hn index q h
    have hne : mask ≠ 0 := by
      intro h0; subst h0; simp [naiveCount_zero] at hn
    obtain ⟨k, hk⟩ := exists_isLowest hne
    have hc := naiveCount_clear_lowest hk hlt
    rw [setOccupancy_succ hk hlt, Nat.testBit_or] at h
    simp only [Bool.or_eq_true] at h
    rcases h with h1 | h1
    · by_cases hb : index.testBit 0 = true
      · rw [if_pos hb, Nat.testBit_two_pow] at h1
        have : k = q := by simpa using h1
        subst this
        exact hk.1
      · rw [if_neg hb] at h1
        simp at h1
    · have := ih _ (clear_lowest_lt hlt) (by omega) _ _ h1
      rw [testBit_clear_lowest hk] at this
      simp only [Bool.and_eq_true] at this
      exact this.1

theorem setOccupancy_zero_index : ∀ (n mask : Nat), mask < 2 ^ 64 → n ≤ naiveCount mask →
    setOccupancy 0 n mask = 0 := by
  intro n
  induction n with
  | zero => intro mask _ _; simp [setOccupancy, setOccupancyLoop]
  | succ n ih =>
    intro mask hlt hn
    have hne : mask ≠ 0 := by
      intro h0; subst h0; simp [naiveCount_zero] at hn
    obtain ⟨k, hk⟩ := exists_isLowest hne
    have hc := naiveCount_clear_lowest hk hlt
    rw [setOccupancy_succ hk hlt, ih _ (clear_lowest_lt hlt) (by omega)]
    simp

theorem lowest_or_clear {mask k : Nat} (h : IsLowest mask k) :
    2 ^ k ||| (mask &&& (mask - 1)) = mask := by
  apply Nat.eq_of_testBit_eq
  intro i
  rw [Nat.testBit_or, Nat.testBit_two_pow, testBit_clear_lowest h]
  by_cases hik : i = k
  · subst hik; simp [h.1]
  · have : k ≠ i := fun e => hik e.symm
    simp [hik, this]

theorem setOccupancy_full_index : ∀ (n mask : Nat), mask < 2 ^ 64 → naiveCount mask = n →
    setOccupancy (2 ^ n - 1) n mask = mask := by
  intro n
  induction n with
  | zero =>
    intro mask hlt hn
    rw [naiveCount_eq_zero hlt hn]
    simp [setOccupancy, setOccupancyLoop]
  | succ n ih =>
    intro mask hlt hn
    have hne : mask ≠ 0 := by
      intro h0; subst h0; simp [naiveCount_zero] at hn
    obtain ⟨k, hk⟩ := exists_isLowest hne
    have hc := naiveCount_clear_lowest hk hlt
    have h0 : (2 ^ (n + 1) - 1).testBit 0 = true := by
      rw [Nat.testBit_two_pow_sub_one]; simp
    have h2 : (2 ^ (n + 1) - 1) / 2 = 2 ^ n - 1 := by
      have : 0 < 2 ^ n := Nat.two_pow_pos n
      rw [Nat.pow_succ]; omega
    rw [setOccupancy_succ hk hlt, if_pos h0, h2, ih _ (clear_lowest_lt hlt) (by omega)]
    exact lowest_or_clear hk

theorem setOccupancy_injective : ∀ (n mask : Nat), mask < 2 ^ 64 → naiveCount mask = n →
    ∀ i j, i < 2 ^ n → j < 2 ^ n → setOccupancy i n mask = setOccupancy j n mask → i = j := by
  intro n
  induction n with
  | zero => intro mask _ _ i j hi hj _; simp at hi hj; omega
  | succ n ih =>
    intro mask hlt hn i j hi hj h
    have hne : mask ≠ 0 := by
      intro h0; subst h0; simp [naiveCount_zero] at hn
    obtain ⟨k, hk⟩ := exists_isLowest hne
    have hc := naiveCount_clear_lowest hk hlt
    have hlt' := clear_lowest_lt hlt
    rw [setOccupancy_succ hk hlt, setOccupancy_succ hk hlt] at h
    -- bit `k` is absent from both tails
    have tail : ∀ x, (setOccupancy x n (mask &&& (mask - 1))).testBit k = false := by
      intro x
      by_contra hx
      have hx' : (setOccupancy x n (mask &&& (mask - 1))).testBit k = true := by
        simpa using hx
      have := setOccupancy_testBit_mask n _ hlt' (by omega) x k hx'
      rw [testBit_clear_lowest hk] at this
      simp at this
    have head : ∀ x : Nat, (if x.testBit 0 then 2 ^ k else 0 : Nat).testBit k = x.testBit 0 := by
      intro x
      cases hx : x.testBit 0 <;> simp
    have hbit : i.testBit 0 = j.testBit 0 := by
      have := congrArg (fun v => Nat.testBit v k) h
      simp only [Nat.testBit_or, tail, head, Bool.or_false] at this
      exact this
    have htail : setOccupancy (i / 2) n (mask &&& (mask - 1))
        = setOccupancy (j / 2) n (mask &&& (mask - 1)) := by
      apply Nat.eq_of_testBit_eq
      intro q
      by_cases hq : q = k
      · subst hq; rw [tail, tail]
      · have := congrArg (fun v => Nat.testBit v q) h
        simp only [Nat.testBit_or] at this
        have hz : ∀ x : Nat, (if x.testBit 0 then 2 ^ k else 0 : Nat).testBit q = false := by
          intro x
          have : k ≠ q := fun e => hq e.symm
          cases hx : x.testBit 0 <;> simp [Nat.testBit_two_pow, this]
        rw [hz i, hz j, Bool.false_or, Bool.false_or] at this
        exact this
    have hhalf := ih _ hlt' (by omega) (i / 2) (j / 2)
      (by rw [Nat.pow_succ] at hi; omega) (by rw [Nat.pow_succ] at hj; omega) htail
    rw [Nat.testBit_zero, Nat.testBit_zero] at hbit
    have hmod : i % 2 = j % 2 := by
      by_cases h1 : i % 2 = 1
      · have : decide (j % 2 = 1) = true := by rw [← hbit]; simp [h1]
        have := of_decide_eq_true this
        omega
      · have : decide (j % 2 = 1) = false := by rw [← hbit]; simp [h1]
        have := of_decide_eq_false this
        omega
    omega

theorem setOccupancy_surjective : ∀ (n mask : Nat), mask < 2 ^ 64 → naiveCount mask = n →
    ∀ o, (∀ q, o.testBit q = true → mask.testBit q = true) →
      ∃ i, i < 2 ^ n ∧ setOccupancy i n mask = o := by
  intro n
  induction n with
  | zero =>
    intro mask hlt hn o ho
    refine ⟨0, by simp, ?_⟩
    have hm := naiveCount_eq_zero hlt hn
    subst hm
    have : o = 0 := by
      apply Nat.eq_of_testBit_eq
      intro q
      cases hq : o.testBit q
      · simp
      · have := ho q hq
        simp at this
    simp [setOccupancy, setOccupancyLoop, this]
  | succ n ih =>
    intro mask hlt hn o ho
    have hne : mask ≠ 0 := by
      intro h0; subst h0; simp [naiveCount_zero] at hn
    obtain ⟨k, hk⟩ := exists_isLowest hne
    have hc := naiveCount_clear_lowest hk hlt
    have hlt' := clear_lowest_lt hlt
    obtain ⟨i, hi, hio⟩ := ih _ hlt' (by omega) (o &&& (mask &&& (mask - 1))) (by
      intro q hq
      rw [Nat.testBit_and] at hq
      simp only [Bool.and_eq_true] at hq
      exact hq.2)
    refine ⟨2 * i + (o.testBit k).toNat, ?_, ?_⟩
    · rw [Nat.pow_succ]
      cases o.testBit k <;> simp only [Bool.toNat_false, Bool.toNat_true] <;> omega
    · have h0 : (2 * i + (o.testBit k).toNat).testBit 0 = o.testBit k := by
        cases o.testBit k <;> simp [Nat.testBit_zero]
        omega
      have h2 : (2 * i + (o.testBit k).toNat) / 2 = i := by
        cases o.testBit k <;> simp only [Bool.toNat_false, Bool.toNat_true] <;> omega
      rw [setOccupancy_succ hk hlt, h0, h2, hio]
      apply Nat.eq_of_testBit_eq
      intro q
      rw [Nat.testBit_or, Nat.testBit_and, testBit_clear_lowest hk]
      by_cases hq : q = k
      · subst hq
        cases hx : o.testBit q <;> simp
      · have hkq : k ≠ q := fun e => hq e.symm
        have hz : (if o.testBit k then 2 ^ k else 0 : Nat).testBit q = false := by
          cases hx : o.testBit k <;> simp [Nat.testBit_two_pow, hkq]
        rw [hz]
        cases hx : o.testBit q
        · simp
        · simp [ho q hx, hq]

theorem testBit_not64 {a : Nat} (ha : a < 2 ^ 64) (i : Nat) :
    (not64 a).testBit i = (decide (i < 64) && !a.testBit i) := by
  unfold not64
  have : 2 ^ 64 - 1 - a = 2 ^ 64 - (a + 1) := by omega
  rw [this, Nat.testBit_two_pow_sub_succ ha]

theorem and_not64_eq_zero_iff {o mask : Nat} (ho : o < 2 ^ 64) (hm : mask < 2 ^ 64) :
    o &&& not64 mask = 0 ↔ ∀ q, o.testBit q = true → mask.testBit q = true := by
  constructor
  · intro h q hq
    have := congrArg (fun v => Nat.testBit v q) h
    simp only [Nat.testBit_and, testBit_not64 hm, Nat.zero_testBit, hq, Bool.true_and] at this
    have hq64 : q < 64 := by
      by_contra hge
      have : o < 2 ^ q := lt_of_lt_of_le ho (Nat.pow_le_pow_right (by decide) (by omega))
      rw [Nat.testBit_lt_two_pow this] at hq
      exact Bool.noConfusion hq
    simpa [hq64] using this
  · intro h
    apply Nat.eq_of_testBit_eq
    intro q
    rw [Nat.testBit_and, testBit_not64 hm, Nat.zero_testBit]
    cases hq : o.testBit q
    · simp
    · simp [h q hq]

theorem lt_two_pow_of_testBit_mask {o mask : Nat} (hm : mask < 2 ^ 64)
    (h : ∀ q, o.testBit q = true → mask.testBit q = true) : o < 2 ^ 64 := by
  apply Nat.lt_pow_two_of_testBit
  intro i hi
  by_contra hne
  have h1 : o.testBit i = true := by simpa using hne
  have h2 := h i h1
  have : mask < 2 ^ i := lt_of_lt_of_le hm (Nat.pow_le_pow_right (by decide) hi)
  rw [Nat.testBit_lt_two_pow this] at h2
  exact Bool.noConfusion h2

/-- C4: for a 64-bit mask with `bits` set bits, `bits ≤ 30`, the map
`index ↦ setOccupancy index bits mask` on `[0, 2 ^ bits)` is injective, every result is a
subset of the mask (`result & ~mask = 0`), every subset of the mask is the image of some index,
index `0` gives the empty occupancy and index `2 ^ bits - 1` gives the mask itself. -/
theorem setOccupancy_bijection (mask bits : Nat) (hmask : mask < 2 ^ 64)
    (hbits : bits = countBits mask) (_h30 : bits ≤ 30) :
    (∀ i j, i < 2 ^ bits → j < 2 ^ bits →
      setOccupancy i bits mask = setOccupancy j bits mask → i = j) ∧
    (∀ i, i < 2 ^ bits → setOccupancy i bits mask &&& not64 mask = 0) ∧
    (∀ o, o < 2 ^ 64 → o &&& not64 mask = 0 → ∃ i, i < 2 ^ bits ∧ setOccupancy i bits mask = o) ∧
    setOccupancy 0 bits mask = 0 ∧
    setOccupancy (2 ^ bits - 1) bits mask = mask := by
  have hn : naiveCount mask = bits := by rw [hbits, countBits_eq_naiveCount hmask]
  refine ⟨setOccupancy_injective bits mask hmask hn, fun i _ => ?_, fun o ho hsub => ?_,
    setOccupancy_zero_index bits mask hmask (by omega), setOccupancy_full_index bits mask hmask hn⟩
  · have hsub := setOccupancy_testBit_mask bits mask hmask (by omega) i
    exact (and_not64_eq_zero_iff (lt_two_pow_of_testBit_mask hmask hsub) hmask).2 hsub
  · exact setOccupancy_surjective bits mask hmask hn o ((and_not64_eq_zero_iff ho hmask).1 hsub)

/-- Witness for C4 at the mask `0b1010`, which has two set bits. -/
theorem setOccupancy_bijection_witness :
    (10 : Nat) < 2 ^ 64 ∧ 2 = countBits 10 ∧ (2 : Nat) ≤ 30 ∧
      setOccupancy 0 2 10 = 0 ∧ setOccupancy (2 ^ 2 - 1) 2 10 = 10 :=
  ⟨by decide, by decide, by decide,
    (setOccupancy_bijection 10 2 (by decide) (by decide) (by decide)).2.2.2⟩

/-! ## Bitboards given by a predicate on squares -/

theorem foldl_boardOf_testBit (P : Nat → Bool) (q : Nat) : ∀ (l : List Nat) (acc : Nat),
    (l.foldl (fun acc q => if P q then acc ||| 2 ^ q else acc) acc).testBit q
      = (acc.testBit q || (decide (q ∈ l) && P q)) := by
  intro l
  induction l with
  | nil => intro acc; simp
  | cons a l ih =>
    intro acc
    rw [List.foldl_cons, ih]
    by_cases hqa : q = a
    · subst hqa
      cases hP : P q <;> simp [hP]
    · have hne : a ≠ q := fun e => hqa e.symm
      cases hP : P a <;> simp [hP, hqa, hne, Nat.testBit_two_pow]

theorem boardOf_testBit (P : Nat → Bool) (q : Nat) :
    (boardOf P).testBit q = (decide (q < 64) && P q) := by
  unfold boardOf
  rw [foldl_boardOf_testBit]
  simp

/-! ## Ray loops as walks over lists of squares -/

theorem rayLoop_eq_walkRay (guard : Int → Int → Bool) (dr df : Int) (stops : Bool)
    (block : Nat) : ∀ (fuel : Nat) (rank file : Int) (attacks : Nat),
    rayLoop guard dr df stops block fuel rank file attacks
      = walkRay stops block (raySquares guard dr df fuel rank file) attacks := by
  intro fuel
  induction fuel with
  | zero => intro rank file attacks; rfl
  | succ fuel ih =>
    intro rank file attacks
    rw [rayLoop, raySquares]
    by_cases hg : guard rank file = true
    · rw [if_pos hg, if_pos hg, walkRay]
      simp only [oneShl, ih]
    · rw [if_neg hg, if_neg hg, walkRay]

theorem generateBishopAttacks_eq_slide (square : Int) (block : Nat) :
    generateBishopAttacks square block = slide true block (bishopRays square) := by
  simp only [generateBishopAttacks, bishopRays, slide, List.foldl, rayLoop_eq_walkRay]

theorem generateRookAttacks_eq_slide (square : Int) (block : Nat) :
    generateRookAttacks square block = slide true block (rookRays square) := by
  simp only [generateRookAttacks, rookRays, slide, List.foldl, rayLoop_eq_walkRay]

theorem walkRay_testBit (block q : Nat) : ∀ (ray : List Nat) (attacks : Nat),
    (walkRay true block ray attacks).testBit q = true
      ↔ attacks.testBit q = true ∨ Reach block q ray := by
  intro ray
  induction ray with
  | nil => intro attacks; simp [walkRay, Reach]
  | cons p ps ih =>
    intro attacks
    have hb : (1 <<< p &&& block != 0) = block.testBit p := by
      rw [Nat.one_shiftLeft, Nat.two_pow_and]
      have : 0 < 2 ^ p := Nat.two_pow_pos p
      cases block.testBit p <;> simp
    have hq : (1 <<< p).testBit q = true ↔ q = p := by
      rw [Nat.one_shiftLeft, Nat.testBit_two_pow]
      simp [eq_comm]
    rw [walkRay]
    simp only [Bool.true_and, hb]
    cases hbp : block.testBit p
    · simp only [Bool.false_eq_true, if_false, ih, Nat.testBit_or, Bool.or_eq_true, hq, Reach,
        true_and]
      tauto
    · simp only [if_true, Nat.testBit_or, Bool.or_eq_true, hq, Reach, hbp, Bool.true_eq_false,
        false_and, or_false]

theorem foldl_walkRay_testBit (block q : Nat) : ∀ (rays : List (List Nat)) (attacks : Nat),
    (rays.foldl (fun attacks ray => walkRay true block ray attacks) attacks).testBit q = true
      ↔ attacks.testBit q = true ∨ ∃ ray ∈ rays, Reach block q ray := by
  intro rays
  induction rays with
  | nil => intro attacks; simp
  | cons ray rays ih =>
    intro attacks
    rw [List.foldl_cons, ih, walkRay_testBit]
    simp only [List.mem_cons, exists_eq_or_imp]
    tauto

theorem slide_testBit (block q : Nat) (rays : List (List Nat)) :
    (slide true block rays).testBit q = true ↔ ∃ ray ∈ rays, Reach block q ray := by
  unfold slide
  rw [foldl_walkRay_testBit]
  simp

theorem reach_iff (block q : Nat) : ∀ (ray : List Nat),
    Reach block q ray ↔ ∃ k, k < ray.length ∧ ray.getD k 0 = q ∧
      ∀ p ∈ ray.take k, block.testBit p = false := by
  intro ray
  induction ray with
  | nil => simp [Reach]
  | cons a ps ih =>
    rw [Reach, ih]
    constructor
    · rintro (h | ⟨hb, k, hk, hq, hp⟩)
      · exact ⟨0, by simp, by simp [h], by simp⟩
      · refine ⟨k + 1, by simpa using hk, by simpa using hq, ?_⟩
        intro p hp'
        rw [List.take_succ_cons, List.mem_cons] at hp'
        rcases hp' with h | h
        · rw [h]; exact hb
        · exact hp p h
    · rintro ⟨k, hk, hq, hp⟩
      cases k with
      | zero => left; simpa using hq.symm
      | succ k =>
        right
        refine ⟨hp a (by simp), k, by simpa using hk, by simpa using hq, ?_⟩
        intro p hp'
        exact hp p (by rw [List.take_succ_cons]; exact List.mem_cons_of_mem _ hp')

/-- From the finite geometric facts: a square is reached along one of the rays exactly when
it is a board square other than `s` satisfying `good` with no blocker strictly between. -/
theorem reach_iff_of_raysTrace {good : Nat → Nat → Prop} [∀ s q, Decidable (good s q)]
    {s : Nat} {rays : List (List Nat)} (h : RaysTrace good s rays) (block q : Nat) :
    (∃ ray ∈ rays, Reach block q ray) ↔
      (q < 64 ∧ q ≠ s ∧ good s q ∧
        ∀ p, p < 64 → StrictlyBetween s q p → block.testBit p = false) := by
  constructor
  · rintro ⟨ray, hray, hr⟩
    obtain ⟨k, hk, hq, hp⟩ := (reach_iff block q ray).1 hr
    obtain ⟨h1, h2, h3, h4⟩ := h.1 ray hray k hk
    rw [hq] at h1 h2 h3 h4
    exact ⟨h1, h2, h3, fun p hp64 hb => hp p ((h4 p hp64).1 hb)⟩
  · rintro ⟨h1, h2, h3, h4⟩
    obtain ⟨ray, hray, hmem⟩ := h.2 q h1 h2 h3
    refine ⟨ray, hray, (reach_iff block q ray).2 ?_⟩
    obtain ⟨k, hk, hq⟩ := List.getElem_of_mem hmem
    have hq' : ray.getD k 0 = q := by
      rw [List.getD_eq_getElem?_getD, List.getElem?_eq_getElem hk]; simpa using hq
    refine ⟨k, hk, hq', fun p hp => ?_⟩
    obtain ⟨-, -, -, h5⟩ := h.1 ray hray k hk
    rw [hq'] at h5
    -- `p` is an earlier square of the ray, hence a board square
    obtain ⟨j, hj, hpj⟩ := List.getElem_of_mem (List.mem_of_mem_take hp)
    have hpj' : ray.getD j 0 = p := by
      rw [List.getD_eq_getElem?_getD, List.getElem?_eq_getElem hj]; simpa using hpj
    have hp64 : p < 64 := by
      have := (h.1 ray hray j hj).1
      rwa [hpj'] at this
    exact h4 p hp64 ((h5 p hp64).2 hp)

/-! ## The fuel of the ray loops is never exhausted -/

theorem raySquares_fuel_stable (guard : Int → Int → Bool) (dr df : Int) :
    ∀ (fuel : Nat) (rank file : Int), (raySquares guard dr df fuel rank file).length < fuel →
      ∀ n, raySquares guard dr df (fuel + n) rank file = raySquares guard dr df fuel rank file := by
  intro fuel
  induction fuel with
  | zero => intro rank file h; simp at h
  | succ fuel ih =>
    intro rank file h n
    have e : fuel + 1 + n = (fuel + n) + 1 := by omega
    rw [e]
    simp only [raySquares] at h ⊢
    by_cases hg : guard rank file = true
    · simp only [hg, if_true, List.length_cons, Nat.add_lt_add_iff_right] at h ⊢
      rw [ih _ _ h n]
    · simp only [hg, Bool.false_eq_true, if_false]

/-- A ray loop whose unblocked walk is shorter than its fuel leaves through its guard or its
`break`: more fuel does not change its result. -/
theorem rayLoop_fuel_stable (guard : Int → Int → Bool) (dr df : Int) (stops : Bool)
    (block fuel : Nat) (rank file : Int) (attacks : Nat)
    (h : (raySquares guard dr df fuel rank file).length < fuel) (n : Nat) :
    rayLoop guard dr df stops block (fuel + n) rank file attacks
      = rayLoop guard dr df stops block fuel rank file attacks := by
  rw [rayLoop_eq_walkRay, rayLoop_eq_walkRay, raySquares_fuel_stable guard dr df fuel rank file h]

/-- For every square `0..63`, each of the sixteen ray loops of the four slider functions
visits fewer than `8` squares, the fuel it is given. -/
theorem slider_rays_short : ∀ s, s < 64 →
    (∀ ray ∈ bishopRays (s : Nat), ray.length < 8) ∧ (∀ ray ∈ rookRays (s : Nat), ray.length < 8) ∧
    (∀ ray ∈ maskBishopRays (s : Nat), ray.length < 8) := by
  decide!

/-! ## The geometry check is sound -/

theorem diagB_iff (s q : Nat) : diagB s q = true ↔ OnDiagonal s q := by
  unfold diagB
  simp only [Bool.or_eq_true, Nat.beq_eq]
  change (q / 8 + s % 8 = q % 8 + s / 8 ∨ q / 8 + q % 8 = s / 8 + s % 8) ↔ _
  unfold OnDiagonal rankOf fileOf
  omega

theorem collinear_iff (a b c d e f : Nat) :
    ((a : Int) - b) * ((c : Int) - d) = ((e : Int) - d) * ((f : Int) - b) ↔
      a * c + e * b + d * f = e * f + a * d + b * c := by
  constructor
  · intro h
    have : ((a * c + e * b + d * f : Nat) : Int) = ((e * f + a * d + b * c : Nat) : Int) := by
      push_cast
      linarith
    exact_mod_cast this
  · intro h
    have : ((a * c + e * b + d * f : Nat) : Int) = ((e * f + a * d + b * c : Nat) : Int) := by
      exact_mod_cast h
    push_cast at this
    linarith

theorem betweenB_iff (s q p : Nat) : betweenB s q p = true ↔ StrictlyBetween s q p := by
  unfold betweenB
  simp only [Bool.and_eq_true, Bool.or_eq_true, Bool.not_eq_true', Nat.beq_eq, Nat.ble_eq]
  change ((((Nat.beq p s = false ∧ Nat.beq p q = false) ∧
      p / 8 * (q % 8) + p % 8 * (s / 8) + s % 8 * (q / 8)
        = p % 8 * (q / 8) + p / 8 * (s % 8) + s / 8 * (q % 8)) ∧
      ((s / 8 ≤ p / 8 ∧ p / 8 ≤ q / 8) ∨ (q / 8 ≤ p / 8 ∧ p / 8 ≤ s / 8))) ∧
      ((s % 8 ≤ p % 8 ∧ p % 8 ≤ q % 8) ∨ (q % 8 ≤ p % 8 ∧ p % 8 ≤ s % 8))) ↔ _
  have e1 : Nat.beq p s = false ↔ p ≠ s := by
    rw [← Bool.not_eq_true, Nat.beq_eq]
  have e2 : Nat.beq p q = false ↔ p ≠ q := by
    rw [← Bool.not_eq_true, Nat.beq_eq]
  rw [e1, e2]
  unfold StrictlyBetween rankOf fileOf
  rw [collinear_iff]
  constructor
  · rintro ⟨⟨⟨⟨h1, h2⟩, h3⟩, h4⟩, h5⟩
    exact ⟨h1, h2, h3, by omega, by omega, by omega, by omega⟩
  · rintro ⟨h1, h2, h3, h4, h5, h6, h7⟩
    exact ⟨⟨⟨⟨h1, h2⟩, h3⟩, by omega⟩, by omega⟩

theorem rayTraceB_sound (good : Nat → Nat → Prop) (goodB : Nat → Nat → Bool)
    (hgood : ∀ s q, goodB s q = true ↔ good s q) (s : Nat) :
    ∀ (ray : List Nat) (pre : Nat) (passed : List Nat),
      (∀ p, pre.testBit p = true ↔ p ∈ passed) →
      rayTraceB goodB s pre ray = true →
      ∀ k, k < ray.length →
        ray.getD k 0 < 64 ∧ ray.getD k 0 ≠ s ∧ good s (ray.getD k 0) ∧
        ∀ p, p < 64 → (StrictlyBetween s (ray.getD k 0) p ↔ p ∈ passed ++ ray.take k) := by
  intro ray
  induction ray with
  | nil => intro pre passed _ _ k hk; simp at hk
  | cons q rest ih =>
    intro pre passed hpre h k hk
    rw [rayTraceB] at h
    simp only [Bool.and_eq_true, Bool.not_eq_true', Nat.blt_eq, Nat.beq_eq] at h
    obtain ⟨⟨⟨⟨h1, h2⟩, h3⟩, h4⟩, h5⟩ := h
    cases k with
    | zero =>
      refine ⟨by simpa using h1, ?_, (hgood s q).1 h3, ?_⟩
      · intro e
        rw [show List.getD (q :: rest) 0 0 = q from rfl] at e
        rw [e] at h2
        have : Nat.beq s s = true := by rw [Nat.beq_eq]
        rw [this] at h2
        exact Bool.noConfusion h2
      · intro p hp
        rw [show List.getD (q :: rest) 0 0 = q from rfl, ← betweenB_iff]
        have := congrArg (fun v => Nat.testBit v p) h4
        simp only [boardOf_testBit, hp, decide_True, Bool.true_and] at this
        rw [this]
        simpa using hpre p
    | succ k =>
      have hk' : k < rest.length := by simpa using hk
      have hpre' : ∀ p, (Nat.lor pre (Nat.shiftLeft 1 q)).testBit p = true ↔ p ∈ passed ++ [q] := by
        intro p
        change (pre ||| 1 <<< q).testBit p = true ↔ _
        rw [Nat.testBit_or, Nat.one_shiftLeft, Nat.testBit_two_pow, Bool.or_eq_true, hpre p]
        simp [eq_comm]
      obtain ⟨a1, a2, a3, a4⟩ := ih _ (passed ++ [q]) hpre' h5 k hk'
      refine ⟨by simpa using a1, by simpa using a2, by simpa using a3, ?_⟩
      intro p hp
      have := a4 p hp
      simpa using this

theorem traceCheck_sound (good : Nat → Nat → Prop) [∀ s q, Decidable (good s q)]
    (goodB : Nat → Nat → Bool) (hgood : ∀ s q, goodB s q = true ↔ good s q) (s : Nat)
    (rays : List (List Nat)) (h : traceCheck goodB s rays = true) : RaysTrace good s rays := by
  unfold traceCheck at h
  simp only [Bool.and_eq_true, List.all_eq_true, List.mem_range, Bool.or_eq_true,
    Bool.not_eq_true', List.any_eq_true, Nat.beq_eq] at h
  obtain ⟨h1, h2⟩ := h
  constructor
  · intro ray hray k hk
    have := rayTraceB_sound good goodB hgood s ray 0 [] (by simp) (h1 ray hray) k hk
    simpa using this
  · intro q hq hne hg
    rcases h2 q hq with (h' | h') | h'
    · exact absurd h' hne
    · rw [(hgood s q).2 hg] at h'
      exact Bool.noConfusion h'
    · obtain ⟨ray, hray, hmem⟩ := h'
      exact ⟨ray, hray, by simpa using hmem⟩

theorem bishopRays_eq_table : ∀ s, s < 64 → bishopRays (s : Nat) = bishopRayTable.getD s [] := by
  decide!

theorem bishopRayTable_traceCheck : ∀ s, s < 64 →
    traceCheck diagB s (bishopRayTable.getD s []) = true := by
  decide!

theorem bishopRayTable_trace (s : Nat) (hs : s < 64) :
    RaysTrace OnDiagonal s (bishopRayTable.getD s []) :=
  traceCheck_sound OnDiagonal diagB diagB_iff s _ (bishopRayTable_traceCheck s hs)

theorem bishop_raysTrace {s : Nat} (hs : s < 64) : RaysTrace OnDiagonal s (bishopRays (s : Nat)) := by
  rw [bishopRays_eq_table s hs]
  exact bishopRayTable_trace s hs

/-! ## The slider masks -/

theorem maskRookAttacks_eq_boardOf : ∀ s, s < 64 → maskRookAttacks (s : Nat)
    = boardOf (fun q => decide (q ≠ s ∧ ((q / 8 = s / 8 ∧ 1 ≤ q % 8 ∧ q % 8 ≤ 6) ∨
        (q % 8 = s % 8 ∧ 1 ≤ q / 8 ∧ q / 8 ≤ 6)))) := by
  decide!

theorem maskBishopAttacks_eq_boardOf : ∀ s, s < 64 → maskBishopAttacks (s : Nat)
    = boardOf (fun q => decide (q ≠ s ∧ OnDiagonal s q ∧
        1 ≤ q / 8 ∧ q / 8 ≤ 6 ∧ 1 ≤ q % 8 ∧ q % 8 ≤ 6)) := by
  decide!

/-- C7, as stated, fails: the mask of the corner square `0` holds square `1`, which is on
rank 0. -/
theorem maskRookAttacks_border_counterexample :
    ¬ (∀ s q : Nat, s < 64 → (maskRookAttacks (s : Nat)).testBit q = true → ¬ OnBorder q) :=
  fun h => h 0 1 (by decide) (by decide) (Or.inl (by decide))

/-- C7, amended: for every square `s` in `0..63`, a square `q` is in `maskRookAttacks s`
exactly when it is another board square that is either on the rank of `s` with file in `1..6`
or on the file of `s` with rank in `1..6`.  So a set bit lies on rank 0 or 7 only if `s` is on
that rank, and on file 0 or 7 only if `s` is on that file. -/
theorem maskRookAttacks_spec (s : Nat) (hs : s < 64) (q : Nat) :
    ((maskRookAttacks (s : Nat)).testBit q = true ↔
      q < 64 ∧ q ≠ s ∧ ((q / 8 = s / 8 ∧ 1 ≤ q % 8 ∧ q % 8 ≤ 6) ∨
        (q % 8 = s % 8 ∧ 1 ≤ q / 8 ∧ q / 8 ≤ 6))) ∧
    ((maskRookAttacks (s : Nat)).testBit q = true →
      ((q / 8 = 0 ∨ q / 8 = 7) → s / 8 = q / 8) ∧ ((q % 8 = 0 ∨ q % 8 = 7) → s % 8 = q % 8)) := by
  have key : (maskRookAttacks (s : Nat)).testBit q = true ↔
      q < 64 ∧ q ≠ s ∧ ((q / 8 = s / 8 ∧ 1 ≤ q % 8 ∧ q % 8 ≤ 6) ∨
        (q % 8 = s % 8 ∧ 1 ≤ q / 8 ∧ q / 8 ≤ 6)) := by
    rw [maskRookAttacks_eq_boardOf s hs, boardOf_testBit]
    simp only [Bool.and_eq_true, decide_eq_true_eq]
  refine ⟨key, fun h => ?_⟩
  obtain ⟨_, _, h3⟩ := key.1 h
  constructor <;> intro hb <;> omega

/-- Witness for the amended C7 at the corner square `0`, whose mask holds square `1`. -/
theorem maskRookAttacks_spec_witness :
    (0 : Nat) < 64 ∧ ((maskRookAttacks ((0 : Nat) : Int)).testBit 1 = true ↔
      1 < 64 ∧ 1 ≠ 0 ∧ ((1 / 8 = 0 / 8 ∧ 1 ≤ 1 % 8 ∧ 1 % 8 ≤ 6) ∨
        (1 % 8 = 0 % 8 ∧ 1 ≤ 1 / 8 ∧ 1 / 8 ≤ 6))) :=
  ⟨by decide, (maskRookAttacks_spec 0 (by decide) 1).1⟩

/-- C8: for every square `s` in `0..63`, `maskBishopAttacks s` is exactly the set of squares on
the diagonals through `s`, other than `s`, whose rank and file are both in `1..6`; in
particular it holds no border square. -/
theorem maskBishopAttacks_spec (s : Nat) (hs : s < 64) (q : Nat) :
    ((maskBishopAttacks (s : Nat)).testBit q = true ↔
      q < 64 ∧ q ≠ s ∧ OnDiagonal s q ∧ 1 ≤ q / 8 ∧ q / 8 ≤ 6 ∧ 1 ≤ q % 8 ∧ q % 8 ≤ 6) ∧
    ((maskBishopAttacks (s : Nat)).testBit q = true → ¬ OnBorder q) := by
  have key : (maskBishopAttacks (s : Nat)).testBit q = true ↔
      q < 64 ∧ q ≠ s ∧ OnDiagonal s q ∧ 1 ≤ q / 8 ∧ q / 8 ≤ 6 ∧ 1 ≤ q % 8 ∧ q % 8 ≤ 6 := by
    rw [maskBishopAttacks_eq_boardOf s hs, boardOf_testBit]
    simp only [Bool.and_eq_true, decide_eq_true_eq]
  refine ⟨key, fun h => ?_⟩
  obtain ⟨_, _, _, h4, h5, h6, h7⟩ := key.1 h
  unfold OnBorder
  omega

/-- Witness for C8 at square `27`: square `36` is in its mask and is not a border square. -/
theorem maskBishopAttacks_spec_witness :
    (27 : Nat) < 64 ∧ ((maskBishopAttacks ((27 : Nat) : Int)).testBit 36 = true → ¬ OnBorder 36) :=
  ⟨by decide, (maskBishopAttacks_spec 27 (by decide) 36).2⟩

/-! ## Blocked attacks -/

/-- C9 fails on the code: for a rook on square `0` on the empty board, square `7` (the far end
of its rank) is ray-traced, with nothing between, yet `generateRookAttacks` leaves it out; the
result is the relevant mask of square `0`, without the edge squares `7` and `56`. -/
theorem generateRookAttacks_stops_short :
    generateRookAttacks 0 0 = 0x101010101017e ∧
    generateRookAttacks 0 0 = maskRookAttacks 0 ∧
    RookRayTraced 0 0 7 ∧ (generateRookAttacks 0 0).testBit 7 = false ∧
    RookRayTraced 0 0 56 ∧ (generateRookAttacks 0 0).testBit 56 = false := by
  refine ⟨by decide, by decide, ⟨by decide, by decide, by decide, fun p _ _ => ?_⟩, by decide,
    ⟨by decide, by decide, by decide, fun p _ _ => ?_⟩, by decide⟩ <;> simp

/-- C10: for every square `s` in `0..63` and every occupancy, a square `q` is in
`generateBishopAttacks s occ` exactly when `q` is another board square on a diagonal through
`s` and no square strictly between `s` and `q` is set in the occupancy. -/
theorem generateBishopAttacks_spec (s : Nat) (hs : s < 64) (occ q : Nat) :
    (generateBishopAttacks (s : Nat) occ).testBit q = true ↔ BishopRayTraced s occ q := by
  rw [generateBishopAttacks_eq_slide, slide_testBit]
  exact reach_iff_of_raysTrace (bishop_raysTrace hs) occ q

/-- Witness for C10: a bishop on square `0` with a blocker on square `18`; the blocker square
is attacked. -/
theorem generateBishopAttacks_spec_witness :
    (0 : Nat) < 64 ∧
      ((generateBishopAttacks ((0 : Nat) : Int) (2 ^ 18)).testBit 18 = true ↔
        BishopRayTraced 0 (2 ^ 18) 18) :=
  ⟨by decide, generateBishopAttacks_spec 0 (by decide) (2 ^ 18) 18⟩

/-! ## The verification loop -/

theorem magicIndex_lt {relevantBits : Nat} (occupancy magicNumber : Nat)
    (hb : relevantBits ≤ 64) : magicIndex occupancy magicNumber relevantBits < 2 ^ relevantBits := by
  unfold magicIndex mul64
  rw [Nat.shiftRight_eq_div_pow]
  apply Nat.div_lt_of_lt_mul
  rw [← Nat.pow_add]
  have : 64 - relevantBits + relevantBits = 64 := by omega
  rw [this]
  exact Nat.mod_lt _ (Nat.two_pow_pos 64)

theorem getD_set_self (l : List Nat) (k v : Nat) (h : k < l.length) :
    (l.set k v).getD k 0 = v := by
  simp [List.getD_eq_getElem?_getD, List.getElem?_set_self, h]

theorem getD_set_ne (l : List Nat) (k v i : Nat) (h : i ≠ k) :
    (l.set k v).getD i 0 = l.getD i 0 := by
  simp [List.getD_eq_getElem?_getD, List.getElem?_set_ne (Ne.symm h)]

/-- Loop invariant of the verification loop: if every attack set is non-zero and every slot is
inside the array, then a run that ends without `fail` leaves in each visited slot the attack
set of every index hashed to it. -/
theorem verifyLoop_sound (occupancies attacks : List Nat) (magicNumber relevantBits : Nat)
    (hslot : ∀ i, magicIndex (occupancies.getD i 0) magicNumber relevantBits < 4096) :
    ∀ (n index : Nat) (usedAttacks : List Nat), usedAttacks.length = 4096 →
      (∀ i, i < index + n → attacks.getD i 0 ≠ 0) →
      (∀ i, i < index → usedAttacks.getD
        (magicIndex (occupancies.getD i 0) magicNumber relevantBits) 0 = attacks.getD i 0) →
      (verifyLoop occupancies attacks magicNumber relevantBits n index usedAttacks).1 = false →
      ∀ i, i < index + n →
        (verifyLoop occupancies attacks magicNumber relevantBits n index usedAttacks).2.getD
          (magicIndex (occupancies.getD i 0) magicNumber relevantBits) 0 = attacks.getD i 0 := by
  intro n
  induction n with
  | zero =>
    intro index usedAttacks _ _ hinv _ i hi
    exact hinv i (by omega)
  | succ n ih =>
    intro index usedAttacks hlen hnz hinv hacc i hi
    rw [verifyLoop] at hacc ⊢
    by_cases h0 : usedAttacks.getD
        (magicIndex (occupancies.getD index 0) magicNumber relevantBits) 0 = 0
    · rw [if_pos h0] at hacc ⊢
      refine ih (index + 1) _ (by rw [List.length_set]; exact hlen)
        (fun j hj => hnz j (by omega)) ?_ hacc i (by omega)
      intro j hj
      by_cases hjs : magicIndex (occupancies.getD j 0) magicNumber relevantBits
          = magicIndex (occupancies.getD index 0) magicNumber relevantBits
      · have hjeq : j = index := by
          by_contra hne
          have h1 := hinv j (by omega)
          rw [hjs, h0] at h1
          exact hnz j (by omega) h1.symm
        subst hjeq
        exact getD_set_self _ _ _ (by rw [hlen]; exact hslot j)
      · have h1 := hinv j (by
          rcases Nat.lt_or_ge j index with h | h
          · exact h
          · exfalso
            have : j = index := by omega
            subst this
            exact hjs rfl)
        rw [← h1]
        exact getD_set_ne _ _ _ _ hjs
    · rw [if_neg h0] at hacc ⊢
      by_cases h1 : usedAttacks.getD
          (magicIndex (occupancies.getD index 0) magicNumber relevantBits) 0
            ≠ attacks.getD index 0
      · rw [if_pos h1] at hacc
        exact Bool.noConfusion hacc
      · rw [if_neg h1] at hacc ⊢
        refine ih (index + 1) _ hlen (fun j hj => hnz j (by omega)) ?_ hacc i (by omega)
        intro j hj
        rcases Nat.lt_or_ge j index with h | h
        · exact hinv j h
        · have : j = index := by omega
          subst this
          exact not_not.1 h1

/-! ## Attack sets are never empty -/

theorem slide_ne_zero {rays : List (List Nat)} (block : Nat)
    (h : ∃ ray ∈ rays, ray ≠ []) : slide true block rays ≠ 0 := by
  obtain ⟨ray, hmem, hne⟩ := h
  obtain ⟨p, ps, rfl⟩ := List.exists_cons_of_ne_nil hne
  intro h0
  have : (slide true block rays).testBit p = true :=
    (slide_testBit block p rays).2 ⟨p :: ps, hmem, Or.inl rfl⟩
  rw [h0] at this
  simp at this

theorem rookRays_eq_table : ∀ s, s < 64 → rookRays (s : Nat) = rookRayTable.getD s [] := by
  decide!

theorem rookRayTable_nonempty : ∀ s, s < 64 → ∃ ray ∈ rookRayTable.getD s [], ray ≠ [] := by
  decide

theorem bishopRayTable_nonempty : ∀ s, s < 64 → ∃ ray ∈ bishopRayTable.getD s [], ray ≠ [] := by
  decide

theorem generateRookAttacks_ne_zero {s : Nat} (hs : s < 64) (block : Nat) :
    generateRookAttacks (s : Nat) block ≠ 0 := by
  rw [generateRookAttacks_eq_slide]
  apply slide_ne_zero
  rw [rookRays_eq_table s hs]
  exact rookRayTable_nonempty s hs

theorem generateBishopAttacks_ne_zero {s : Nat} (hs : s < 64) (block : Nat) :
    generateBishopAttacks (s : Nat) block ≠ 0 := by
  rw [generateBishopAttacks_eq_slide]
  apply slide_ne_zero
  rw [bishopRays_eq_table s hs]
  exact bishopRayTable_nonempty s hs

theorem attacksOf_ne_zero {s : Nat} (hs : s < 64) (bishop : Bool) (occupancy : Nat) :
    attacksOf (s : Nat) bishop occupancy ≠ 0 := by
  unfold attacksOf
  cases bishop
  · simpa using generateRookAttacks_ne_zero hs occupancy
  · simpa using generateBishopAttacks_ne_zero hs occupancy

theorem countBits_mask_le : ∀ s, s < 64 →
    countBits (maskRookAttacks (s : Nat)) ≤ 12 ∧ countBits (maskBishopAttacks (s : Nat)) ≤ 12 := by
  decide!

theorem initOccupancies_getD (relevantBits attackMask i : Nat) (hi : i < 2 ^ relevantBits) :
    (initOccupancies relevantBits attackMask).getD i 0
      = setOccupancy i relevantBits attackMask := by
  unfold initOccupancies
  rw [Nat.one_shiftLeft]
  simp [List.getD_eq_getElem?_getD, hi]

theorem initAttacks_getD (square : Int) (bishop : Bool) (relevantBits attackMask i : Nat)
    (hi : i < 2 ^ relevantBits) :
    (initAttacks square bishop (initOccupancies relevantBits attackMask)).getD i 0
      = attacksOf square bishop (setOccupancy i relevantBits attackMask) := by
  unfold initAttacks initOccupancies
  rw [Nat.one_shiftLeft]
  simp [List.getD_eq_getElem?_getD, hi]

/-- C1: for every square `0..63`, either kind, `relevantBits` the number of set bits of the
relevant mask and every 64-bit candidate `m`: if the verification loop ends without `fail`,
then for every occupancy index `i < 2 ^ relevantBits` the slot
`(occupancies[i] * m mod 2^64) >> (64 - relevantBits)` of `usedAttacks` holds `attacks[i]`, and
any two indices hashed to the same slot have equal attack sets. -/
theorem findMagicNumber_accept_sound (square : Nat) (hs : square < 64) (bishop : Bool)
    (relevantBits : Nat) (hbits : relevantBits = countBits (attackMaskOf (square : Nat) bishop))
    (m : Nat) (_hm : m < 2 ^ 64)
    (hacc : (verifyMagic (square : Nat) relevantBits bishop m).1 = false) :
    (∀ i, i < 2 ^ relevantBits →
      (verifyMagic (square : Nat) relevantBits bishop m).2.getD
        (magicIndex (setOccupancy i relevantBits (attackMaskOf (square : Nat) bishop))
          m relevantBits) 0
        = attacksOf (square : Nat) bishop
            (setOccupancy i relevantBits (attackMaskOf (square : Nat) bishop))) ∧
    (∀ i j, i < 2 ^ relevantBits → j < 2 ^ relevantBits →
      magicIndex (setOccupancy i relevantBits (attackMaskOf (square : Nat) bishop)) m relevantBits
        = magicIndex (setOccupancy j relevantBits (attackMaskOf (square : Nat) bishop))
            m relevantBits →
      attacksOf (square : Nat) bishop
          (setOccupancy i relevantBits (attackMaskOf (square : Nat) bishop))
        = attacksOf (square : Nat) bishop
            (setOccupancy j relevantBits (attackMaskOf (square : Nat) bishop))) := by
  have h12 : relevantBits ≤ 12 := by
    rw [hbits]
    unfold attackMaskOf
    cases bishop
    · simpa using (countBits_mask_le square hs).1
    · simpa using (countBits_mask_le square hs).2
  have hslot : ∀ o, magicIndex o m relevantBits < 4096 := fun o =>
    lt_of_lt_of_le (magicIndex_lt o m (by omega))
      (by
        have : 2 ^ relevantBits ≤ 2 ^ 12 := Nat.pow_le_pow_right (by decide) h12
        simpa using this)
  have key : ∀ i, i < 2 ^ relevantBits →
      (verifyMagic (square : Nat) relevantBits bishop m).2.getD
        (magicIndex (setOccupancy i relevantBits (attackMaskOf (square : Nat) bishop))
          m relevantBits) 0
        = attacksOf (square : Nat) bishop
            (setOccupancy i relevantBits (attackMaskOf (square : Nat) bishop)) := by
    intro i hi
    have hsound := verifyLoop_sound
      (initOccupancies relevantBits (attackMaskOf (square : Nat) bishop))
      (initAttacks (square : Nat) bishop
        (initOccupancies relevantBits (attackMaskOf (square : Nat) bishop)))
      m relevantBits (fun j => hslot _) (1 <<< relevantBits) 0 (List.replicate 4096 0)
      (List.length_replicate _ _)
      (fun j hj => by
        rw [Nat.one_shiftLeft, Nat.zero_add] at hj
        rw [initAttacks_getD _ _ _ _ _ hj]
        exact attacksOf_ne_zero hs bishop _)
      (fun j hj => absurd hj (Nat.not_lt_zero j))
      hacc i (by rw [Nat.one_shiftLeft, Nat.zero_add]; exact hi)
    rw [initOccupancies_getD _ _ _ hi, initAttacks_getD _ _ _ _ _ hi] at hsound
    exact hsound
  refine ⟨key, fun i j hi hj hij => ?_⟩
  rw [← key i hi, ← key j hj, hij]

/-- Witness for C1: the bishop on square `1` (five relevant bits) with the candidate
`bishopMagicNumbers[1]`, which the verification loop accepts; occupancy index `5`. -/
theorem findMagicNumber_accept_sound_witness :
    (1 : Nat) < 64 ∧ 5 = countBits (attackMaskOf ((1 : Nat) : Int) true) ∧
      0x1820843102002050 < 2 ^ 64 ∧
      (verifyMagic ((1 : Nat) : Int) 5 true 0x1820843102002050).1 = false ∧
      (verifyMagic ((1 : Nat) : Int) 5 true 0x1820843102002050).2.getD
          (magicIndex (setOccupancy 5 5 (attackMaskOf ((1 : Nat) : Int) true))
            0x1820843102002050 5) 0
        = attacksOf ((1 : Nat) : Int) true
            (setOccupancy 5 5 (attackMaskOf ((1 : Nat) : Int) true)) :=
  ⟨by decide, by decide!, by decide, by decide!,
    (findMagicNumber_accept_sound 1 (by decide) true 5 (by decide!) 0x1820843102002050
      (by decide) (by decide!)).1 5 (by decide)⟩

/-! ## Soundness of the magic check -/

theorem forceNat_eq {α : Type} (n : Nat) (k : Nat → α) : forceNat n k = k n := by
  cases n <;> rfl

theorem forceList_eq {α : Type} : ∀ (l : List Nat) (k : List Nat → α), forceList l k = k l := by
  intro l
  induction l with
  | nil => intro k; rfl
  | cons x xs ih => intro k; rw [forceList, forceNat_eq, ih]

theorem subsetSlots_nil (magic w sh occ slots : Nat) :
    subsetSlots magic w sh [] occ slots = slots ||| 1 <<< slotOf magic w sh occ := rfl

theorem subsetSlots_cons (magic w sh p : Nat) (ps : List Nat) (occ slots : Nat) :
    subsetSlots magic w sh (p :: ps) occ slots
      = subsetSlots magic w sh ps (occ ||| 1 <<< p) (subsetSlots magic w sh ps occ slots) := by
  simp only [subsetSlots, forceNat_eq]
  rfl

theorem testBit_one_shiftLeft (p q : Nat) : (1 <<< p).testBit q = decide (p = q) := by
  rw [Nat.one_shiftLeft, Nat.testBit_two_pow]

theorem subsetSlots_mono (magic w sh h : Nat) : ∀ (free : List Nat) (occ slots : Nat),
    slots.testBit h = true → (subsetSlots magic w sh free occ slots).testBit h = true := by
  intro free
  induction free with
  | nil =>
    intro occ slots hs
    rw [subsetSlots_nil, Nat.testBit_or, hs]
    rfl
  | cons p ps ih =>
    intro occ slots hs
    rw [subsetSlots_cons]
    exact ih _ _ (ih _ _ hs)

/-- Every occupancy made of `occ` and squares of the list has its slot in the bitmap. -/
theorem subsetSlots_mem (magic w sh : Nat) : ∀ (free : List Nat) (occ slots o : Nat),
    (∀ q, occ.testBit q = true → o.testBit q = true) →
    (∀ q, o.testBit q = true → occ.testBit q = true ∨ q ∈ free) →
    (subsetSlots magic w sh free occ slots).testBit (slotOf magic w sh o) = true := by
  intro free
  induction free with
  | nil =>
    intro occ slots o h1 h2
    have : o = occ := by
      apply Nat.eq_of_testBit_eq
      intro q
      cases hq : o.testBit q
      · cases hq2 : occ.testBit q
        · rfl
        · rw [h1 q hq2] at hq; exact Bool.noConfusion hq
      · rcases h2 q hq with h | h
        · exact h.symm
        · simp at h
    subst this
    rw [subsetSlots_nil, Nat.testBit_or, testBit_one_shiftLeft]
    simp
  | cons p ps ih =>
    intro occ slots o h1 h2
    rw [subsetSlots_cons]
    by_cases hp : o.testBit p = true
    · apply ih
      · intro q hq
        rw [Nat.testBit_or, testBit_one_shiftLeft] at hq
        simp only [Bool.or_eq_true, decide_eq_true_eq] at hq
        rcases hq with hq | hq
        · exact h1 q hq
        · rw [← hq]; exact hp
      · intro q hq
        rcases h2 q hq with h | h
        · left; rw [Nat.testBit_or, h]; rfl
        · rcases List.mem_cons.1 h with h | h
          · left; rw [Nat.testBit_or, testBit_one_shiftLeft, h]; simp
          · right; exact h
    · apply subsetSlots_mono
      refine ih _ _ _ h1 ?_
      intro q hq
      rcases h2 q hq with h | h
      · left; exact h
      · rcases List.mem_cons.1 h with h | h
        · rw [h] at hq; exact absurd hq hp
        · right; exact h

theorem checkClasses_sound (att : Nat → Nat) (mask magic w sh : Nat) :
    ∀ (cs : List (Nat × List Nat)) (used : Nat),
      (∀ c ∈ cs, ∀ o, InClass mask c o → att o = att c.1) →
      checkClasses mask magic w sh cs used = true →
      (∀ c ∈ cs, ∀ o, InClass mask c o → used.testBit (slotOf magic w sh o) = false) ∧
      (∀ c1 ∈ cs, ∀ c2 ∈ cs, ∀ o1 o2, InClass mask c1 o1 → InClass mask c2 o2 →
        slotOf magic w sh o1 = slotOf magic w sh o2 → att o1 = att o2) := by
  intro cs
  induction cs with
  | nil => intro used _ _; simp
  | cons c cs ih =>
    intro used hconst hchk
    rw [checkClasses, forceList_eq, forceNat_eq, forceNat_eq] at hchk
    have hland : subsetSlots magic w sh (c.2.filter fun q => mask.testBit q) c.1 0 &&& used = 0 := by
      by_contra hne
      have : Nat.beq (Nat.land (subsetSlots magic w sh (c.2.filter fun q => mask.testBit q) c.1 0)
          used) 0 = false := by
        cases hb : Nat.beq (Nat.land (subsetSlots magic w sh (c.2.filter fun q => mask.testBit q)
            c.1 0) used) 0
        · rfl
        · exact absurd (Nat.eq_of_beq_eq_true hb) hne
      rw [this] at hchk
      exact Bool.noConfusion hchk
    have hbeq : Nat.beq (Nat.land (subsetSlots magic w sh (c.2.filter fun q => mask.testBit q)
        c.1 0) used) 0 = true := by
      show Nat.beq (subsetSlots magic w sh (c.2.filter fun q => mask.testBit q) c.1 0 &&& used) 0
        = true
      rw [hland]; rfl
    rw [hbeq, cond_true, forceNat_eq] at hchk
    obtain ⟨ih1, ih2⟩ := ih _ (fun c' hc' => hconst c' (List.mem_cons_of_mem _ hc')) hchk
    -- slots of the members of the head group
    have hslot : ∀ o, InClass mask c o →
        (subsetSlots magic w sh (c.2.filter fun q => mask.testBit q) c.1 0).testBit
          (slotOf magic w sh o) = true := by
      intro o ho
      apply subsetSlots_mem _ _ _ _ _ _ _ ho.1
      intro q hq
      rcases ho.2 q hq with h | h
      · left; exact h
      · right; exact List.mem_filter.2 ⟨h.1, by simpa using h.2⟩
    have hfresh : ∀ o, InClass mask c o → used.testBit (slotOf magic w sh o) = false := by
      intro o ho
      have := congrArg (fun v => Nat.testBit v (slotOf magic w sh o)) hland
      simp only [Nat.testBit_and, hslot o ho, Bool.true_and, Nat.zero_testBit] at this
      exact this
    have htail : ∀ c' ∈ cs, ∀ o, InClass mask c' o →
        (subsetSlots magic w sh (c.2.filter fun q => mask.testBit q) c.1 0).testBit
          (slotOf magic w sh o) = false ∧ used.testBit (slotOf magic w sh o) = false := by
      intro c' hc' o ho
      have := ih1 c' hc' o ho
      change (used ||| subsetSlots magic w sh (c.2.filter fun q => mask.testBit q) c.1 0).testBit
        (slotOf magic w sh o) = false at this
      rw [Nat.testBit_or, Bool.or_eq_false_iff] at this
      exact ⟨this.2, this.1⟩
    constructor
    · intro c' hc' o ho
      rcases List.mem_cons.1 hc' with h | h
      · subst h; exact hfresh o ho
      · exact (htail c' h o ho).2
    · intro c1 hc1 c2 hc2 o1 o2 ho1 ho2 heq
      rcases List.mem_cons.1 hc1 with h1 | h1 <;> rcases List.mem_cons.1 hc2 with h2 | h2
      · rw [h1] at ho1
        rw [h2] at ho2
        rw [hconst c (List.mem_cons_self _ _) o1 ho1, hconst c (List.mem_cons_self _ _) o2 ho2]
      · rw [h1] at ho1
        have a := hslot o1 ho1
        rw [heq, (htail c2 h2 o2 ho2).1] at a
        exact Bool.noConfusion a
      · rw [h2] at ho2
        have a := hslot o2 ho2
        rw [← heq, (htail c1 h1 o1 ho1).1] at a
        exact Bool.noConfusion a
      · exact ih2 c1 h1 c2 h2 o1 o2 ho1 ho2 heq
theorem rayChoices_cons_cons (p p' : Nat) (ps : List Nat) :
    rayChoices (p :: p' :: ps) = (2 ^ p, p' :: ps) :: rayChoices (p' :: ps) := rfl

theorem rayChoices_sub : ∀ (ray : List Nat) (c : Nat × List Nat), c ∈ rayChoices ray →
    (∀ q, c.1.testBit q = true → q ∈ ray) ∧ (∀ q ∈ c.2, q ∈ ray) := by
  intro ray
  induction ray with
  | nil =>
    intro c hc
    have : c = (0, []) := by simpa [rayChoices] using hc
    subst this
    simp
  | cons p ps ih =>
    intro c hc
    cases ps with
    | nil =>
      have : c = (0, [p]) := by simpa [rayChoices] using hc
      subst this
      simp
    | cons p' ps' =>
      rw [rayChoices_cons_cons] at hc
      rcases List.mem_cons.1 hc with h | h
      · subst h
        constructor
        · intro q hq
          rw [Nat.testBit_two_pow] at hq
          have : p = q := by simpa using hq
          rw [← this]; exact List.mem_cons_self _ _
        · intro q hq
          exact List.mem_cons_of_mem _ hq
      · obtain ⟨h1, h2⟩ := ih c h
        exact ⟨fun q hq => List.mem_cons_of_mem _ (h1 q hq),
          fun q hq => List.mem_cons_of_mem _ (h2 q hq)⟩

theorem rayChoices_complete : ∀ (ray : List Nat) (o : Nat), ∃ c ∈ rayChoices ray,
    (∀ q, c.1.testBit q = true → o.testBit q = true) ∧
    (∀ q ∈ ray, o.testBit q = true → c.1.testBit q = true ∨ q ∈ c.2) := by
  intro ray
  induction ray with
  | nil =>
    intro o
    exact ⟨(0, []), by simp [rayChoices], by simp, by simp⟩
  | cons p ps ih =>
    intro o
    cases ps with
    | nil =>
      refine ⟨(0, [p]), by simp [rayChoices], by simp, ?_⟩
      intro q hq _
      right
      simpa using hq
    | cons p' ps' =>
      rw [rayChoices_cons_cons]
      by_cases hp : o.testBit p = true
      · refine ⟨(2 ^ p, p' :: ps'), List.mem_cons_self _ _, ?_, ?_⟩
        · intro q hq
          rw [Nat.testBit_two_pow] at hq
          have : p = q := by simpa using hq
          rw [← this]; exact hp
        · intro q hq _
          rcases List.mem_cons.1 hq with h | h
          · left; rw [h, Nat.testBit_two_pow]; simp
          · right; exact h
      · obtain ⟨c, hc, h1, h2⟩ := ih o
        refine ⟨c, List.mem_cons_of_mem _ hc, h1, ?_⟩
        intro q hq hoq
        rcases List.mem_cons.1 hq with h | h
        · rw [h] at hoq; exact absurd hoq hp
        · exact h2 q h hoq

theorem mem_classes_cons {ray : List Nat} {rays : List (List Nat)} {c : Nat × List Nat} :
    c ∈ classes (ray :: rays) ↔
      ∃ c1 ∈ rayChoices ray, ∃ d ∈ classes rays, c = (c1.1 ||| d.1, c1.2 ++ d.2) := by
  rw [classes, List.mem_flatMap]
  constructor
  · rintro ⟨c1, hc1, hc⟩
    obtain ⟨d, hd, rfl⟩ := List.mem_map.1 hc
    exact ⟨c1, hc1, d, hd, rfl⟩
  · rintro ⟨c1, hc1, d, hd, rfl⟩
    exact ⟨c1, hc1, List.mem_map.2 ⟨d, hd, rfl⟩⟩

theorem classes_sub : ∀ (rays : List (List Nat)) (c : Nat × List Nat), c ∈ classes rays →
    (∀ q, c.1.testBit q = true → q ∈ rays.flatten) ∧ (∀ q ∈ c.2, q ∈ rays.flatten) := by
  intro rays
  induction rays with
  | nil =>
    intro c hc
    have : c = (0, []) := by simpa [classes] using hc
    subst this
    simp
  | cons ray rays ih =>
    intro c hc
    obtain ⟨c1, hc1, d, hd, rfl⟩ := mem_classes_cons.1 hc
    obtain ⟨a1, a2⟩ := rayChoices_sub ray c1 hc1
    obtain ⟨b1, b2⟩ := ih d hd
    rw [List.flatten_cons]
    constructor
    · intro q hq
      rw [Nat.testBit_or, Bool.or_eq_true] at hq
      rcases hq with h | h
      · exact List.mem_append_left _ (a1 q h)
      · exact List.mem_append_right _ (b1 q h)
    · intro q hq
      rcases List.mem_append.1 hq with h | h
      · exact List.mem_append_left _ (a2 q h)
      · exact List.mem_append_right _ (b2 q h)

theorem classes_complete : ∀ (rays : List (List Nat)) (o : Nat), ∃ c ∈ classes rays,
    (∀ q, c.1.testBit q = true → o.testBit q = true) ∧
    (∀ q ∈ rays.flatten, o.testBit q = true → c.1.testBit q = true ∨ q ∈ c.2) := by
  intro rays
  induction rays with
  | nil =>
    intro o
    exact ⟨(0, []), by simp [classes], by simp, by simp⟩
  | cons ray rays ih =>
    intro o
    obtain ⟨c1, hc1, a1, a2⟩ := rayChoices_complete ray o
    obtain ⟨d, hd, b1, b2⟩ := ih o
    refine ⟨(c1.1 ||| d.1, c1.2 ++ d.2), mem_classes_cons.2 ⟨c1, hc1, d, hd, rfl⟩, ?_, ?_⟩
    · intro q hq
      rw [Nat.testBit_or, Bool.or_eq_true] at hq
      rcases hq with h | h
      · exact a1 q h
      · exact b1 q h
    · intro q hq hoq
      rw [List.flatten_cons] at hq
      rw [Nat.testBit_or, Bool.or_eq_true]
      rcases List.mem_append.1 hq with h | h
      · rcases a2 q h hoq with h' | h'
        · exact Or.inl (Or.inl h')
        · exact Or.inr (List.mem_append_left _ h')
      · rcases b2 q h hoq with h' | h'
        · exact Or.inl (Or.inr h')
        · exact Or.inr (List.mem_append_right _ h')

theorem walkRay_cons (block p : Nat) (ps : List Nat) (attacks : Nat) :
    walkRay true block (p :: ps) attacks
      = if block.testBit p = true then attacks ||| 1 <<< p
        else walkRay true block ps (attacks ||| 1 <<< p) := by
  have hb : (1 <<< p &&& block != 0) = block.testBit p := by
    rw [Nat.one_shiftLeft, Nat.two_pow_and]
    have : 0 < 2 ^ p := Nat.two_pow_pos p
    cases block.testBit p <;> simp
  rw [walkRay]
  simp only [Bool.true_and, hb]

/-- Along one ray, two occupancies that agree with a choice of the ray, one of them up to free
squares, are walked the same way. -/
theorem walkRay_of_choice : ∀ (ray : List Nat), ray.Nodup → ∀ c ∈ rayChoices ray,
    ∀ o o' : Nat, (∀ q ∈ ray, o'.testBit q = c.1.testBit q) →
      (∀ q ∈ ray, c.1.testBit q = true → o.testBit q = true) →
      (∀ q ∈ ray, o.testBit q = true → c.1.testBit q = true ∨ q ∈ c.2) →
      ∀ attacks, walkRay true o ray attacks = walkRay true o' ray attacks := by
  intro ray
  induction ray with
  | nil => intro _ c _ o o' _ _ _ attacks; rfl
  | cons p ps ih =>
    intro hnd c hc o o' h1 h2 h3 attacks
    cases ps with
    | nil =>
      rw [walkRay_cons, walkRay_cons]
      by_cases ha : o.testBit p = true <;> by_cases hb : o'.testBit p = true <;>
        simp [ha, hb, walkRay]
    | cons p' ps' =>
      rw [rayChoices_cons_cons] at hc
      have hp : p ∈ p :: p' :: ps' := List.mem_cons_self _ _
      rcases List.mem_cons.1 hc with h | h
      · subst h
        have hcp : (2 ^ p).testBit p = true := by rw [Nat.testBit_two_pow]; simp
        have ho : o.testBit p = true := h2 p hp hcp
        have ho' : o'.testBit p = true := by rw [h1 p hp]; exact hcp
        rw [walkRay_cons o p, walkRay_cons o' p, if_pos ho, if_pos ho']
      · obtain ⟨s1, s2⟩ := rayChoices_sub _ c h
        have hnp : p ∉ p' :: ps' := (List.nodup_cons.1 hnd).1
        have hcp : c.1.testBit p = false := by
          cases hx : c.1.testBit p
          · rfl
          · exact absurd (s1 p hx) hnp
        have ho' : ¬ o'.testBit p = true := by rw [h1 p hp, hcp]; simp
        have ho : ¬ o.testBit p = true := by
          intro hx
          rcases h3 p hp hx with h' | h'
          · rw [hcp] at h'; exact Bool.noConfusion h'
          · exact hnp (s2 p h')
        rw [walkRay_cons o p, walkRay_cons o' p, if_neg ho, if_neg ho']
        exact ih (List.nodup_cons.1 hnd).2 c h o o'
          (fun q hq => h1 q (List.mem_cons_of_mem _ hq))
          (fun q hq => h2 q (List.mem_cons_of_mem _ hq))
          (fun q hq => h3 q (List.mem_cons_of_mem _ hq)) _

theorem walkRay_of_class : ∀ (rays : List (List Nat)), rays.flatten.Nodup →
    ∀ c ∈ classes rays, ∀ o o' : Nat, (∀ q ∈ rays.flatten, o'.testBit q = c.1.testBit q) →
      (∀ q ∈ rays.flatten, c.1.testBit q = true → o.testBit q = true) →
      (∀ q ∈ rays.flatten, o.testBit q = true → c.1.testBit q = true ∨ q ∈ c.2) →
      ∀ ray ∈ rays, ∀ attacks, walkRay true o ray attacks = walkRay true o' ray attacks := by
  intro rays
  induction rays with
  | nil => intro _ c _ o o' _ _ _ ray hray; simp at hray
  | cons r rays ih =>
    intro hnd c hc o o' h1 h2 h3 ray hray attacks
    obtain ⟨c1, hc1, d, hd, rfl⟩ := mem_classes_cons.1 hc
    rw [List.flatten_cons] at hnd h1 h2 h3
    obtain ⟨nd1, nd2, hdisj⟩ := List.nodup_append.1 hnd
    obtain ⟨a1, a2⟩ := rayChoices_sub r c1 hc1
    obtain ⟨b1, b2⟩ := classes_sub rays d hd
    -- on `r` the part `d` is silent, on the other rays the part `c1` is
    have hd0 : ∀ q ∈ r, d.1.testBit q = false := by
      intro q hq
      cases hx : d.1.testBit q
      · rfl
      · exact absurd (b1 q hx) (fun h => hdisj hq h)
    have hc0 : ∀ q ∈ rays.flatten, c1.1.testBit q = false := by
      intro q hq
      cases hx : c1.1.testBit q
      · rfl
      · exact absurd hq (fun h => hdisj (a1 q hx) h)
    rcases List.mem_cons.1 hray with h | h
    · subst h
      refine walkRay_of_choice ray nd1 c1 hc1 o o' ?_ ?_ ?_ attacks
      · intro q hq
        rw [h1 q (List.mem_append_left _ hq), Nat.testBit_or, hd0 q hq, Bool.or_false]
      · intro q hq hx
        exact h2 q (List.mem_append_left _ hq) (by rw [Nat.testBit_or, hx]; rfl)
      · intro q hq hx
        rcases h3 q (List.mem_append_left _ hq) hx with h' | h'
        · rw [Nat.testBit_or, hd0 q hq, Bool.or_false] at h'
          exact Or.inl h'
        · rcases List.mem_append.1 h' with h'' | h''
          · exact Or.inr h''
          · exact absurd (b2 q h'') (fun h => hdisj hq h)
    · refine ih nd2 d hd o o' ?_ ?_ ?_ ray h attacks
      · intro q hq
        rw [h1 q (List.mem_append_right _ hq), Nat.testBit_or, hc0 q hq, Bool.false_or]
      · intro q hq hx
        exact h2 q (List.mem_append_right _ hq) (by rw [Nat.testBit_or, hx, Bool.or_true])
      · intro q hq hx
        rcases h3 q (List.mem_append_right _ hq) hx with h' | h'
        · rw [Nat.testBit_or, hc0 q hq, Bool.false_or] at h'
          exact Or.inl h'
        · rcases List.mem_append.1 h' with h'' | h''
          · exact absurd hq (fun h => hdisj (a2 q h'') h)
          · exact Or.inr h''

theorem foldl_walkRay_congr (o o' : Nat) : ∀ (rays : List (List Nat)),
    (∀ ray ∈ rays, ∀ attacks, walkRay true o ray attacks = walkRay true o' ray attacks) →
    ∀ attacks, rays.foldl (fun attacks ray => walkRay true o ray attacks) attacks
      = rays.foldl (fun attacks ray => walkRay true o' ray attacks) attacks := by
  intro rays
  induction rays with
  | nil => intro _ attacks; rfl
  | cons r rays ih =>
    intro h attacks
    rw [List.foldl_cons, List.foldl_cons, h r (List.mem_cons_self _ _)]
    exact ih (fun ray hray => h ray (List.mem_cons_of_mem _ hray)) _

/-- The attack set is constant on a group. -/
theorem slide_of_inClass {rays : List (List Nat)} (hnd : rays.flatten.Nodup) (mask : Nat)
    {c : Nat × List Nat} (hc : c ∈ classes rays) {o : Nat} (ho : InClass mask c o) :
    slide true o rays = slide true c.1 rays := by
  unfold slide
  apply foldl_walkRay_congr
  exact walkRay_of_class rays hnd c hc o c.1 (fun _ _ => rfl) (fun q _ hx => ho.1 q hx)
    (fun q _ hx => (ho.2 q hx).imp id (fun h => h.1))

/-- Soundness of the check: if it succeeds, two subsets of the mask with the same slot have
the same attack set along the rays. -/
theorem magicCheck_sound {rays : List (List Nat)} {mask magic bits : Nat}
    (h : magicCheck rays mask magic bits = true) (o1 o2 : Nat)
    (h1 : ∀ q, o1.testBit q = true → mask.testBit q = true)
    (h2 : ∀ q, o2.testBit q = true → mask.testBit q = true)
    (heq : magicIndex o1 magic bits = magicIndex o2 magic bits) :
    slide true o1 rays = slide true o2 rays := by
  rw [magicCheck, forceNat_eq, forceNat_eq, forceNat_eq, forceNat_eq] at h
  simp only [Bool.and_eq_true, decide_eq_true_eq, List.all_eq_true, List.mem_range,
    Bool.or_eq_true, Bool.not_eq_true'] at h
  obtain ⟨⟨⟨hnd, hcov⟩, hlt⟩, hchk⟩ := h
  have hlt' : mask < 2 ^ 64 := by
    have : mask ≤ 18446744073709551615 := by simpa [Nat.blt] using hlt
    omega
  have hcover : ∀ q, mask.testBit q = true → q ∈ rays.flatten := by
    intro q hq
    have hq64 : q < 64 := by
      by_contra hge
      have : mask < 2 ^ q := lt_of_lt_of_le hlt' (Nat.pow_le_pow_right (by decide) (by omega))
      rw [Nat.testBit_lt_two_pow this] at hq
      exact Bool.noConfusion hq
    rcases hcov q hq64 with h' | h'
    · rw [hq] at h'; exact Bool.noConfusion h'
    · simpa using h'
  obtain ⟨-, hsame⟩ := checkClasses_sound (fun o => slide true o rays) mask magic (2 ^ 64)
    (64 - bits) (classes rays) 0
    (fun c hc o ho => slide_of_inClass hnd mask hc ho) hchk
  have hmem : ∀ o, (∀ q, o.testBit q = true → mask.testBit q = true) →
      ∃ c ∈ classes rays, InClass mask c o := by
    intro o ho
    obtain ⟨c, hc, a1, a2⟩ := classes_complete rays o
    refine ⟨c, hc, a1, fun q hq => ?_⟩
    rcases a2 q (hcover q (ho q hq)) hq with h' | h'
    · exact Or.inl h'
    · exact Or.inr ⟨h', ho q hq⟩
  obtain ⟨c1, hc1, m1⟩ := hmem o1 h1
  obtain ⟨c2, hc2, m2⟩ := hmem o2 h2
  exact hsame c1 hc1 c2 hc2 o1 o2 m1 m2 heq
theorem rookCheck_rank0 : ∀ s, s < 8 → rookCheck (s + 8 * 0) = true := by
  decide!

theorem rookCheck_rank1 : ∀ s, s < 8 → rookCheck (s + 8 * 1) = true := by
  decide!

theorem rookCheck_rank2 : ∀ s, s < 8 → rookCheck (s + 8 * 2) = true := by
  decide!

theorem rookCheck_rank3 : ∀ s, s < 8 → rookCheck (s + 8 * 3) = true := by
  decide!

theorem rookCheck_rank4 : ∀ s, s < 8 → rookCheck (s + 8 * 4) = true := by
  decide!

theorem rookCheck_rank5 : ∀ s, s < 8 → rookCheck (s + 8 * 5) = true := by
  decide!

theorem rookCheck_rank6 : ∀ s, s < 8 → rookCheck (s + 8 * 6) = true := by
  decide!

theorem rookCheck_rank7 : ∀ s, s < 8 → rookCheck (s + 8 * 7) = true := by
  decide!

theorem bishopCheck_all : ∀ s, s < 64 → bishopCheck s = true := by
  decide!

theorem rookCheck_all (s : Nat) (hs : s < 64) : rookCheck s = true := by
  obtain ⟨r, f, hf, hr, rfl⟩ : ∃ r f, f < 8 ∧ r < 8 ∧ s = f + 8 * r :=
    ⟨s / 8, s % 8, by omega, by omega, by omega⟩
  interval_cases r
  · exact rookCheck_rank0 f hf
  · exact rookCheck_rank1 f hf
  · exact rookCheck_rank2 f hf
  · exact rookCheck_rank3 f hf
  · exact rookCheck_rank4 f hf
  · exact rookCheck_rank5 f hf
  · exact rookCheck_rank6 f hf
  · exact rookCheck_rank7 f hf

theorem relevantBits_table : ∀ s, s < 64 →
    (rookRelevantBits.getD s 0 = countBits (maskRookAttacks (s : Nat)) ∧
      maskRookAttacks (s : Nat) < 2 ^ 64) ∧
    (bishopRelevantBits.getD s 0 = countBits (maskBishopAttacks (s : Nat)) ∧
      maskBishopAttacks (s : Nat) < 2 ^ 64) := by
  decide!

theorem setOccupancy_subset_of_countBits {mask bits : Nat} (hlt : mask < 2 ^ 64)
    (hbits : bits = countBits mask) (i q : Nat)
    (h : (setOccupancy i bits mask).testBit q = true) : mask.testBit q = true := by
  have hn : bits ≤ naiveCount mask := by rw [hbits, countBits_eq_naiveCount hlt]
  exact setOccupancy_testBit_mask bits mask hlt hn i q h

/-- C2: `bishopMagicNumbers` is a valid magic table.  For every square `s` in `0..63`, with
`bits = bishopRelevantBits[s]` and `mask = maskBishopAttacks s`: two occupancy indices below
`2 ^ bits` whose occupancies are hashed to the same slot by `bishopMagicNumbers[s]` have the
same `generateBishopAttacks` attack set. -/
theorem bishopMagicNumbers_valid (s : Nat) (hs : s < 64) (i j : Nat)
    (_hi : i < 2 ^ bishopRelevantBits.getD s 0) (_hj : j < 2 ^ bishopRelevantBits.getD s 0)
    (h : magicIndex
          (setOccupancy i (bishopRelevantBits.getD s 0) (maskBishopAttacks (s : Nat)))
          (bishopMagicNumbers.getD s 0) (bishopRelevantBits.getD s 0)
        = magicIndex
          (setOccupancy j (bishopRelevantBits.getD s 0) (maskBishopAttacks (s : Nat)))
          (bishopMagicNumbers.getD s 0) (bishopRelevantBits.getD s 0)) :
    generateBishopAttacks (s : Nat)
        (setOccupancy i (bishopRelevantBits.getD s 0) (maskBishopAttacks (s : Nat)))
      = generateBishopAttacks (s : Nat)
        (setOccupancy j (bishopRelevantBits.getD s 0) (maskBishopAttacks (s : Nat))) := by
  obtain ⟨hbits, hlt⟩ := (relevantBits_table s hs).2
  rw [generateBishopAttacks_eq_slide, generateBishopAttacks_eq_slide, bishopRays_eq_table s hs]
  exact magicCheck_sound (bishopCheck_all s hs) _ _
    (setOccupancy_subset_of_countBits hlt hbits i) (setOccupancy_subset_of_countBits hlt hbits j) h

/-- Witness for C2 at square `0`, whose magic number sends every occupancy to its own slot:
the indices `3` and `3`. -/
theorem bishopMagicNumbers_valid_witness :
    (0 : Nat) < 64 ∧ 3 < 2 ^ bishopRelevantBits.getD 0 0 ∧
      generateBishopAttacks ((0 : Nat) : Int)
          (setOccupancy 3 (bishopRelevantBits.getD 0 0) (maskBishopAttacks ((0 : Nat) : Int)))
        = generateBishopAttacks ((0 : Nat) : Int)
          (setOccupancy 3 (bishopRelevantBits.getD 0 0) (maskBishopAttacks ((0 : Nat) : Int))) :=
  ⟨by decide, by decide, bishopMagicNumbers_valid 0 (by decide) 3 3 (by decide) (by decide) rfl⟩

/-- C3: `rookMagicNumbers` is a valid magic table.  For every square `s` in `0..63`, with
`bits = rookRelevantBits[s]` and `mask = maskRookAttacks s`: two occupancy indices below
`2 ^ bits` whose occupancies are hashed to the same slot by `rookMagicNumbers[s]` have the
same `generateRookAttacks` attack set. -/
theorem rookMagicNumbers_valid (s : Nat) (hs : s < 64) (i j : Nat)
    (_hi : i < 2 ^ rookRelevantBits.getD s 0) (_hj : j < 2 ^ rookRelevantBits.getD s 0)
    (h : magicIndex
          (setOccupancy i (rookRelevantBits.getD s 0) (maskRookAttacks (s : Nat)))
          (rookMagicNumbers.getD s 0) (rookRelevantBits.getD s 0)
        = magicIndex
          (setOccupancy j (rookRelevantBits.getD s 0) (maskRookAttacks (s : Nat)))
          (rookMagicNumbers.getD s 0) (rookRelevantBits.getD s 0)) :
    generateRookAttacks (s : Nat)
        (setOccupancy i (rookRelevantBits.getD s 0) (maskRookAttacks (s : Nat)))
      = generateRookAttacks (s : Nat)
        (setOccupancy j (rookRelevantBits.getD s 0) (maskRookAttacks (s : Nat))) := by
  obtain ⟨hbits, hlt⟩ := (relevantBits_table s hs).1
  rw [generateRookAttacks_eq_slide, generateRookAttacks_eq_slide, rookRays_eq_table s hs]
  exact magicCheck_sound (rookCheck_all s hs) _ _
    (setOccupancy_subset_of_countBits hlt hbits i) (setOccupancy_subset_of_countBits hlt hbits j) h

/-- Witness for C3 at square `27`: the occupancy indices `0` and `1` are hashed to the same
slot, and their attack sets are equal. -/
theorem rookMagicNumbers_valid_witness :
    (27 : Nat) < 64 ∧ 0 < 2 ^ rookRelevantBits.getD 27 0 ∧ 1 < 2 ^ rookRelevantBits.getD 27 0 ∧
      magicIndex
          (setOccupancy 0 (rookRelevantBits.getD 27 0) (maskRookAttacks ((27 : Nat) : Int)))
          (rookMagicNumbers.getD 27 0) (rookRelevantBits.getD 27 0)
        = magicIndex
          (setOccupancy 1 (rookRelevantBits.getD 27 0) (maskRookAttacks ((27 : Nat) : Int)))
          (rookMagicNumbers.getD 27 0) (rookRelevantBits.getD 27 0) ∧
      generateRookAttacks ((27 : Nat) : Int)
          (setOccupancy 0 (rookRelevantBits.getD 27 0) (maskRookAttacks ((27 : Nat) : Int)))
        = generateRookAttacks ((27 : Nat) : Int)
          (setOccupancy 1 (rookRelevantBits.getD 27 0) (maskRookAttacks ((27 : Nat) : Int))) :=
  ⟨by decide, by decide, by decide, by decide!,
    rookMagicNumbers_valid 27 (by decide) 0 1 (by decide) (by decide) (by decide!)⟩

/-! ## Concrete cases on square `a1` -/

/-- C12, as stated, fails: `maskRookAttacks 56` holds square `8` (a7), which is not among the
eleven squares of the claim; the claimed bitboard is a different number. -/
theorem maskRookAttacks_a1_counterexample :
    (maskRookAttacks 56).testBit 8 = true ∧ 8 ∉ [48, 40, 32, 24, 16, 57, 58, 59, 60, 61, 62] ∧
      maskRookAttacks 56 ≠
        boardOf (fun q => decide (q ∈ [48, 40, 32, 24, 16, 57, 58, 59, 60, 61, 62])) := by
  decide

/-- C12, amended: `maskRookAttacks 56` (square a1) is exactly the bitboard of the twelve
squares a2..a7 and b1..g1, bit indices `48, 40, 32, 24, 16, 8` and `57..62`. -/
theorem maskRookAttacks_a1 :
    maskRookAttacks 56 =
      boardOf (fun q => decide (q ∈ [48, 40, 32, 24, 16, 8, 57, 58, 59, 60, 61, 62])) := by
  decide

/-- C13, as stated, fails: with the single blocker on b1, `generateRookAttacks 56` holds
square `8` (a7), which is not among the six squares of the claim. -/
theorem generateRookAttacks_a1_counterexample :
    (generateRookAttacks 56 (1 <<< 57)).testBit 8 = true ∧ 8 ∉ [48, 40, 32, 24, 16, 57] ∧
      generateRookAttacks 56 (1 <<< 57) ≠
        boardOf (fun q => decide (q ∈ [48, 40, 32, 24, 16, 57])) := by
  decide

/-- C13, amended: with the single blocker on b1, the squares of `generateRookAttacks 56` other
than a8 (bit `0`) are exactly a2..a7 and b1, bit indices `48, 40, 32, 24, 16, 8, 57`.  Nothing
is said about a8, the far end of the file. -/
theorem generateRookAttacks_a1 :
    generateRookAttacks 56 (1 <<< 57) &&& not64 (1 <<< 0) =
      boardOf (fun q => decide (q ∈ [48, 40, 32, 24, 16, 8, 57])) := by
  decide

/-! ## The relevant-bit tables -/

theorem relevantBits_bounds : ∀ s, s < 64 →
    (5 ≤ rookRelevantBits.getD s 0 ∧ rookRelevantBits.getD s 0 ≤ 12) ∧
    (5 ≤ bishopRelevantBits.getD s 0 ∧ bishopRelevantBits.getD s 0 ≤ 12) := by
  decide

/-- C14: for every square both relevant-bit tables hold the population count of the
corresponding mask; every entry lies between `5` and `12`, so `2 ^ relevantBits` never exceeds
the `4096` entries of the scratch arrays of `findMagicNumber`. -/
theorem relevantBits_spec (s : Nat) (hs : s < 64) :
    rookRelevantBits.getD s 0 = countBits (maskRookAttacks (s : Nat)) ∧
    bishopRelevantBits.getD s 0 = countBits (maskBishopAttacks (s : Nat)) ∧
    (5 ≤ rookRelevantBits.getD s 0 ∧ rookRelevantBits.getD s 0 ≤ 12) ∧
    (5 ≤ bishopRelevantBits.getD s 0 ∧ bishopRelevantBits.getD s 0 ≤ 12) ∧
    2 ^ rookRelevantBits.getD s 0 ≤ 4096 ∧ 2 ^ bishopRelevantBits.getD s 0 ≤ 4096 := by
  obtain ⟨⟨hr, -⟩, hb, -⟩ := relevantBits_table s hs
  obtain ⟨hrb, hbb⟩ := relevantBits_bounds s hs
  refine ⟨hr, hb, hrb, hbb, ?_, ?_⟩
  · calc 2 ^ rookRelevantBits.getD s 0 ≤ 2 ^ 12 := Nat.pow_le_pow_right (by decide) hrb.2
      _ = 4096 := by norm_num
  · calc 2 ^ bishopRelevantBits.getD s 0 ≤ 2 ^ 12 := Nat.pow_le_pow_right (by decide) hbb.2
      _ = 4096 := by norm_num

theorem relevantBits_spec_witness :
    rookRelevantBits.getD 0 0 = countBits (maskRookAttacks ((0 : Nat) : Int)) ∧
    bishopRelevantBits.getD 0 0 = countBits (maskBishopAttacks ((0 : Nat) : Int)) ∧
    (5 ≤ rookRelevantBits.getD 0 0 ∧ rookRelevantBits.getD 0 0 ≤ 12) ∧
    (5 ≤ bishopRelevantBits.getD 0 0 ∧ bishopRelevantBits.getD 0 0 ≤ 12) ∧
    2 ^ rookRelevantBits.getD 0 0 ≤ 4096 ∧ 2 ^ bishopRelevantBits.getD 0 0 ≤ 4096 :=
  relevantBits_spec 0 (by decide)

/-! ## Leaper attacks -/

theorem distB_iff (a b d : Nat) : distB a b d = true ↔ (a + d = b ∨ b + d = a) := by
  unfold distB
  simp only [Bool.or_eq_true, Nat.beq_eq]

theorem natBeq_false_iff (a b : Nat) : Nat.beq a b = false ↔ ¬ a = b := by
  rw [← Bool.not_eq_true, Nat.beq_eq]

theorem getD_map_range (f : Nat → Nat) {s : Nat} (hs : s < 64) :
    ((List.range 64).map f).getD s 0 = f s := by
  rw [List.getD_eq_getElem?_getD, List.getElem?_map, List.getElem?_range hs]
  rfl

theorem maskKnightAttacks_eq_boardOf : ∀ s, s < 64 →
    maskKnightAttacks (s : Nat) = boardOf (knightB s) := by
  decide!

theorem maskKingAttacks_eq_boardOf : ∀ s, s < 64 →
    maskKingAttacks (s : Nat) = boardOf (kingB s) := by
  decide!

theorem maskPawnAttacks_eq_boardOf : ∀ s, s < 64 →
    maskPawnAttacks 0 (s : Nat) = boardOf (whitePawnB s) ∧
    maskPawnAttacks 1 (s : Nat) = boardOf (blackPawnB s) := by
  decide!

/-- C15: for every square `s` in `0..63`, `knightAttacks[s]` after `init_leaper_attacks` is
`maskKnightAttacks s`, whose squares are exactly the on-board squares one rank and two files,
or two ranks and one file, away from `s`; no attacked square is more than two files away. -/
theorem maskKnightAttacks_spec (s : Nat) (hs : s < 64) :
    init_leaper_attacks.knightAttacks.getD s 0 = maskKnightAttacks (s : Nat) ∧
    ∀ q : Nat,
      ((maskKnightAttacks (s : Nat)).testBit q = true ↔
        ∃ dr df : Int, ((dr.natAbs = 1 ∧ df.natAbs = 2) ∨ (dr.natAbs = 2 ∧ df.natAbs = 1)) ∧
          IsStep s dr df q) ∧
      ((maskKnightAttacks (s : Nat)).testBit q = true → (fileOf q - fileOf s).natAbs ≤ 2) := by
  refine ⟨getD_map_range (fun square => maskKnightAttacks (square : Nat)) hs, fun q => ?_⟩
  have key : (maskKnightAttacks (s : Nat)).testBit q = true ↔
      q < 64 ∧ (((q / 8 + 1 = s / 8 ∨ s / 8 + 1 = q / 8) ∧ (q % 8 + 2 = s % 8 ∨ s % 8 + 2 = q % 8)) ∨
        ((q / 8 + 2 = s / 8 ∨ s / 8 + 2 = q / 8) ∧ (q % 8 + 1 = s % 8 ∨ s % 8 + 1 = q % 8))) := by
    rw [maskKnightAttacks_eq_boardOf s hs, boardOf_testBit]
    simp only [knightB, Bool.and_eq_true, Bool.or_eq_true, decide_eq_true_eq, distB_iff]
  constructor
  · rw [key]
    unfold IsStep rankOf fileOf
    constructor
    · intro h
      refine ⟨((q / 8 : Nat) : Int) - ((s / 8 : Nat) : Int),
        ((q % 8 : Nat) : Int) - ((s % 8 : Nat) : Int), ?_, ?_⟩ <;> omega
    · rintro ⟨dr, df, h1, h2⟩
      omega
  · intro h
    have h1 := key.1 h
    unfold fileOf
    omega

/-- Witness for C15 at square `0`: the knight attacks square `10`, one rank and two files away. -/
theorem maskKnightAttacks_spec_witness :
    (0 : Nat) < 64 ∧ init_leaper_attacks.knightAttacks.getD 0 0 = maskKnightAttacks ((0 : Nat) : Int) ∧
      ((maskKnightAttacks ((0 : Nat) : Int)).testBit 10 = true →
        (fileOf 10 - fileOf 0).natAbs ≤ 2) :=
  ⟨by decide, (maskKnightAttacks_spec 0 (by decide)).1, ((maskKnightAttacks_spec 0 (by decide)).2 10).2⟩

theorem maskPawnAttacks_edge_file : ∀ s, s < 64 → (s % 8 = 0 ∨ s % 8 = 7) →
    countBits (maskPawnAttacks 0 (s : Nat)) = (if s / 8 = 0 then 0 else 1) ∧
    countBits (maskPawnAttacks 1 (s : Nat)) = (if s / 8 = 7 then 0 else 1) := by
  decide!

/-- C16: for every square `s` in `0..63`, `maskPawnAttacks white s` is exactly the on-board
squares one rank down (towards rank index `0`) on the two neighbouring files, and
`maskPawnAttacks black s` exactly those one rank up; so a pawn on file a or h attacks a single
square, a white pawn on rank index `0` and a black pawn on rank index `7` attack none, and no
attack wraps around a board edge.  The table `pawnAttacks` holds these values. -/
theorem maskPawnAttacks_spec (s : Nat) (hs : s < 64) :
    ((init_leaper_attacks.pawnAttacks.getD 0 []).getD s 0 = maskPawnAttacks 0 (s : Nat) ∧
      (init_leaper_attacks.pawnAttacks.getD 1 []).getD s 0 = maskPawnAttacks 1 (s : Nat)) ∧
    (∀ q : Nat,
      ((maskPawnAttacks 0 (s : Nat)).testBit q = true ↔ (IsStep s (-1) (-1) q ∨ IsStep s (-1) 1 q)) ∧
      ((maskPawnAttacks 1 (s : Nat)).testBit q = true ↔ (IsStep s 1 (-1) q ∨ IsStep s 1 1 q))) ∧
    (rankOf s = 0 → maskPawnAttacks 0 (s : Nat) = 0) ∧
    (rankOf s = 7 → maskPawnAttacks 1 (s : Nat) = 0) ∧
    ((fileOf s = 0 ∨ fileOf s = 7) →
      countBits (maskPawnAttacks 0 (s : Nat)) = (if s / 8 = 0 then 0 else 1) ∧
      countBits (maskPawnAttacks 1 (s : Nat)) = (if s / 8 = 7 then 0 else 1)) := by
  have keyW : ∀ q, (maskPawnAttacks 0 (s : Nat)).testBit q = true ↔
      q < 64 ∧ q / 8 + 1 = s / 8 ∧ (q % 8 + 1 = s % 8 ∨ s % 8 + 1 = q % 8) := by
    intro q
    rw [(maskPawnAttacks_eq_boardOf s hs).1, boardOf_testBit]
    simp only [whitePawnB, Bool.and_eq_true, decide_eq_true_eq, distB_iff, Nat.beq_eq]
  have keyB : ∀ q, (maskPawnAttacks 1 (s : Nat)).testBit q = true ↔
      q < 64 ∧ s / 8 + 1 = q / 8 ∧ (q % 8 + 1 = s % 8 ∨ s % 8 + 1 = q % 8) := by
    intro q
    rw [(maskPawnAttacks_eq_boardOf s hs).2, boardOf_testBit]
    simp only [blackPawnB, Bool.and_eq_true, decide_eq_true_eq, distB_iff, Nat.beq_eq]
  refine ⟨⟨getD_map_range (fun square => maskPawnAttacks 0 (square : Nat)) hs,
    getD_map_range (fun square => maskPawnAttacks 1 (square : Nat)) hs⟩, fun q => ⟨?_, ?_⟩, ?_, ?_,
    fun hf => maskPawnAttacks_edge_file s hs (by unfold fileOf at hf; omega)⟩
  · rw [keyW]
    unfold IsStep rankOf fileOf
    omega
  · rw [keyB]
    unfold IsStep rankOf fileOf
    omega
  · intro h0
    apply Nat.eq_of_testBit_eq
    intro q
    rw [Nat.zero_testBit]
    cases hq : (maskPawnAttacks 0 (s : Nat)).testBit q
    · rfl
    · have := (keyW q).1 hq
      unfold rankOf at h0
      omega
  · intro h7
    apply Nat.eq_of_testBit_eq
    intro q
    rw [Nat.zero_testBit]
    cases hq : (maskPawnAttacks 1 (s : Nat)).testBit q
    · rfl
    · have := (keyB q).1 hq
      unfold rankOf at h7
      omega

/-- Witness for C16 at square `0` (file a, rank index `0`): a white pawn there attacks
nothing. -/
theorem maskPawnAttacks_spec_witness :
    (0 : Nat) < 64 ∧ rankOf 0 = 0 ∧ maskPawnAttacks 0 ((0 : Nat) : Int) = 0 :=
  ⟨by decide, by decide, (maskPawnAttacks_spec 0 (by decide)).2.2.1 (by decide)⟩

/-- C17: for every square `s` in `0..63`, `kingAttacks[s]` after `init_leaper_attacks` is
`maskKingAttacks s`, whose squares are exactly the on-board squares at most one rank and at
most one file away from `s`, other than `s` itself. -/
theorem maskKingAttacks_spec (s : Nat) (hs : s < 64) :
    init_leaper_attacks.kingAttacks.getD s 0 = maskKingAttacks (s : Nat) ∧
    ∀ q : Nat,
      ((maskKingAttacks (s : Nat)).testBit q = true ↔
        ∃ dr df : Int, (dr = -1 ∨ dr = 0 ∨ dr = 1) ∧ (df = -1 ∨ df = 0 ∨ df = 1) ∧
          ¬ (dr = 0 ∧ df = 0) ∧ IsStep s dr df q) := by
  refine ⟨getD_map_range (fun square => maskKingAttacks (square : Nat)) hs, fun q => ?_⟩
  have key : (maskKingAttacks (s : Nat)).testBit q = true ↔
      q < 64 ∧ (((((¬ q = s) ∧ q / 8 ≤ s / 8 + 1) ∧ s / 8 ≤ q / 8 + 1) ∧ q % 8 ≤ s % 8 + 1) ∧
        s % 8 ≤ q % 8 + 1) := by
    rw [maskKingAttacks_eq_boardOf s hs, boardOf_testBit]
    simp only [kingB, Bool.and_eq_true, decide_eq_true_eq, Nat.ble_eq, Bool.not_eq_true',
      natBeq_false_iff]
  rw [key]
  unfold IsStep rankOf fileOf
  constructor
  · intro h
    refine ⟨((q / 8 : Nat) : Int) - ((s / 8 : Nat) : Int),
      ((q % 8 : Nat) : Int) - ((s % 8 : Nat) : Int), ?_, ?_, ?_, ?_⟩ <;> omega
  · rintro ⟨dr, df, h1, h2, h3, h4⟩
    omega

/-- Witness for C17 at square `0`. -/
theorem maskKingAttacks_spec_witness :
    (0 : Nat) < 64 ∧ init_leaper_attacks.kingAttacks.getD 0 0 = maskKingAttacks ((0 : Nat) : Int) :=
  ⟨by decide, (maskKingAttacks_spec 0 (by decide)).1⟩

/-! ## Blockers outside the relevant mask -/

theorem rookRayTable_cover : ∀ s, s < 64 →
    coverCheck (maskRookAttacks (s : Nat)) (rookRayTable.getD s []) = true := by
  decide!

theorem bishopRayTable_cover : ∀ s, s < 64 →
    coverCheck (maskBishopAttacks (s : Nat)) (bishopRayTable.getD s []) = true := by
  decide!

/-- A walk along a ray looks at the occupancy only on the squares before the last one. -/
theorem walkRay_congr_dropLast (o o' : Nat) : ∀ (ray : List Nat),
    (∀ q ∈ ray.dropLast, o.testBit q = o'.testBit q) →
    ∀ attacks, walkRay true o ray attacks = walkRay true o' ray attacks := by
  intro ray
  induction ray with
  | nil => intro _ attacks; rfl
  | cons p ps ih =>
    intro h attacks
    cases ps with
    | nil =>
      rw [walkRay_cons o p, walkRay_cons o' p]
      by_cases ha : o.testBit p = true <;> by_cases hb : o'.testBit p = true <;>
        simp [ha, hb, walkRay]
    | cons p' ps' =>
      have hp : o.testBit p = o'.testBit p := h p (by simp [List.dropLast])
      rw [walkRay_cons o p, walkRay_cons o' p, hp]
      by_cases hb : o'.testBit p = true
      · rw [if_pos hb, if_pos hb]
      · rw [if_neg hb, if_neg hb]
        exact ih (fun q hq => h q (by
          rw [List.dropLast_cons₂]
          exact List.mem_cons_of_mem _ hq)) _

theorem slide_and_mask {mask : Nat} {rays : List (List Nat)} (h : coverCheck mask rays = true)
    (occ : Nat) : slide true occ rays = slide true (occ &&& mask) rays := by
  rw [coverCheck, forceNat_eq] at h
  simp only [List.all_eq_true] at h
  unfold slide
  apply foldl_walkRay_congr
  intro ray hray
  apply walkRay_congr_dropLast
  intro q hq
  rw [Nat.testBit_and, h ray hray q hq, Bool.and_true]

/-- C19: for every square `s` in `0..63` and every occupancy, blockers outside the relevant
mask do not change the blocked attack set of either slider. -/
theorem generateAttacks_and_mask (s : Nat) (hs : s < 64) (occ : Nat) :
    generateBishopAttacks (s : Nat) occ
      = generateBishopAttacks (s : Nat) (occ &&& maskBishopAttacks (s : Nat)) ∧
    generateRookAttacks (s : Nat) occ
      = generateRookAttacks (s : Nat) (occ &&& maskRookAttacks (s : Nat)) := by
  constructor
  · rw [generateBishopAttacks_eq_slide, generateBishopAttacks_eq_slide, bishopRays_eq_table s hs]
    exact slide_and_mask (bishopRayTable_cover s hs) occ
  · rw [generateRookAttacks_eq_slide, generateRookAttacks_eq_slide, rookRays_eq_table s hs]
    exact slide_and_mask (rookRayTable_cover s hs) occ

/-- Witness for C19 at square `27` with every square occupied. -/
theorem generateAttacks_and_mask_witness :
    (27 : Nat) < 64 ∧
    generateRookAttacks ((27 : Nat) : Int) (2 ^ 64 - 1)
      = generateRookAttacks ((27 : Nat) : Int) ((2 ^ 64 - 1) &&& maskRookAttacks ((27 : Nat) : Int)) :=
  ⟨by decide, (generateAttacks_and_mask 27 (by decide) (2 ^ 64 - 1)).2⟩

/-! ## The first blocker on a ray -/

theorem rookEdgeCheck_all : ∀ s, s < 64 → rookEdgeCheck s = true := by
  decide!

theorem bishopEdgeRays_eq_table : ∀ s, s < 64 → bishopEdgeRays s = bishopRayTable.getD s [] := by
  decide!

theorem prefixCheck_sound (mask : Nat) (flat : List Nat) : ∀ (edges rays : List (List Nat)),
    prefixCheck mask flat edges rays = true → ∀ edge ∈ edges, ∃ ray ∈ rays, ∃ tail,
      edge = ray ++ tail ∧ ∀ q ∈ tail, mask.testBit q = false ∧ q ∉ flat := by
  intro edges
  induction edges with
  | nil => intro rays _ edge hedge; simp at hedge
  | cons e es ih =>
    intro rays h edge hedge
    cases rays with
    | nil => simp [prefixCheck] at h
    | cons r rs =>
      rw [prefixCheck, forceList_eq] at h
      simp only [Bool.and_eq_true, decide_eq_true_eq, List.all_eq_true, Bool.not_eq_true',
        List.contains_eq_any_beq, List.any_eq_false, beq_iff_eq] at h
      obtain ⟨⟨h1, h2⟩, h3⟩ := h
      rcases List.mem_cons.1 hedge with he | he
      · refine ⟨r, List.mem_cons_self _ _, e.drop r.length, ?_, ?_⟩
        · rw [he]
          conv_lhs => rw [← List.take_append_drop r.length e, h1]
        · intro q hq
          refine ⟨(h2 q hq).1, fun hmem => ?_⟩
          exact (h2 q hq).2 q hmem rfl
      · obtain ⟨ray, hray, tail, ht⟩ := ih rs h3 edge he
        exact ⟨ray, List.mem_cons_of_mem _ hray, tail, ht⟩

theorem lineB_iff (s q : Nat) : lineB s q = true ↔ OnLine s q := by
  unfold lineB
  simp only [Bool.or_eq_true, Nat.beq_eq]
  change (q / 8 = s / 8 ∨ q % 8 = s % 8) ↔ _
  unfold OnLine rankOf fileOf
  omega

theorem forceRays_eq {α : Type} : ∀ (l : List (List Nat)) (k : List (List Nat) → α),
    forceRays l k = k l := by
  intro l
  induction l with
  | nil => intro k; rfl
  | cons x xs ih => intro k; rw [forceRays, forceList_eq, ih]

theorem rookEdgeRays_traceCheck : ∀ s, s < 64 →
    forceRays (rookEdgeRays s) (fun rays => traceCheck lineB s rays) = true := by
  decide!

/-- The edge rays of a rook are the squares of its rank and file, ordered outwards. -/
theorem rookEdgeRays_trace (s : Nat) (hs : s < 64) : RaysTrace OnLine s (rookEdgeRays s) := by
  have h := rookEdgeRays_traceCheck s hs
  rw [forceRays_eq] at h
  exact traceCheck_sound OnLine lineB lineB_iff s _ h

/-- The edge rays of a bishop are the squares of its diagonals, ordered outwards. -/
theorem bishopEdgeRays_trace (s : Nat) (hs : s < 64) :
    RaysTrace OnDiagonal s (bishopEdgeRays s) := by
  rw [bishopEdgeRays_eq_table s hs]
  exact bishopRayTable_trace s hs

theorem reach_mem {block q : Nat} : ∀ {ray : List Nat}, Reach block q ray → q ∈ ray := by
  intro ray
  induction ray with
  | nil => intro h; exact h.elim
  | cons p ps ih =>
    intro h
    rcases h with h | ⟨_, h⟩
    · rw [h]; exact List.mem_cons_self _ _
    · exact List.mem_cons_of_mem _ (ih h)

/-- A ray with a blocked square splits at its first blocked square. -/
theorem split_first_blocker (occ : Nat) : ∀ (ray : List Nat),
    (∃ q ∈ ray, occ.testBit q = true) →
    ∃ pre b post, ray = pre ++ b :: post ∧ (∀ p ∈ pre, occ.testBit p = false) ∧
      occ.testBit b = true := by
  intro ray
  induction ray with
  | nil => rintro ⟨q, hq, _⟩; simp at hq
  | cons a ps ih =>
    rintro ⟨q, hq, hb⟩
    by_cases ha : occ.testBit a = true
    · exact ⟨[], a, ps, rfl, by simp, ha⟩
    · have hq' : q ∈ ps := by
        rcases List.mem_cons.1 hq with h | h
        · rw [h] at hb; exact absurd hb ha
        · exact h
      obtain ⟨pre, b, post, he, hpre, hbb⟩ := ih ⟨q, hq', hb⟩
      refine ⟨a :: pre, b, post, by rw [he]; rfl, ?_, hbb⟩
      intro p hp
      rcases List.mem_cons.1 hp with h | h
      · rw [h]; simpa using ha
      · exact hpre p h

/-- The first blocker of a ray is reached. -/
theorem reach_first_blocker (occ b : Nat) (post : List Nat) : ∀ (pre : List Nat),
    (∀ p ∈ pre, occ.testBit p = false) → Reach occ b (pre ++ b :: post) := by
  intro pre
  induction pre with
  | nil => intro _; exact Or.inl rfl
  | cons a ps ih =>
    intro h
    exact Or.inr ⟨h a (List.mem_cons_self _ _), ih (fun p hp => h p (List.mem_cons_of_mem _ hp))⟩

/-- No square beyond the first blocker of a ray without repetition is reached. -/
theorem not_reach_beyond (occ b q : Nat) (post : List Nat) (hb : occ.testBit b = true)
    (hq : q ∈ post) : ∀ (pre : List Nat), (pre ++ b :: post).Nodup →
    ¬ Reach occ q (pre ++ b :: post) := by
  intro pre
  induction pre with
  | nil =>
    intro hnd h
    rcases h with h | ⟨h, _⟩
    · rw [List.nil_append, List.nodup_cons] at hnd
      exact hnd.1 (h ▸ hq)
    · rw [hb] at h
      exact Bool.noConfusion h
  | cons a ps ih =>
    intro hnd h
    rw [List.cons_append, List.nodup_cons] at hnd
    rcases h with h | ⟨_, h⟩
    · apply hnd.1
      rw [← h]
      exact List.mem_append_right _ (List.mem_cons_of_mem _ hq)
    · exact ih hnd.2 h

/-- In a family of rays without a repeated square, a square lies on one ray only. -/
theorem ray_unique : ∀ (rays : List (List Nat)), rays.flatten.Nodup →
    ∀ r1 ∈ rays, ∀ r2 ∈ rays, ∀ x, x ∈ r1 → x ∈ r2 → r1 = r2 := by
  intro rays
  induction rays with
  | nil => intro _ r1 h1; simp at h1
  | cons r rs ih =>
    intro hnd r1 h1 r2 h2 x hx1 hx2
    rw [List.flatten_cons, List.nodup_append] at hnd
    obtain ⟨_, hrs, hdis⟩ := hnd
    rcases List.mem_cons.1 h1 with e1 | e1 <;> rcases List.mem_cons.1 h2 with e2 | e2
    · rw [e1, e2]
    · exfalso
      rw [e1] at hx1
      exact hdis hx1 (List.mem_flatten.2 ⟨r2, e2, hx2⟩)
    · exfalso
      rw [e2] at hx2
      exact hdis hx2 (List.mem_flatten.2 ⟨r1, e1, hx1⟩)
    · exact ih hrs r1 e1 r2 e2 x hx1 hx2

theorem ray_nodup {rays : List (List Nat)} (hnd : rays.flatten.Nodup) {ray : List Nat}
    (hray : ray ∈ rays) : ray.Nodup :=
  (List.nodup_flatten.1 hnd).1 ray hray

/-- The first-blocker rule holds on a ray that is a walked ray followed by squares that are
free and on no walked ray. -/
theorem firstBlockerRule_of_prefix {rays : List (List Nat)} (hnd : rays.flatten.Nodup)
    (ray tail : List Nat) (hray : ray ∈ rays) (occ : Nat)
    (hfree : ∀ q ∈ tail, occ.testBit q = false) (hout : ∀ q ∈ tail, q ∉ rays.flatten) :
    FirstBlockerRule occ (slide true occ rays) (ray ++ tail) := by
  rintro ⟨q, hq, hb⟩
  have hq' : q ∈ ray := by
    rcases List.mem_append.1 hq with h | h
    · exact h
    · rw [hfree q h] at hb
      exact Bool.noConfusion hb
  obtain ⟨pre, b, post, he, hpre, hbb⟩ := split_first_blocker occ ray ⟨q, hq', hb⟩
  refine ⟨pre, b, post ++ tail, by rw [he]; simp, hpre, hbb, ?_, ?_⟩
  · rw [slide_testBit]
    exact ⟨ray, hray, he ▸ reach_first_blocker occ b post pre hpre⟩
  · intro x hx
    cases hval : (slide true occ rays).testBit x
    · rfl
    · exfalso
      obtain ⟨r2, hr2, hreach⟩ := (slide_testBit occ x rays).1 hval
      have hx2 : x ∈ r2 := reach_mem hreach
      rcases List.mem_append.1 hx with h | h
      · have hx1 : x ∈ ray := by
          rw [he]
          exact List.mem_append_right _ (List.mem_cons_of_mem _ h)
        have e : ray = r2 := ray_unique rays hnd ray hray r2 hr2 x hx1 hx2
        rw [← e, he] at hreach
        exact not_reach_beyond occ b x post hbb h pre (he ▸ ray_nodup hnd hray) hreach
      · exact hout x h (List.mem_flatten.2 ⟨r2, hr2, hx2⟩)

theorem magicCheck_nodup {rays : List (List Nat)} {mask magic bits : Nat}
    (h : magicCheck rays mask magic bits = true) : rays.flatten.Nodup := by
  rw [magicCheck, forceNat_eq, forceNat_eq, forceNat_eq, forceNat_eq] at h
  simp only [Bool.and_eq_true, decide_eq_true_eq] at h
  exact h.1.1.1

/-- C11: for every square `s` in `0..63`, both sliders and every occupancy inside that slider's
relevant mask at `s`: on each of the four rays from `s` to the board edge, if some square of
the ray is occupied then the first occupied square is in the generated attack set, and no
square of the ray beyond it is.  The four rays are the squares of the rank and file of `s`
(of its diagonals for the bishop), each in the order of increasing distance from `s`. -/
theorem first_blocker_rule (s : Nat) (hs : s < 64) (occ : Nat) :
    (RaysTrace OnLine s (rookEdgeRays s) ∧
      ((∀ q, occ.testBit q = true → (maskRookAttacks (s : Nat)).testBit q = true) →
        ∀ ray ∈ rookEdgeRays s, FirstBlockerRule occ (generateRookAttacks (s : Nat) occ) ray)) ∧
    (RaysTrace OnDiagonal s (bishopEdgeRays s) ∧
      ((∀ q, occ.testBit q = true → (maskBishopAttacks (s : Nat)).testBit q = true) →
        ∀ ray ∈ bishopEdgeRays s,
          FirstBlockerRule occ (generateBishopAttacks (s : Nat) occ) ray)) := by
  refine ⟨⟨rookEdgeRays_trace s hs, ?_⟩, bishopEdgeRays_trace s hs, ?_⟩
  · intro hsub edge hedge
    have hchk := rookEdgeCheck_all s hs
    rw [rookEdgeCheck, forceNat_eq, forceList_eq] at hchk
    obtain ⟨ray, hray, tail, he, htail⟩ := prefixCheck_sound _ _ _ _ hchk edge hedge
    rw [generateRookAttacks_eq_slide, rookRays_eq_table s hs, he]
    apply firstBlockerRule_of_prefix (magicCheck_nodup (rookCheck_all s hs)) ray tail hray
    · intro q hq
      cases hval : occ.testBit q
      · rfl
      · have h1 := (htail q hq).1
        rw [hsub q hval] at h1
        exact Bool.noConfusion h1
    · exact fun q hq => (htail q hq).2
  · intro _ edge hedge
    rw [bishopEdgeRays_eq_table s hs] at hedge
    rw [generateBishopAttacks_eq_slide, bishopRays_eq_table s hs]
    have h := firstBlockerRule_of_prefix (magicCheck_nodup (bishopCheck_all s hs)) edge []
      hedge occ (by simp) (by simp)
    rwa [List.append_nil] at h

/-- Witness for C11 at square `27` with the occupancy that holds square `29` only. -/
theorem first_blocker_rule_witness :
    (27 : Nat) < 64 ∧
    ((∀ q, (2 ^ 29).testBit q = true → (maskRookAttacks ((27 : Nat) : Int)).testBit q = true) →
      ∀ ray ∈ rookEdgeRays 27,
        FirstBlockerRule (2 ^ 29) (generateRookAttacks ((27 : Nat) : Int) (2 ^ 29)) ray) :=
  ⟨by decide, (first_blocker_rule 27 (by decide) (2 ^ 29)).1.2⟩

/-! ## The calls `setOccupancy` makes to `ls1bIndex` -/

theorem setOccupancyCalls_spec (index : Nat) : ∀ (n i mask occupancy : Nat) (calls : List Nat),
    mask < 2 ^ 64 → n ≤ naiveCount mask →
    (setOccupancyCalls index n i mask occupancy calls).1
        = setOccupancyLoop index n i mask occupancy ∧
    ∃ new, (setOccupancyCalls index n i mask occupancy calls).2 = calls ++ new ∧
      new.length = n ∧ ∀ b ∈ new, b ≠ 0 ∧ 0 ≤ ls1bIndex b ∧ ls1bIndex b ≤ 63 := by
  intro n
  induction n with
  | zero =>
    intro i mask occupancy calls _ _
    exact ⟨rfl, [], by simp [setOccupancyCalls], rfl, by simp⟩
  | succ n ih =>
    intro i mask occupancy calls hlt hn
    have hne : mask ≠ 0 := by
      intro h0
      rw [h0, naiveCount_zero] at hn
      omega
    obtain ⟨k, hk⟩ := exists_isLowest hne
    have hk64 : k < 64 := isLowest_lt hk hlt
    have hcnt := naiveCount_clear_lowest hk hlt
    have hpop := pop_bit_lowest hk hlt
    have hlt' : pop_bit mask (ls1bIndex mask) < 2 ^ 64 := by
      rw [hpop]; exact clear_lowest_lt hlt
    have hn' : n ≤ naiveCount (pop_bit mask (ls1bIndex mask)) := by
      rw [hpop]; omega
    rw [setOccupancyCalls, setOccupancyLoop]
    obtain ⟨h1, new, h2, h3, h4⟩ := ih (i + 1) (pop_bit mask (ls1bIndex mask))
      (if index &&& (1 <<< i) ≠ 0 then occupancy ||| oneShl (ls1bIndex mask) else occupancy)
      (calls ++ [mask]) hlt' hn'
    refine ⟨h1, mask :: new, ?_, by simp [h3], ?_⟩
    · rw [h2]; simp
    · intro b hb
      rcases List.mem_cons.1 hb with h | h
      · rw [h, ls1bIndex_of_isLowest hk hlt]
        exact ⟨hne, by omega, by omega⟩
      · exact h4 b h

theorem callsDefined_of_le {index bitsInMask attackMask : Nat} (hlt : attackMask < 2 ^ 64)
    (hbits : bitsInMask ≤ countBits attackMask) : CallsDefined index bitsInMask attackMask := by
  rw [countBits_eq_naiveCount hlt] at hbits
  obtain ⟨h1, new, h2, h3, h4⟩ := setOccupancyCalls_spec index bitsInMask 0 attackMask 0 [] hlt hbits
  rw [List.nil_append] at h2
  unfold CallsDefined setOccupancyTraced setOccupancy
  rw [h2]
  exact ⟨h1, h3, h4⟩

/-- C20: for every 64-bit mask and every `bitsInMask` up to `countBits mask`, each of the
`bitsInMask` calls to `ls1bIndex` inside `setOccupancy` receives a nonzero bitboard and returns
an index in `0..63`, never `-1`; this covers every call `findMagicNumber` makes, with the
relevant-bit count and the mask of a square `s` in `0..63`, for both sliders. -/
theorem setOccupancy_calls_defined (index : Nat) :
    (∀ bitsInMask attackMask, attackMask < 2 ^ 64 → bitsInMask ≤ countBits attackMask →
      CallsDefined index bitsInMask attackMask) ∧
    (∀ s, s < 64 →
      CallsDefined index (rookRelevantBits.getD s 0) (maskRookAttacks (s : Nat)) ∧
      CallsDefined index (bishopRelevantBits.getD s 0) (maskBishopAttacks (s : Nat))) := by
  refine ⟨fun _ _ hlt hbits => callsDefined_of_le hlt hbits, fun s hs => ?_⟩
  obtain ⟨⟨hr, hrlt⟩, hb, hblt⟩ := relevantBits_table s hs
  exact ⟨callsDefined_of_le hrlt (le_of_eq hr), callsDefined_of_le hblt (le_of_eq hb)⟩

/-- Witness for C20 at the mask `0b1010` with both of its bits asked for. -/
theorem setOccupancy_calls_defined_witness :
    (10 : Nat) < 2 ^ 64 ∧ 2 ≤ countBits 10 ∧ CallsDefined 3 2 10 :=
  ⟨by decide, by decide, (setOccupancy_calls_defined 3).1 2 10 (by decide) (by decide)⟩

/-! ## The zero return value of `findMagicNumber` -/

theorem prefilter_zero (attackMask : Nat) :
    countBits (mul64 attackMask 0 &&& 0xFF00000000000000) = 0 := by
  have h : mul64 attackMask 0 = 0 := by simp [mul64]
  rw [h, Nat.zero_and]
  rfl

theorem accepted_ne_zero {square : Int} {relevantBits : Nat} {bishop : Bool} {magicNumber : Nat}
    (h : Accepted square relevantBits bishop magicNumber) : magicNumber ≠ 0 := by
  intro h0
  have h1 := h.1
  rw [h0, prefilterSkips, prefilter_zero] at h1
  simp at h1

/-- The search loop returns the first candidate that passes verification, and `0` when none of
its candidates does. -/
theorem findMagicNumberLoop_spec (square : Int) (relevantBits : Nat) (bishop : Bool) :
    ∀ (n randomState : Nat),
      (∃ k, k < n ∧ FirstAccepted square relevantBits bishop randomState k ∧
        (findMagicNumberLoop square relevantBits bishop n randomState).1
          = candidateAt randomState k) ∨
      (NoneAccepted square relevantBits bishop randomState n ∧
        (findMagicNumberLoop square relevantBits bishop n randomState).1 = 0) := by
  intro n
  induction n with
  | zero =>
    intro randomState
    exact Or.inr ⟨fun k hk => absurd hk (Nat.not_lt_zero k), rfl⟩
  | succ n ih =>
    intro randomState
    have hstep : ¬ Accepted square relevantBits bishop (candidateAt randomState 0) →
        ((∃ k, k < n + 1 ∧ FirstAccepted square relevantBits bishop randomState k ∧
          (findMagicNumberLoop square relevantBits bishop n
            (generateMagicNumberCandidate randomState).2).1 = candidateAt randomState k) ∨
        (NoneAccepted square relevantBits bishop randomState (n + 1) ∧
          (findMagicNumberLoop square relevantBits bishop n
            (generateMagicNumberCandidate randomState).2).1 = 0)) := by
      intro hrej
      have hshift : ∀ m, NoneAccepted square relevantBits bishop
          (generateMagicNumberCandidate randomState).2 m →
          NoneAccepted square relevantBits bishop randomState (m + 1) := by
        intro m hm j hj
        cases j with
        | zero => exact hrej
        | succ j => exact hm j (by omega)
      rcases ih (generateMagicNumberCandidate randomState).2 with ⟨k, hk, hfirst, hres⟩ | ⟨hnone, hres⟩
      · exact Or.inl ⟨k + 1, by omega, ⟨hfirst.1, hshift k hfirst.2⟩, hres⟩
      · exact Or.inr ⟨hshift n hnone, hres⟩
    rw [findMagicNumberLoop]
    by_cases h1 : prefilterSkips (attackMaskOf square bishop)
        (generateMagicNumberCandidate randomState).1 = true
    · rw [if_pos h1]
      apply hstep
      intro hacc
      have := hacc.1
      rw [candidateAt, h1] at this
      exact Bool.noConfusion this
    · rw [if_neg h1]
      by_cases h2 : (verifyMagic square relevantBits bishop
          (generateMagicNumberCandidate randomState).1).1 = false
      · rw [if_pos h2]
        refine Or.inl ⟨0, by omega, ⟨⟨?_, h2⟩, fun k hk => absurd hk (Nat.not_lt_zero k)⟩, rfl⟩
        simpa [candidateAt] using h1
      · rw [if_neg h2]
        apply hstep
        intro hacc
        exact h2 hacc.2

/-- C18: the value `0` returned by `findMagicNumber` is an unambiguous failure sentinel: the
candidate `0` never passes (the pre-filter counts `0 < 6` bits for it), the search returns `0`
exactly when none of the candidates drawn within the iteration bound passes verification, and
a returned candidate, which is the first one that passes, is never `0`. -/
theorem findMagicNumber_zero_sentinel (square : Int) (relevantBits : Nat) (bishop : Bool)
    (randomState : Nat) :
    countBits (mul64 (attackMaskOf square bishop) 0 &&& 0xFF00000000000000) = 0 ∧
    ¬ Accepted square relevantBits bishop 0 ∧
    ((findMagicNumber square relevantBits bishop randomState).1 = 0 ↔
      NoneAccepted square relevantBits bishop randomState 100000000) ∧
    ((findMagicNumber square relevantBits bishop randomState).1 ≠ 0 ↔
      ∃ k, k < 100000000 ∧ FirstAccepted square relevantBits bishop randomState k ∧
        (findMagicNumber square relevantBits bishop randomState).1 = candidateAt randomState k)
    := by
  have hspec := findMagicNumberLoop_spec square relevantBits bishop 100000000 randomState
  unfold findMagicNumber
  refine ⟨prefilter_zero _, fun h => accepted_ne_zero h rfl, ?_, ?_⟩
  · constructor
    · intro h0
      rcases hspec with ⟨k, _, hfirst, hres⟩ | ⟨hnone, _⟩
      · rw [h0] at hres
        exact absurd hres.symm (accepted_ne_zero hfirst.1)
      · exact hnone
    · intro hnone
      rcases hspec with ⟨k, hk, hfirst, _⟩ | ⟨_, hres⟩
      · exact absurd hfirst.1 (hnone k hk)
      · exact hres
  · constructor
    · intro hne
      rcases hspec with ⟨k, hk, hfirst, hres⟩ | ⟨_, hres⟩
      · exact ⟨k, hk, hfirst, hres⟩
      · exact absurd hres hne
    · rintro ⟨k, _, hfirst, hres⟩
      rw [hres]
      exact accepted_ne_zero hfirst.1

/-! ## A filled slot is never taken for an empty one -/

/-- C21: for every square `s` in `0..63` and every occupancy, neither blocked attack set is
`0`, the value that marks an empty slot of `usedAttacks`.  Hence, when the verification loop
comes to a slot that holds the attack set of some occupancy and the attack set of the current
index differs from it, the loop does not overwrite the slot: it ends with `fail` set and
`usedAttacks` unchanged. -/
theorem attack_set_never_empty_slot (s : Nat) (hs : s < 64) (occ : Nat) :
    generateRookAttacks (s : Nat) occ ≠ 0 ∧ generateBishopAttacks (s : Nat) occ ≠ 0 ∧
    ∀ (bishop : Bool) (occupancies attacks usedAttacks : List Nat)
      (magicNumber relevantBits n index : Nat),
      usedAttacks.getD (magicIndex (occupancies.getD index 0) magicNumber relevantBits) 0
        = attacksOf (s : Nat) bishop occ →
      attacks.getD index 0 ≠ attacksOf (s : Nat) bishop occ →
      verifyLoop occupancies attacks magicNumber relevantBits (n + 1) index usedAttacks
        = (true, usedAttacks) := by
  refine ⟨generateRookAttacks_ne_zero hs occ, generateBishopAttacks_ne_zero hs occ, ?_⟩
  intro bishop occupancies attacks usedAttacks magicNumber relevantBits n index hslot hne
  have h0 : usedAttacks.getD (magicIndex (occupancies.getD index 0) magicNumber relevantBits) 0
      ≠ 0 := by
    rw [hslot]
    exact attacksOf_ne_zero hs bishop occ
  have h1 : usedAttacks.getD (magicIndex (occupancies.getD index 0) magicNumber relevantBits) 0
      ≠ attacks.getD index 0 := by
    rw [hslot]
    exact fun h => hne h.symm
  rw [verifyLoop, if_neg h0, if_pos h1]

/-- Witness for C21 at square `27` on the empty board. -/
theorem attack_set_never_empty_slot_witness :
    (27 : Nat) < 64 ∧ generateRookAttacks ((27 : Nat) : Int) 0 ≠ 0 ∧
      generateBishopAttacks ((27 : Nat) : Int) 0 ≠ 0 :=
  ⟨by decide, (attack_set_never_empty_slot 27 (by decide) 0).1,
    (attack_set_never_empty_slot 27 (by decide) 0).2.1⟩

/-! ## The random generator never reaches `0` -/

/-- The map `x ↦ x ^ (x << k)` on `w`-bit words is one-to-one for `k > 0`. -/
theorem xor_shiftLeft_injective (w k : Nat) (hk : 0 < k) (x y : Nat)
    (h : x ^^^ ((x <<< k) % 2 ^ w) = y ^^^ ((y <<< k) % 2 ^ w)) : x = y := by
  apply Nat.eq_of_testBit_eq
  intro i
  induction i using Nat.strong_induction_on with
  | _ i ih =>
    have hi := congrArg (fun z => Nat.testBit z i) h
    simp only [Nat.testBit_xor, Nat.testBit_mod_two_pow, Nat.testBit_shiftLeft] at hi
    by_cases hik : k ≤ i
    · have := ih (i - k) (by omega)
      rw [this] at hi
      revert hi
      cases x.testBit i <;> cases y.testBit i <;> cases y.testBit (i - k) <;>
        cases decide (i < w) <;> simp [hik]
    · revert hi
      cases x.testBit i <;> cases y.testBit i <;> simp [hik]

/-- The map `x ↦ x ^ (x >> k)` on `w`-bit words is one-to-one for `k > 0`. -/
theorem xor_shiftRight_injective (w k : Nat) (hk : 0 < k) (x y : Nat) (hx : x < 2 ^ w)
    (hy : y < 2 ^ w) (h : x ^^^ (x >>> k) = y ^^^ (y >>> k)) : x = y := by
  have key : ∀ n i, w ≤ i + n → x.testBit i = y.testBit i := by
    intro n
    induction n with
    | zero =>
      intro i hi
      have hle : 2 ^ w ≤ 2 ^ i := Nat.pow_le_pow_right (by decide) (by omega)
      rw [Nat.testBit_lt_two_pow (lt_of_lt_of_le hx hle),
        Nat.testBit_lt_two_pow (lt_of_lt_of_le hy hle)]
    | succ n ih =>
      intro i hi
      have hbit := congrArg (fun z => Nat.testBit z i) h
      simp only [Nat.testBit_xor, Nat.testBit_shiftRight] at hbit
      have := ih (k + i) (by omega)
      rw [this] at hbit
      revert hbit
      cases x.testBit i <;> cases y.testBit i <;> cases y.testBit (k + i) <;> simp
  apply Nat.eq_of_testBit_eq
  intro i
  exact key w i (by omega)

theorem getRandomU32Number_lt {x : Nat} (hx : x < 2 ^ 32) :
    (getRandomU32Number x).2 < 2 ^ 32 := by
  unfold getRandomU32Number
  simp only []
  have h1 : x ^^^ ((x <<< 13) % 2 ^ 32) < 2 ^ 32 :=
    Nat.xor_lt_two_pow hx (Nat.mod_lt _ (Nat.two_pow_pos 32))
  have h2 : (x ^^^ ((x <<< 13) % 2 ^ 32)) ^^^ ((x ^^^ ((x <<< 13) % 2 ^ 32)) >>> 17) < 2 ^ 32 :=
    Nat.xor_lt_two_pow h1 (lt_of_le_of_lt
      (by rw [Nat.shiftRight_eq_div_pow]; exact Nat.div_le_self _ _) h1)
  exact Nat.xor_lt_two_pow h2 (Nat.mod_lt _ (Nat.two_pow_pos 32))

theorem getRandomU32Number_injective {x y : Nat} (hx : x < 2 ^ 32) (hy : y < 2 ^ 32)
    (h : (getRandomU32Number x).2 = (getRandomU32Number y).2) : x = y := by
  unfold getRandomU32Number at h
  simp only [] at h
  have hx1 : x ^^^ ((x <<< 13) % 2 ^ 32) < 2 ^ 32 :=
    Nat.xor_lt_two_pow hx (Nat.mod_lt _ (Nat.two_pow_pos 32))
  have hy1 : y ^^^ ((y <<< 13) % 2 ^ 32) < 2 ^ 32 :=
    Nat.xor_lt_two_pow hy (Nat.mod_lt _ (Nat.two_pow_pos 32))
  have h3 := xor_shiftLeft_injective 32 5 (by decide) _ _ h
  have h2 := xor_shiftRight_injective 32 17 (by decide) _ _ hx1 hy1 h3
  exact xor_shiftLeft_injective 32 13 (by decide) _ _ h2

theorem getRandomU32Number_zero : getRandomU32Number 0 = (0, 0) := by decide

theorem getRandomU32Number_fst (x : Nat) :
    (getRandomU32Number x).1 = (getRandomU32Number x).2 := rfl

theorem getRandomU32Number_ne_zero {x : Nat} (hx : x < 2 ^ 32) (h0 : x ≠ 0) :
    (getRandomU32Number x).2 ≠ 0 := by
  intro h
  apply h0
  apply getRandomU32Number_injective hx (Nat.two_pow_pos 32)
  rw [h, getRandomU32Number_zero]

theorem randomStateAfter_spec : ∀ n, randomStateAfter n < 2 ^ 32 ∧ randomStateAfter n ≠ 0 := by
  intro n
  induction n with
  | zero => exact ⟨by decide, by decide⟩
  | succ n ih =>
    exact ⟨getRandomU32Number_lt ih.1, getRandomU32Number_ne_zero ih.1 ih.2⟩

/-- C22: one step of `getRandomU32Number` takes a nonzero 32-bit state to a nonzero 32-bit
state, which is also the number drawn, and the step is one-to-one on 32-bit states; hence
every `randomState` reached from the seed `1804289383` and every number drawn from it is
nonzero. -/
theorem getRandomU32Number_never_zero :
    (∀ x, x < 2 ^ 32 → x ≠ 0 →
      (getRandomU32Number x).2 ≠ 0 ∧ (getRandomU32Number x).2 < 2 ^ 32 ∧
        (getRandomU32Number x).1 ≠ 0) ∧
    (∀ x y, x < 2 ^ 32 → y < 2 ^ 32 →
      (getRandomU32Number x).2 = (getRandomU32Number y).2 → x = y) ∧
    randomStateAfter 0 = 1804289383 ∧
    (∀ n, randomStateAfter n ≠ 0 ∧ randomStateAfter n < 2 ^ 32 ∧
      (getRandomU32Number (randomStateAfter n)).1 ≠ 0) := by
  refine ⟨fun x hx h0 => ⟨getRandomU32Number_ne_zero hx h0, getRandomU32Number_lt hx, ?_⟩,
    fun x y hx hy h => getRandomU32Number_injective hx hy h, rfl, fun n => ?_⟩
  · rw [getRandomU32Number_fst]
    exact getRandomU32Number_ne_zero hx h0
  · obtain ⟨hlt, hne⟩ := randomStateAfter_spec n
    refine ⟨hne, hlt, ?_⟩
    rw [getRandomU32Number_fst]
    exact getRandomU32Number_ne_zero hlt hne

/-- Witness for C22 at the seed: the first number drawn is nonzero. -/
theorem getRandomU32Number_never_zero_witness :
    (1804289383 : Nat) < 2 ^ 32 ∧ (1804289383 : Nat) ≠ 0 ∧
      (getRandomU32Number 1804289383).1 ≠ 0 :=
  ⟨by decide, by decide,
    (getRandomU32Number_never_zero.1 1804289383 (by decide) (by decide)).2.2⟩

end ChessEngine
